import Mathlib

/-!
# Chaos engine of the editor store (`client/src/utils/store.js`)

A shallow embedding of the zustand store that drives the stress / collapse
machinery, together with the timers it schedules.

Conventions of the embedding

* Numbers that carry the stress score are rationals (`ℚ`); counters are naturals;
  clock readings (`Date.now()`, milliseconds) are integers. `calculateStress` is
  given twice: in exact arithmetic (`calculateStress`), in which the invariants of
  the score are stated, and in the IEEE-754 binary64 arithmetic of the engine
  (`calculateStressDouble`), every operation rounded to nearest, ties to even.
* A synchronous store action reads the clock as one instant `now`, passed as an
  argument; `Math.random()` results are passed as arguments of type `RandomDraw`.
* `set(partial)` of zustand is a record update: fields not named keep their value.
* Text is a `String`; the regular expressions used by `calculateStress` only
  mention characters of the basic plane, so counting over code points and over
  UTF-16 units agree.
* The regular expressions of `mutateCode` and of the editor component are terms of
  `Re`, run by a backtracking matcher (`Re.run`) that tries the alternatives in the
  order of an ECMAScript engine; the stages of `mutateCode` work on character lists.
* Code that draws several random numbers takes the stream of the coming
  `Math.random()` results (`Rng`) and returns the stream that is left.
* The editor component (`CodeEditor.jsx`) is an `Editor`: the store, the component
  state and the callbacks held by `setTimeout`, each with its due time.
* The page component (`EditorPage.jsx`) is a `Page`: the store and the values that the
  closures of its collapse handler hold.
-/

namespace EditorStore

/-! ## Data model -/

/-- The object pushed to `crashHistory` by `triggerCrash` (`crashData`). -/
structure CrashData where
  code : String
  timestamp : Int
  generation : Nat
  stress : ℚ
  deriving DecidableEq, Repr

/-- One entry of the `mutations` array of `triggerCrash`. -/
structure Mutation where
  name : String
  bgColor : String
  textColor : String
  fontSize : Nat
  indentSize : Nat
  visualEffect : String
  deriving DecidableEq, Repr

/-- The data fields of the store created by `create((set, get) => ({ ... }))`. -/
structure State where
  code : String
  language : String
  editorMode : String
  stress : ℚ
  stability : ℚ
  generation : Nat
  totalKeystrokes : Nat
  collapseCount : Nat
  stabilityHistory : List ℚ
  isCrashing : Bool
  crashIntensity : Nat
  glitchLevel : Nat
  lastCollapseTime : Option Int
  collapseOnCooldown : Bool
  codeHistory : List String
  crashHistory : List CrashData
  currentMutation : Option Mutation
  currentVisualEffect : Option String
  backgroundColor : String
  textColor : String
  fontSize : Nat
  indentSize : Nat
  sessionStartTime : Int
  pythonOutput : String
  isExecuting : Bool
  deriving DecidableEq, Repr

/-- The store as created at time `t0` (`sessionStartTime: Date.now()`). -/
def initialState (t0 : Int) : State where
  code := ""
  language := "python"
  editorMode := "vscode"
  stress := 0
  stability := 100
  generation := 0
  totalKeystrokes := 0
  collapseCount := 0
  stabilityHistory := [100]
  isCrashing := false
  crashIntensity := 0
  glitchLevel := 0
  lastCollapseTime := none
  collapseOnCooldown := false
  codeHistory := []
  crashHistory := []
  currentMutation := none
  currentVisualEffect := none
  backgroundColor := "#0a0e14"
  textColor := "#c9d1d9"
  fontSize := 14
  indentSize := 4
  sessionStartTime := t0
  pythonOutput := ""
  isExecuting := false

/-! ## Simple actions -/

/-- Action `setCode: (code) => set({ code })`. -/
def setCode (s : State) (code : String) : State := { s with code := code }

/-- Action `setLanguage: (language) => set({ language })`. -/
def setLanguage (s : State) (language : String) : State := { s with language := language }

/-- Action `incrementKeystrokes`. -/
def incrementKeystrokes (s : State) : State :=
  { s with totalKeystrokes := s.totalKeystrokes + 1 }

/-! ## Text metrics used by `calculateStress` -/

/-- The characters matched by `\s` in an ECMAScript regular expression. -/
def isWhiteSpace (c : Char) : Bool :=
  let n := c.toNat
  n == 0x09 || n == 0x0A || n == 0x0B || n == 0x0C || n == 0x0D || n == 0x20 ||
  n == 0xA0 || n == 0x1680 || (0x2000 ≤ n && n ≤ 0x200A) || n == 0x2028 || n == 0x2029 ||
  n == 0x202F || n == 0x205F || n == 0x3000 || n == 0xFEFF

/-- The characters matched by `\w` (no unicode flag): `[A-Za-z0-9_]`. -/
def isWordChar (c : Char) : Bool := c.isAlphanum || c == '_'

/-- `String.prototype.split` with the separator `/\s+/`, as a left-to-right scan:
`cur` is the piece being built (reversed) and `inSep` tells that the previous
character belonged to a separator match, which `\s+` extends greedily. -/
def splitWhitespaceAux : List Char → Bool → List Char → List (List Char)
  | [], _, cur => [cur.reverse]
  | c :: cs, inSep, cur =>
    if isWhiteSpace c then
      if inSep then splitWhitespaceAux cs true cur
      else cur.reverse :: splitWhitespaceAux cs true []
    else splitWhitespaceAux cs false (c :: cur)

/-- The pieces of `code.split(/\s+/)`. -/
def splitWhitespace (code : String) : List (List Char) :=
  splitWhitespaceAux code.data false []

/-- `code.split(/\s+/).filter(w => w.length > 0).length`. -/
def countWords (code : String) : Nat :=
  ((splitWhitespace code).filter (fun w => decide (0 < w.length))).length

/-- `String.prototype.split` with the separator `'\n'`. -/
def splitNewlineAux : List Char → List Char → List (List Char)
  | [], cur => [cur.reverse]
  | c :: cs, cur =>
    if c = '\n' then cur.reverse :: splitNewlineAux cs []
    else splitNewlineAux cs (c :: cur)

/-- `code.split('\n').length`. -/
def countLines (code : String) : Nat := (splitNewlineAux code.data []).length

/-- `(code.match(/[{}\[\]()]/g) || []).length`. -/
def countBrackets (code : String) : Nat :=
  (code.data.filter (fun c => c = '{' ∨ c = '}' ∨ c = '[' ∨ c = ']' ∨ c = '(' ∨ c = ')')).length

/-- `(code.match(/;/g) || []).length`. -/
def countSemicolons (code : String) : Nat :=
  (code.data.filter (fun c => c = ';')).length

/-- The alternatives of the keyword regular expression, in source order. -/
def stressKeywords : List String :=
  ["function", "class", "if", "for", "while", "def", "return", "import", "const", "let", "var"]

/-- The assertion `\b` between a previous character (if any) and the rest of the input. -/
def atWordBoundary (prev : Option Char) (rest : List Char) : Bool :=
  xor (match prev with | some p => isWordChar p | none => false)
      (match rest with | c :: _ => isWordChar c | [] => false)

/-- One attempt of `/\b(function|...|var)\b/` at the current position: the first
alternative, in order, that is a prefix of the input and is followed by `\b`. -/
def matchKeywordAt (prev : Option Char) (rest : List Char) : Option String :=
  if atWordBoundary prev rest then
    stressKeywords.find? (fun k =>
      k.data.isPrefixOf rest &&
        atWordBoundary k.data.getLast? (rest.drop k.data.length))
  else none

/-- The global scan of `code.match(/\b(...)\b/g)`: `skip` counts the characters of the
current match still to be stepped over before the next attempt. -/
def countKeywordsAux : Option Char → List Char → Nat → Nat
  | _, [], _ => 0
  | _, c :: cs, skip + 1 => countKeywordsAux (some c) cs skip
  | prev, c :: cs, 0 =>
    match matchKeywordAt prev (c :: cs) with
    | some k => 1 + countKeywordsAux (some c) cs (k.data.length - 1)
    | none => countKeywordsAux (some c) cs 0

/-- `(code.match(/\b(function|class|...|var)\b/g) || []).length`. -/
def countKeywords (code : String) : Nat := countKeywordsAux none code.data 0

/-! ## `calculateStress` -/

/-- `xs.slice(-99)`: the last 99 elements, or all of them when there are fewer. -/
def sliceLast99 (xs : List ℚ) : List ℚ := xs.drop (xs.length - 99)

/-- The condition `if (lastCollapseTime)`: the field is neither `null` nor `0`. -/
def truthyTime : Option Int → Option Int
  | some t => if t = 0 then none else some t
  | none => none

/-- The score accumulated by the scoring part of `calculateStress`, before the cap, in
exact arithmetic. -/
def rawStress (code : String) (totalKeystrokes : Nat) (sessionStartTime now : Int) : ℚ :=
  let lines := countLines code
  let words := countWords code
  let timeElapsed : ℚ := ((now - sessionStartTime : Int) : ℚ) / 1000
  let stress : ℚ := 0
  let stress := stress + (words : ℚ) * 2
  let stress := stress + (lines : ℚ) * (3 / 10)
  let stress := stress + (totalKeystrokes : ℚ) * (5 / 100)
  let stress := stress + timeElapsed * (1 / 10)
  let brackets := countBrackets code
  let semicolons := countSemicolons code
  let keywords := countKeywords code
  let stress := stress + (brackets : ℚ) * (15 / 100)
  let stress := stress + (semicolons : ℚ) * (8 / 100)
  let stress := stress + (keywords : ℚ) * (25 / 100)
  stress

/-- The scoring part of `calculateStress` (source lines 73-111), run on a state whose
cooldown flag has already been handled. -/
def scoreStress (s : State) (now : Int) : State × (ℚ × ℚ) :=
  let stress := min (rawStress s.code s.totalKeystrokes s.sessionStartTime now) 100
  let stability := max 0 (100 - stress)
  ({ s with stress := stress, stability := stability,
            stabilityHistory := sliceLast99 s.stabilityHistory ++ [stability] },
   (stress, stability))

/-- Action `calculateStress` at clock reading `now`, in exact arithmetic: the new store
state and the returned pair `(stress, stability)`. -/
def calculateStress (s : State) (now : Int) : State × (ℚ × ℚ) :=
  match truthyTime s.lastCollapseTime with
  | some last =>
    let timeSinceCollapse : ℚ := ((now - last : Int) : ℚ) / 1000
    if timeSinceCollapse < 10 then
      let s1 := { s with stress := 0, stability := 100, collapseOnCooldown := true }
      let s2 := { s1 with stabilityHistory := sliceLast99 s1.stabilityHistory ++ [100] }
      (s2, (0, 100))
    else if s.collapseOnCooldown then
      scoreStress { s with collapseOnCooldown := false } now
    else scoreStress s now
  | none => scoreStress s now

/-! ## `calculateStress` in the arithmetic of the engine (IEEE-754 binary64)

A binary64 number is a rational; an operation of the source is the exact operation
followed by rounding to the nearest binary64 number, ties to even. Counters, string
lengths and clock readings are integers below `2 ^ 53`, which binary64 holds exactly. -/

/-- The power `2 ^ e` for an integer exponent. -/
def pow2 (e : Int) : ℚ :=
  match e with
  | Int.ofNat n => ((2 ^ n : Nat) : ℚ)
  | Int.negSucc n => 1 / ((2 ^ (n + 1) : Nat) : ℚ)

/-- The binary logarithm of a natural number, rounded down, found by halving at most
`fuel` times. -/
def ilog2Aux : Nat → Nat → Nat
  | 0, _ => 0
  | fuel + 1, n => if 2 ≤ n then ilog2Aux fuel (n / 2) + 1 else 0

/-- The binary logarithm of a natural number, rounded down (`0` for `0`). -/
def ilog2 (n : Nat) : Nat := ilog2Aux n n

/-- The binary exponent of a positive rational `q`: the `e` with `2 ^ e ≤ q < 2 ^ (e + 1)`. -/
def floorLog2 (q : ℚ) : Int :=
  let e0 : Int := (ilog2 q.num.natAbs : Int) - (ilog2 q.den : Int)
  if pow2 e0 ≤ q then e0 else e0 - 1

/-- The integer nearest to a rational, ties to the even one. -/
def roundHalfEven (m : ℚ) : Int :=
  let f := Rat.floor m
  let r := m - f
  if r < 1 / 2 then f else if 1 / 2 < r then f + 1 else if f % 2 = 0 then f else f + 1

/-- The exponent of the binade of a positive number, not below the least exponent
`-1022` of a normal number. -/
def expOf (a : ℚ) : Int := max (floorLog2 a) (-1022)

/-- The binary64 number nearest to a positive rational, ties to even: 53 significant
bits; below `2 ^ (-1022)` the spacing stays `2 ^ (-1074)`. -/
def roundPos (a : ℚ) : ℚ :=
  let ulp := pow2 (expOf a - 52)
  (roundHalfEven (a / ulp) : ℚ) * ulp

/-- The binary64 number that stands for a real number: the result of every arithmetic
operation and the value of every decimal literal is rounded this way. Overflow to
`Infinity` (beyond `1.8e308`) is not represented. -/
def roundDouble (q : ℚ) : ℚ :=
  if q = 0 then 0 else if 0 < q then roundPos q else -roundPos (-q)

/-- The operator `+` on numbers. -/
def fadd (a b : ℚ) : ℚ := roundDouble (a + b)

/-- The operator `-` on numbers. -/
def fsub (a b : ℚ) : ℚ := roundDouble (a - b)

/-- The operator `*` on numbers. -/
def fmul (a b : ℚ) : ℚ := roundDouble (a * b)

/-- The operator `/` on numbers. -/
def fdiv (a b : ℚ) : ℚ := roundDouble (a / b)

/-- The score accumulated by the scoring part of `calculateStress` before the cap, as
the engine computes it: every literal, every product, the quotient and every `+=` is
rounded, in the order of the source. -/
def rawStressDouble (code : String) (totalKeystrokes : Nat) (sessionStartTime now : Int) : ℚ :=
  let lines := countLines code
  let words := countWords code
  let timeElapsed : ℚ := fdiv (fsub (now : ℚ) (sessionStartTime : ℚ)) 1000
  let stress : ℚ := 0
  let stress := fadd stress (fmul (words : ℚ) 2)
  let stress := fadd stress (fmul (lines : ℚ) (roundDouble (3 / 10)))
  let stress := fadd stress (fmul (totalKeystrokes : ℚ) (roundDouble (5 / 100)))
  let stress := fadd stress (fmul timeElapsed (roundDouble (1 / 10)))
  let brackets := countBrackets code
  let semicolons := countSemicolons code
  let keywords := countKeywords code
  let stress := fadd stress (fmul (brackets : ℚ) (roundDouble (15 / 100)))
  let stress := fadd stress (fmul (semicolons : ℚ) (roundDouble (8 / 100)))
  let stress := fadd stress (fmul (keywords : ℚ) (roundDouble (25 / 100)))
  stress

/-- The scoring part of `calculateStress` (source lines 73-111) as the engine computes
it: `Math.min(stress, 100)` and `Math.max(0, 100 - stress)` over binary64. -/
def scoreStressDouble (s : State) (now : Int) : State × (ℚ × ℚ) :=
  let stress := min (rawStressDouble s.code s.totalKeystrokes s.sessionStartTime now) 100
  let stability := max 0 (fsub 100 stress)
  ({ s with stress := stress, stability := stability,
            stabilityHistory := sliceLast99 s.stabilityHistory ++ [stability] },
   (stress, stability))

/-- Action `calculateStress` at clock reading `now` as the engine computes it: the new
store state and the returned pair `(stress, stability)`. -/
def calculateStressDouble (s : State) (now : Int) : State × (ℚ × ℚ) :=
  match truthyTime s.lastCollapseTime with
  | some last =>
    let timeSinceCollapse : ℚ := fdiv (fsub (now : ℚ) (last : ℚ)) 1000
    if timeSinceCollapse < 10 then
      let s1 := { s with stress := 0, stability := 100, collapseOnCooldown := true }
      let s2 := { s1 with stabilityHistory := sliceLast99 s1.stabilityHistory ++ [100] }
      (s2, (0, 100))
    else if s.collapseOnCooldown then
      scoreStressDouble { s with collapseOnCooldown := false } now
    else scoreStressDouble s now
  | none => scoreStressDouble s now

/-! ## `triggerCrash`, its completion callback, and `reset` -/

/-- A result of `Math.random()`: a number `r` with `0 ≤ r < 1`. -/
structure RandomDraw where
  val : ℚ
  nonneg : 0 ≤ val
  lt_one : val < 1

/-- `Math.floor(Math.random() * n)` for an array of positive length `n`. -/
def randomIndex (r : RandomDraw) (n : Nat) (hn : 0 < n) : Fin n :=
  ⟨(Rat.floor (r.val * n)).toNat, by
    have h0 : (0 : ℚ) < n := Nat.cast_pos.mpr hn
    have h1 : r.val * n < n := by
      have h := mul_lt_mul_of_pos_right r.lt_one h0
      rwa [one_mul] at h
    have h2 : (0 : ℚ) ≤ r.val * n := Rat.mul_nonneg r.nonneg (Nat.cast_nonneg n)
    have h3 : Rat.floor (r.val * n) < (n : Int) := by
      change ⌊r.val * n⌋ < (n : Int)
      exact Int.floor_lt.mpr h1
    have h4 : 0 ≤ Rat.floor (r.val * n) := by
      change 0 ≤ ⌊r.val * n⌋
      exact Int.floor_nonneg.mpr h2
    omega⟩

/-- The array `modes` of `triggerCrash`. -/
def modes : List String := ["vscode", "terminal", "retro", "nano", "notepad"]

/-- The array `mutations` of `triggerCrash`. -/
def mutations : List Mutation :=
  [ { name := "NEON_PULSE", bgColor := "#0a0e14", textColor := "#00f5ff",
      fontSize := 14, indentSize := 2, visualEffect := "chromatic-aberration" },
    { name := "DARK_MATTER", bgColor := "#000000", textColor := "#a0a0a0",
      fontSize := 13, indentSize := 4, visualEffect := "blur-wave" },
    { name := "BLOOD_MOON", bgColor := "#1a0000", textColor := "#ff6b6b",
      fontSize := 14, indentSize := 3, visualEffect := "red-tint" },
    { name := "MATRIX_RAIN", bgColor := "#0d1b0d", textColor := "#00ff41",
      fontSize := 13, indentSize := 2, visualEffect := "scanlines" },
    { name := "SYNTHWAVE", bgColor := "#1a1a2e", textColor := "#ff00ff",
      fontSize := 14, indentSize := 4, visualEffect := "glow" },
    { name := "ARCTIC_FOG", bgColor := "#0a1a1a", textColor := "#a8dadc",
      fontSize := 15, indentSize := 2, visualEffect := "blur-subtle" },
    { name := "VOID_WALKER", bgColor := "#050505", textColor := "#6a6a6a",
      fontSize := 13, indentSize := 3, visualEffect := "vignette" },
    { name := "CYBER_GOLD", bgColor := "#0f0f0f", textColor := "#ffd700",
      fontSize := 14, indentSize := 4, visualEffect := "text-shadow" } ]

/-- The synchronous part of `triggerCrash` once the guard `if (state.isCrashing) return`
has been passed: the three `set` calls, in order. `rMode` and `rMutation` are the two
`Math.random()` results. -/
def triggerCrashBody (state : State) (now : Int) (rMode rMutation : RandomDraw) : State :=
  let s1 := { state with isCrashing := true, crashIntensity := 100 }
  let crashData : CrashData :=
    { code := state.code, timestamp := now, generation := state.generation, stress := state.stress }
  let s2 := { s1 with codeHistory := s1.codeHistory ++ [s1.code],
                      crashHistory := s1.crashHistory ++ [crashData],
                      collapseCount := s1.collapseCount + 1,
                      lastCollapseTime := some now }
  let newMode := modes.get (randomIndex rMode modes.length (by decide))
  let mutation := mutations.get (randomIndex rMutation mutations.length (by decide))
  { s2 with editorMode := newMode,
            currentMutation := some mutation,
            currentVisualEffect := some mutation.visualEffect,
            backgroundColor := mutation.bgColor,
            textColor := mutation.textColor,
            fontSize := mutation.fontSize,
            indentSize := mutation.indentSize,
            lastCollapseTime := some now }

/-- Action `triggerCrash` at clock reading `now`: the new store state and the delay
(in ms) of the completion callback passed to `setTimeout`, if one was scheduled. -/
def triggerCrash (state : State) (now : Int) (rMode rMutation : RandomDraw) :
    State × Option Nat :=
  if state.isCrashing then (state, none)
  else (triggerCrashBody state now rMode rMutation, some 3000)

/-- The callback given to `setTimeout(..., 3000)` by `triggerCrash`, run at clock
reading `now`. -/
def collapseComplete (state : State) (now : Int) : State :=
  { state with stress := 0, stability := 100, generation := state.generation + 1,
               isCrashing := false, crashIntensity := 0, totalKeystrokes := 0,
               sessionStartTime := now, stabilityHistory := [100] }

/-- Action `reset` at clock reading `now`. -/
def reset (state : State) (now : Int) : State :=
  { state with code := "", stress := 0, stability := 100, generation := 0,
               totalKeystrokes := 0, collapseCount := 0, isCrashing := false,
               crashIntensity := 0, codeHistory := [], crashHistory := [],
               editorMode := "vscode", backgroundColor := "#0a0e14",
               textColor := "#c9d1d9", fontSize := 14, indentSize := 4,
               sessionStartTime := now, pythonOutput := "", lastCollapseTime := none,
               currentVisualEffect := none, stabilityHistory := [100] }

/-- The handler `handleForceCollapse` of `EditorPage.jsx`. Its guard reads `isCrashing`
and `collapseOnCooldown` from the closure of the render that created the handler, not
from the store: for the button this is the latest render, for the Ctrl+Shift+K listener
(an effect with dependencies `[isCrashing]`) the render at the last change of
`isCrashing`. `triggerCrash` then reads the store itself. The result is the new store
state and the delay of the completion callback, if one was scheduled. -/
def handleForceCollapse (isCrashing collapseOnCooldown : Bool) (state : State) (now : Int)
    (rMode rMutation : RandomDraw) : State × Option Nat :=
  if !isCrashing && !collapseOnCooldown then
    triggerCrash state now rMode rMutation
  else (state, none)

/-! ## The store together with its pending timers -/

/-- The store and the due times of the completion callbacks that `setTimeout` holds. -/
structure Sys where
  store : State
  timers : List Int
  deriving DecidableEq

/-- What can happen to the store: a call of one of its actions, a call of the manual
collapse handler (with the two values its closure holds), or the firing of the pending
completion callback at position `i` of the timer list. -/
inductive Event where
  | setCode (code : String)
  | setLanguage (language : String)
  | incrementKeystrokes
  | calculateStress
  | triggerCrash (rMode rMutation : RandomDraw)
  | forceCollapse (isCrashing collapseOnCooldown : Bool) (rMode rMutation : RandomDraw)
  | reset
  | fire (i : Nat)

/-- The timer list after an action that may have scheduled a callback with a delay. -/
def schedule (timers : List Int) (now : Int) : Option Nat → List Int
  | some delay => timers ++ [now + delay]
  | none => timers

/-- One event at clock reading `now`. A timer fires only once it is due; an event
that cannot happen (`fire` of an absent or early timer) yields `none`. -/
def Sys.step (sys : Sys) (now : Int) : Event → Option Sys
  | .setCode code => some { sys with store := setCode sys.store code }
  | .setLanguage l => some { sys with store := setLanguage sys.store l }
  | .incrementKeystrokes => some { sys with store := incrementKeystrokes sys.store }
  | .calculateStress => some { sys with store := (calculateStress sys.store now).1 }
  | .triggerCrash r1 r2 =>
    let res := triggerCrash sys.store now r1 r2
    some { store := res.1, timers := schedule sys.timers now res.2 }
  | .forceCollapse ic cd r1 r2 =>
    let res := handleForceCollapse ic cd sys.store now r1 r2
    some { store := res.1, timers := schedule sys.timers now res.2 }
  | .reset => some { sys with store := reset sys.store now }
  | .fire i =>
    match sys.timers.get? i with
    | some due =>
      if due ≤ now then
        some { store := collapseComplete sys.store now, timers := sys.timers.eraseIdx i }
      else none
    | none => none

/-- A run: events with their clock readings, in order of occurrence. -/
def Sys.run (sys : Sys) : List (Int × Event) → Option Sys
  | [] => some sys
  | (now, e) :: rest =>
    match sys.step now e with
    | some sys1 => sys1.run rest
    | none => none

/-- The system right after the store has been created at time `t0`. -/
def Sys.initial (t0 : Int) : Sys := { store := initialState t0, timers := [] }

/-- A clock reading at which the session has lasted a non-negative time. -/
def elapsedNonneg (s : State) (now : Int) : Prop := s.sessionStartTime ≤ now

/-- Any clock reading. -/
def anyTime (_ : State) (_ : Int) : Prop := True

/-- The systems reachable from a freshly created store by events; `ok` restricts the
clock readings at which `calculateStress` is evaluated. -/
inductive Sys.Reachable (ok : State → Int → Prop) : Sys → Prop
  | init (t0 : Int) : Sys.Reachable ok (Sys.initial t0)
  | step {sys sys1 : Sys} (now : Int) (e : Event) (h : Sys.Reachable ok sys)
      (hstep : sys.step now e = some sys1)
      (hok : e = Event.calculateStress → ok sys.store now) : Sys.Reachable ok sys1

/-- The systems that arise under a real clock: `Date.now()` counts the milliseconds
since 1970, so the store is created, and every event happens, at a positive reading. -/
inductive Sys.Live : Sys → Prop
  | init (t0 : Int) (h0 : 0 < t0) : Sys.Live (Sys.initial t0)
  | step {sys sys1 : Sys} (now : Int) (e : Event) (h : Sys.Live sys) (hnow : 0 < now)
      (hstep : sys.step now e = some sys1) : Sys.Live sys1

/-- The cooldown window of the specification: `lastCollapseTime` is not `null` and
less than 10000 ms have passed since. -/
def cooldownActive (s : State) (now : Int) : Prop :=
  ∃ last, s.lastCollapseTime = some last ∧ now - last < 10000

/-! ## The page component (`EditorPage.jsx`) and the closures of its handler -/

/-- The page: the store with its timers, and the pairs `(isCrashing, collapseOnCooldown)`
held by the two closures through which `handleForceCollapse` is called. `button` is
the pair of the latest render (the `onClick` of the Force Collapse button, which the
same pair disables); `listener` is the pair of the render whose effect installed the
`keydown` listener (Ctrl+Shift+K), an effect with dependencies `[isCrashing]`. -/
structure Page where
  sys : Sys
  button : Bool × Bool
  listener : Bool × Bool
  deriving DecidableEq

/-- The render that follows a change of the store (`useEditorStore()` subscribes the
page to the whole store): the button gets a handler over the current values; the
listener is installed anew only when `isCrashing` differs from its value at the
previous render. -/
def Page.render (p : Page) (sys1 : Sys) : Page :=
  let seen := (sys1.store.isCrashing, sys1.store.collapseOnCooldown)
  { sys := sys1, button := seen,
    listener := if seen.1 = p.button.1 then p.listener else seen }

/-- What can happen to the page: an event of the store that does not come from the
page (an action called by the editor component, a timer), a click on the Force
Collapse button, or the shortcut Ctrl+Shift+K. -/
inductive PageEvent where
  | store (e : Event)
  | click (rMode rMutation : RandomDraw)
  | shortcut (rMode rMutation : RandomDraw)

/-- One event of the page at clock reading `now`, followed by the render it causes. -/
def Page.step (p : Page) (now : Int) : PageEvent → Option Page
  | .store e => (p.sys.step now e).map p.render
  | .click r1 r2 =>
    (p.sys.step now (Event.forceCollapse p.button.1 p.button.2 r1 r2)).map p.render
  | .shortcut r1 r2 =>
    (p.sys.step now (Event.forceCollapse p.listener.1 p.listener.2 r1 r2)).map p.render

/-- A run of the page: events with their clock readings, in order of occurrence. -/
def Page.run (p : Page) : List (Int × PageEvent) → Option Page
  | [] => some p
  | (now, e) :: rest =>
    match p.step now e with
    | some p1 => p1.run rest
    | none => none

/-- The page right after the store has been created at time `t0` and the page mounted. -/
def Page.initial (t0 : Int) : Page :=
  { sys := Sys.initial t0, button := (false, false), listener := (false, false) }

/-! ## Regular expressions of `mutateCode` -/

/-- The characters that `.` does not match: the ECMAScript line terminators. -/
def isLineTerminator (c : Char) : Bool :=
  c.toNat == 0x0A || c.toNat == 0x0D || c.toNat == 0x2028 || c.toNat == 0x2029

/-- The class `.` (no `s` flag). -/
def isDot (c : Char) : Bool := !isLineTerminator c

/-- The fragment of regular-expression syntax used by the patterns of the store:
literals, character classes, a class repeated at least `min` times (greedy or lazy),
capturing groups (never nested), sequences, alternatives, `\b` and `^`. -/
inductive Re where
  | lit (cs : List Char)
  | cls (p : Char → Bool)
  | rep (greedy : Bool) (min : Nat) (p : Char → Bool)
  | cap (r : Re)
  | seq (a b : Re)
  | alt (a b : Re)
  | wordB
  | bol

/-- A position of the backtracking matcher: the character before it (`none` at the
start of the input), the input still to read, the characters consumed since the start
of the match (latest first) and the captures closed so far, in order. -/
structure MatchState where
  prev : Option Char
  rest : List Char
  consumed : List Char
  caps : List (List Char)

/-- The position `j` characters further. -/
def MatchState.advance (s : MatchState) (j : Nat) : MatchState :=
  { s with prev := match (s.rest.take j).getLast? with
                   | some c => some c
                   | none => s.prev,
           rest := s.rest.drop j,
           consumed := (s.rest.take j).reverse ++ s.consumed }

/-- The iteration counts a repetition tries, in the order it tries them, when at most
`n` iterations are possible: downwards when greedy, upwards when lazy. -/
def repCounts (greedy : Bool) (min n : Nat) : List Nat :=
  if greedy then (List.range' min (n + 1 - min)).reverse else List.range' min (n + 1 - min)

/-- Backtracking match of `re` at a position, with continuation `k`: the result of the
first alternative, in priority order, on which the continuation succeeds. -/
def Re.run {α : Type} : Re → MatchState → (MatchState → Option α) → Option α
  | .lit cs, s, k => if cs.isPrefixOf s.rest then k (s.advance cs.length) else none
  | .cls p, s, k =>
    match s.rest with
    | c :: _ => if p c then k (s.advance 1) else none
    | [] => none
  | .rep greedy min p, s, k =>
    (repCounts greedy min (s.rest.takeWhile p).length).findSome? (fun j => k (s.advance j))
  | .cap r, s, k =>
    r.run s (fun s1 =>
      k { s1 with caps := s1.caps ++
            [(s1.consumed.take (s1.consumed.length - s.consumed.length)).reverse] })
  | .seq a b, s, k => a.run s (fun s1 => b.run s1 k)
  | .alt a b, s, k =>
    match a.run s k with
    | some x => some x
    | none => b.run s k
  | .wordB, s, k => if atWordBoundary s.prev s.rest then k s else none
  | .bol, s, k => if s.prev.isNone then k s else none

/-- A successful match: the matched text and the captures. -/
structure MatchResult where
  matched : List Char
  caps : List (List Char)
  deriving DecidableEq, Repr

/-- The continuation that ends a match. -/
def MatchState.accept (s : MatchState) : Option MatchResult :=
  some { matched := s.consumed.reverse, caps := s.caps }

/-- One attempt of `re` at the position with previous character `prev` and remaining
input `rest`. -/
def Re.matchAt (re : Re) (prev : Option Char) (rest : List Char) : Option MatchResult :=
  re.run { prev := prev, rest := rest, consumed := [], caps := [] } MatchState.accept

/-- `RegExp.prototype.exec` without the global flag: the leftmost match. -/
def Re.search (re : Re) : Option Char → List Char → Option MatchResult
  | prev, [] => re.matchAt prev []
  | prev, c :: cs =>
    match re.matchAt prev (c :: cs) with
    | some r => some r
    | none => re.search (some c) cs

/-- A piece of the input as cut by a global scan: a character outside every match, or
a match with its offset in the input. -/
inductive Segment where
  | gap (c : Char)
  | hit (offset : Nat) (r : MatchResult)
  deriving DecidableEq, Repr

/-- The global scan of `String.prototype.replace` with a `g` pattern whose matches are
never empty: matches are looked for left to right, each search starting where the
previous match ended; `skip` counts the characters of the current match still to be
stepped over and `offset` is the index of the current character. -/
def Re.scan (re : Re) : Option Char → List Char → Nat → Nat → List Segment
  | _, [], _, _ => []
  | _, c :: cs, skip + 1, offset => re.scan (some c) cs skip (offset + 1)
  | prev, c :: cs, 0, offset =>
    match re.matchAt prev (c :: cs) with
    | some r => Segment.hit offset r :: re.scan (some c) cs (r.matched.length - 1) (offset + 1)
    | none => Segment.gap c :: re.scan (some c) cs 0 (offset + 1)

/-- The replacement phase of `String.prototype.replace` with a callback: the callback
is called on the matches in order, with the match and its offset, and threads its
state `σ`; the pieces of the result are returned one per segment. -/
def replaceSegments {σ : Type} (f : σ → Nat → MatchResult → List Char × σ) :
    σ → List Segment → List (List Char) × σ
  | st, [] => ([], st)
  | st, Segment.gap c :: segs =>
    let res := replaceSegments f st segs
    ([c] :: res.1, res.2)
  | st, Segment.hit offset r :: segs =>
    let out := f st offset r
    let res := replaceSegments f out.2 segs
    (out.1 :: res.1, res.2)

/-- `text.replace(re, callback)` for a global pattern `re`. -/
def Re.replaceAll {σ : Type} (re : Re) (f : σ → Nat → MatchResult → List Char × σ) (st : σ)
    (text : List Char) : List Char × σ :=
  let res := replaceSegments f st (re.scan none text 0 0)
  (res.1.flatten, res.2)

/-- `text.replace(re, callback)` for a pattern `re` without the global flag: only the
leftmost match is replaced. `before` holds the characters already passed, latest
first. -/
def Re.replaceFirst (re : Re) (f : MatchResult → List Char) :
    Option Char → List Char → List Char → List Char
  | prev, [], before =>
    match re.matchAt prev [] with
    | some r => before.reverse ++ f r
    | none => before.reverse
  | prev, c :: cs, before =>
    match re.matchAt prev (c :: cs) with
    | some r => before.reverse ++ f r ++ (c :: cs).drop r.matched.length
    | none => re.replaceFirst f (some c) cs (c :: before)

/-! ## The random stream -/

/-- The stream of `Math.random()` results still to come. -/
structure Rng where
  draws : Nat → RandomDraw
  pos : Nat

/-- The next `Math.random()` result and the remaining stream. -/
def Rng.next (g : Rng) : RandomDraw × Rng := (g.draws g.pos, { g with pos := g.pos + 1 })

/-! ## Stage 1 of `mutateCode`: if / else to ternary -/

/-- `\s+(.+)`, the end of the if / else pattern. -/
def patElseBody : Re := .seq (.rep true 1 isWhiteSpace) (.cap (.rep true 1 isDot))

/-- `\s*\n\s+(.+)`. -/
def patElseNewline : Re := .seq (.rep true 0 isWhiteSpace) (.seq (.lit "\n".data) patElseBody)

/-- `else:\s*\n\s+(.+)`. -/
def patElseKeyword : Re := .seq (.lit "else:".data) patElseNewline

/-- `\s*else:\s*\n\s+(.+)`. -/
def patElseLine : Re := .seq (.rep true 0 isWhiteSpace) patElseKeyword

/-- `\s*\n\s*else:\s*\n\s+(.+)`. -/
def patIfBodyEnd : Re := .seq (.rep true 0 isWhiteSpace) (.seq (.lit "\n".data) patElseLine)

/-- `(.+?)\s*\n\s*else:\s*\n\s+(.+)`. -/
def patIfBody : Re := .seq (.cap (.rep false 1 isDot)) patIfBodyEnd

/-- `\s+(.+?)\s*\n\s*else:\s*\n\s+(.+)`. -/
def patIfIndent : Re := .seq (.rep true 1 isWhiteSpace) patIfBody

/-- `\s*\n\s+(.+?)\s*\n\s*else:\s*\n\s+(.+)`. -/
def patCondEnd : Re := .seq (.rep true 0 isWhiteSpace) (.seq (.lit "\n".data) patIfIndent)

/-- `:\s*\n\s+(.+?)\s*\n\s*else:\s*\n\s+(.+)`. -/
def patColon : Re := .seq (.lit ":".data) patCondEnd

/-- `(.+?):\s*\n\s+(.+?)\s*\n\s*else:\s*\n\s+(.+)`. -/
def patCond : Re := .seq (.cap (.rep false 1 isDot)) patColon

/-- `/if\s+(.+?):\s*\n\s+(.+?)\s*\n\s*else:\s*\n\s+(.+)/g`, the pattern of stage 1. -/
def ifElsePattern : Re := .seq (.lit "if".data) (.seq (.rep true 1 isWhiteSpace) patCond)

/-- `\s*=\s*(.+)`. -/
def patAssignRest : Re :=
  .seq (.rep true 0 isWhiteSpace) <| .seq (.lit "=".data) <|
  .seq (.rep true 0 isWhiteSpace) (.cap (.rep true 1 isDot))

/-- `/(\w+)\s*=\s*(.+)/`. -/
def assignPattern : Re := .seq (.cap (.rep true 1 isWordChar)) patAssignRest

/-- `/\w+\s*=\s*(.+)/`. -/
def elseAssignPattern : Re := .seq (.rep true 1 isWordChar) patAssignRest

/-- The callback of stage 1, on a match with captures `condition`, `ifBranch`,
`elseBranch`. -/
def foldIfElse (g : Rng) (_ : Nat) (r : MatchResult) : List Char × Rng :=
  let d := g.next
  if d.1.val > 1 / 2 then (r.matched, d.2)
  else
    let condition := r.caps.getD 0 []
    let ifBranch := r.caps.getD 1 []
    let elseBranch := r.caps.getD 2 []
    match assignPattern.search none ifBranch with
    | some assignMatch =>
      let varName := assignMatch.caps.getD 0 []
      let ifValue := assignMatch.caps.getD 1 []
      let elseValue :=
        match elseAssignPattern.search none elseBranch with
        | some elseMatch => elseMatch.caps.getD 0 []
        | none => elseBranch
      (varName ++ " = ".data ++ ifValue ++ " if ".data ++ condition ++ " else ".data ++ elseValue,
        d.2)
    | none => (r.matched, d.2)

/-- Stage 1 of `mutateCode`. -/
def stageIfElse (g : Rng) (text : List Char) : List Char × Rng :=
  ifElsePattern.replaceAll foldIfElse g text


/-! ## Stage 2 of `mutateCode`: identifier corruption -/

/-- The class `[a-z_]` under the `i` flag. -/
def isIdentStart (c : Char) : Bool := c.isAlpha || c == '_'

/-- `/\b([a-z_][a-z0-9_]{2,})\b/gi` (`[a-z0-9_]` under the `i` flag is `\w`). -/
def varPattern : Re :=
  .seq .wordB (.seq (.cap (.seq (.cls isIdentStart) (.rep true 2 isWordChar))) .wordB)

/-- The class `[aeiou]` under the `i` flag. -/
def isVowel (c : Char) : Bool := "aeiouAEIOU".data.contains c

/-- The class `[bcdfghjklmnpqrstvwxyz]` under the `i` flag. -/
def isConsonant (c : Char) : Bool :=
  "bcdfghjklmnpqrstvwxyzBCDFGHJKLMNPQRSTVWXYZ".data.contains c

/-- The array `keywords` of the stage-2 callback. -/
def reservedWords : List String :=
  ["def", "class", "if", "else", "elif", "for", "while", "return", "import", "from", "print",
   "range", "len", "str", "int", "list", "dict", "True", "False", "None"]

/-- `match.toLowerCase()` on a matched token (tokens are ASCII). -/
def toLowerCase (cs : List Char) : List Char := cs.map Char.toLower

/-- `keywords.includes(match.toLowerCase())`. -/
def isSkipped (name : List Char) : Bool :=
  (reservedWords.map String.data).contains (toLowerCase name)

/-- Strategy 0: `match.replace(/[aeiou]/gi, (c, i) => i === 0 ? c : '')`. -/
def stripVowels (name : List Char) : List Char :=
  ((Re.cls isVowel).replaceAll
    (fun (st : Unit) offset r => (if offset = 0 then r.matched else [], st)) () name).1

/-- Strategy 2: `match.split('').map((c, i) => Math.random() > 0.6 ? c.toUpperCase() : c)
.join('')`. -/
def randomCase : Rng → List Char → List Char × Rng
  | g, [] => ([], g)
  | g, c :: cs =>
    let d := g.next
    let c1 := if d.1.val > 6 / 10 then c.toUpper else c
    let res := randomCase d.2 cs
    (c1 :: res.1, res.2)

/-- Strategy 3: `match.replace(/([bcdfghjklmnpqrstvwxyz])/i, '$1$1')`. -/
def doubleConsonant (name : List Char) : List Char :=
  (Re.cap (.cls isConsonant)).replaceFirst (fun r => r.caps.getD 0 [] ++ r.caps.getD 0 [])
    none name []

/-- The decimal digits of a number, as JavaScript prints it. -/
def numberString (n : Nat) : List Char := (Nat.repr n).data

/-- Strategy 5: `match.replace(/[aeiou]/i, digit)`. -/
def vowelToDigit (name : List Char) (digit : Nat) : List Char :=
  (Re.cls isVowel).replaceFirst (fun _ => numberString digit) none name []

/-- The array `mutations` of the stage-2 callback, built left to right, and the entry
picked from it. -/
def corruptName (g : Rng) (name : List Char) : List Char × Rng :=
  let m0 := stripVowels name
  let d1 := g.next
  let m1 := name ++ "_v".data ++ numberString (Rat.floor (d1.1.val * 9 + 1)).toNat
  let m2 := randomCase d1.2 name
  let m3 := doubleConsonant name
  let m4 := name ++ "_mut".data
  let d5 := m2.2.next
  let m5 := vowelToDigit name (Rat.floor (d5.1.val * 10)).toNat
  let di := d5.2.next
  ([m0, m1, m2.1, m3, m4, m5].get (randomIndex di.1 6 (by decide)), di.2)

/-- The state of the stage-2 callback: the random stream, `seenVars` and `varMap`. -/
structure CorruptState where
  rng : Rng
  seenVars : List (List Char)
  varMap : List (List Char × List Char)

/-- `varMap.get(match) || match`. -/
def lookupOr (varMap : List (List Char × List Char)) (name : List Char) : List Char :=
  match varMap.lookup name with
  | some v => if v.isEmpty then name else v
  | none => name

/-- The callback of stage 2. -/
def corruptIdentifier (st : CorruptState) (_ : Nat) (r : MatchResult) :
    List Char × CorruptState :=
  if isSkipped r.matched then (r.matched, st)
  else if st.seenVars.contains r.matched then (lookupOr st.varMap r.matched, st)
  else
    let st1 := { st with seenVars := r.matched :: st.seenVars }
    let d := st1.rng.next
    if d.1.val < 4 / 10 then
      let res := corruptName d.2 r.matched
      (res.1, { st1 with rng := res.2, varMap := (r.matched, res.1) :: st1.varMap })
    else (r.matched, { st1 with rng := d.2 })

/-- The pieces stage 2 produces, one per segment of the scan. -/
def corruptPieces (g : Rng) (text : List Char) : List (List Char) × CorruptState :=
  replaceSegments corruptIdentifier { rng := g, seenVars := [], varMap := [] }
    (varPattern.scan none text 0 0)

/-- Stage 2 of `mutateCode`. -/
def stageCorrupt (g : Rng) (text : List Char) : List Char × Rng :=
  let res := varPattern.replaceAll corruptIdentifier { rng := g, seenVars := [], varMap := [] }
    text
  (res.1, res.2.rng)

/-! ## Lines of a text -/

/-- `/^\s*/`. -/
def leadingSpacePattern : Re := .seq .bol (.rep true 0 isWhiteSpace)

/-- `line.match(/^\s*/)[0]`. -/
def leadingWhitespace (line : List Char) : List Char :=
  match leadingSpacePattern.search none line with
  | some r => r.matched
  | none => []

/-- `line.match(/^\s*/)[0].length`. -/
def leadingSpaces (line : List Char) : Nat := (leadingWhitespace line).length

/-- `String.prototype.trim`. -/
def trim (line : List Char) : List Char :=
  ((line.dropWhile isWhiteSpace).reverse.dropWhile isWhiteSpace).reverse

/-- `text.split('\n')` on a character list. -/
def splitLines (text : List Char) : List (List Char) := splitNewlineAux text []

/-- `lines.join('\n')`. -/
def joinLines (lines : List (List Char)) : List Char := List.intercalate ['\n'] lines


/-! ## Stage 3 of `mutateCode`: comment injection -/

/-- The array `chaosQuotes`. -/
def chaosQuotes : List String :=
  ["# reality.reformat()", "# entropy increasing...", "# system evolution detected",
   "# mutation protocol active", "# generation consciousness emerging",
   "# code dreams of electric sheep", "# the void compiles", "# digital entropy manifest",
   "# chaos.init()", "# evolution in progress", "# syntax.mutate()", "# reality.glitch()",
   "# consciousness.emerge()", "# void.execute()"]

/-- One of the two tests of the `forEach` callback of stage 3:
`if (line.trim().startsWith(kw) && Math.random() < chance) { ... }`; the lines it
pushes. -/
def injectAfter (kw : List Char) (chance : ℚ) (g : Rng) (line : List Char) :
    List (List Char) × Rng :=
  if kw.isPrefixOf (trim line) then
    let d := g.next
    if d.1.val < chance then
      let di := d.2.next
      let quote := chaosQuotes.get (randomIndex di.1 chaosQuotes.length (by decide))
      ([leadingWhitespace line ++ "    ".data ++ quote.data], di.2)
    else ([], d.2)
  else ([], g)

/-- The `forEach` callback of stage 3: the lines pushed for one input line. -/
def injectLine (g : Rng) (line : List Char) : List (List Char) × Rng :=
  let a := injectAfter "def ".data (6 / 10) g line
  let b := injectAfter "class ".data (4 / 10) a.2 line
  (line :: (a.1 ++ b.1), b.2)

/-- `lines.forEach(callback)` with a callback that pushes lines and draws random
numbers. -/
def pushLines (f : Rng → List Char → List (List Char) × Rng) : Rng → List (List Char) →
    List (List Char) × Rng
  | g, [] => ([], g)
  | g, line :: rest =>
    let out := f g line
    let res := pushLines f out.2 rest
    (out.1 ++ res.1, res.2)

/-- Stage 3 of `mutateCode`. -/
def stageComments (g : Rng) (text : List Char) : List Char × Rng :=
  let res := pushLines injectLine g (splitLines text)
  (joinLines res.1, res.2)

/-! ## Stage 4 of `mutateCode`: range loops -/

/-- `/for\s+(\w+)\s+in\s+range\((\d+)\):/g`. -/
def forRangePattern : Re :=
  .seq (.lit "for".data) <| .seq (.rep true 1 isWhiteSpace) <|
  .seq (.cap (.rep true 1 isWordChar)) <| .seq (.rep true 1 isWhiteSpace) <|
  .seq (.lit "in".data) <| .seq (.rep true 1 isWhiteSpace) <|
  .seq (.lit "range(".data) <| .seq (.cap (.rep true 1 Char.isDigit)) (.lit "):".data)

/-- The callback of stage 4. -/
def whileLoop (g : Rng) (_ : Nat) (r : MatchResult) : List Char × Rng :=
  let d := g.next
  if d.1.val < 3 / 10 then
    let varName := r.caps.getD 0 []
    let num := r.caps.getD 1 []
    (varName ++ " = 0\n    while ".data ++ varName ++ " < ".data ++ num ++ ":".data, d.2)
  else (r.matched, d.2)

/-- Stage 4 of `mutateCode`. -/
def stageLoops (g : Rng) (text : List Char) : List Char × Rng :=
  forRangePattern.replaceAll whileLoop g text

/-! ## Stage 5 of `mutateCode`: string quotes -/

/-- `/'([^']*)'/g`. -/
def quotePattern : Re :=
  .seq (.lit ['\'']) (.seq (.cap (.rep true 0 (fun c => c != '\''))) (.lit ['\'']))

/-- Stage 5 of `mutateCode`: with chance 0.4, `mutated.replace(/'([^']*)'/g, '"$1"')`. -/
def stageQuotes (g : Rng) (text : List Char) : List Char × Rng :=
  let d := g.next
  if d.1.val < 4 / 10 then
    ((quotePattern.replaceAll
        (fun (st : Unit) _ r => ('"' :: (r.caps.getD 0 [] ++ ['"']), st)) () text).1, d.2)
  else (text, d.2)

/-! ## Stage 6 of `mutateCode`: indentation -/

/-- The callback of the `map` of stage 6. -/
def jitterLine (g : Rng) (line : List Char) : List Char × Rng :=
  let n := leadingSpaces line
  if n = 0 then (line, g)
  else
    let d := g.next
    if d.1.val < 3 / 10 then
      let d2 := d.2.next
      let variation : Int := if d2.1.val > 1 / 2 then 2 else -1
      let newIndent := max 0 ((n : Int) + variation)
      (List.replicate newIndent.toNat ' ' ++ trim line, d2.2)
    else (line, d.2)

/-- `lines.map(callback)` with a callback that draws random numbers. -/
def mapLines (f : Rng → List Char → List Char × Rng) : Rng → List (List Char) →
    List (List Char) × Rng
  | g, [] => ([], g)
  | g, line :: rest =>
    let out := f g line
    let res := mapLines f out.2 rest
    (out.1 :: res.1, res.2)

/-- Stage 6 of `mutateCode`. -/
def stageIndent (g : Rng) (text : List Char) : List Char × Rng :=
  let res := mapLines jitterLine g (splitLines text)
  (joinLines res.1, res.2)


/-! ## Stage 7 of `mutateCode`: spacing around operators -/

/-- The class `[+\-*/%=]`. -/
def isOperator (c : Char) : Bool := "+-*/%=".data.contains c

/-- The callback of stage 7: one of the five entries of `options`. -/
def respace (g : Rng) (_ : Nat) (r : MatchResult) : List Char × Rng :=
  let d := g.next
  let m := r.matched
  ([" ".data ++ m ++ " ".data, "  ".data ++ m ++ "  ".data, m, " ".data ++ m,
      m ++ " ".data].get (randomIndex d.1 5 (by decide)), d.2)

/-- Stage 7 of `mutateCode`. -/
def stageSpacing (g : Rng) (text : List Char) : List Char × Rng :=
  let d := g.next
  if d.1.val < 35 / 100 then (Re.cap (.cls isOperator)).replaceAll respace d.2 text
  else (text, d.2)

/-! ## Stage 8 of `mutateCode`: blank lines -/

/-- The `forEach` callback of stage 8: the lines pushed for one input line. -/
def blankAfter (g : Rng) (line : List Char) : List (List Char) × Rng :=
  let d := g.next
  if d.1.val < 15 / 100 ∧ trim line ≠ [] then ([line, []], d.2) else ([line], d.2)

/-- Stage 8 of `mutateCode`. -/
def stageBlankLines (g : Rng) (text : List Char) : List Char × Rng :=
  let d := g.next
  if d.1.val < 2 / 10 then
    let res := pushLines blankAfter d.2 (splitLines text)
    (joinLines res.1, res.2)
  else (text, d.2)

/-! ## `mutateCode` -/

/-- Action `mutateCode(code)`: the mutated text and the random stream left. Without a
current mutation the text is returned as it is. -/
def mutateCode (state : State) (g : Rng) (code : String) : String × Rng :=
  match state.currentMutation with
  | none => (code, g)
  | some _ =>
    let r1 := stageIfElse g code.data
    let r2 := stageCorrupt r1.2 r1.1
    let r3 := stageComments r2.2 r2.1
    let r4 := stageLoops r3.2 r3.1
    let r5 := stageQuotes r4.2 r4.1
    let r6 := stageIndent r5.2 r5.1
    let r7 := stageSpacing r6.2 r6.1
    let r8 := stageBlankLines r7.2 r7.1
    (String.mk r8.1, r8.2)

/-! ## The editor component (`CodeEditor.jsx`) and its timers -/

/-- `/\b(def|import|from|class|print|if __name__|lambda)\b/`. -/
def pythonPattern : Re :=
  .seq .wordB <| .seq (.cap (
    .alt (.lit "def".data) <| .alt (.lit "import".data) <| .alt (.lit "from".data) <|
    .alt (.lit "class".data) <| .alt (.lit "print".data) <| .alt (.lit "if __name__".data)
      (.lit "lambda".data))) .wordB

/-- `/\b(public|private|static|void|class|extends|implements|package)\b/`. -/
def javaPattern : Re :=
  .seq .wordB <| .seq (.cap (
    .alt (.lit "public".data) <| .alt (.lit "private".data) <| .alt (.lit "static".data) <|
    .alt (.lit "void".data) <| .alt (.lit "class".data) <| .alt (.lit "extends".data) <|
    .alt (.lit "implements".data) (.lit "package".data))) .wordB

/-- `/#include|std::|cout|cin|namespace|template/`. -/
def cppPattern : Re :=
  .alt (.lit "#include".data) <| .alt (.lit "std::".data) <| .alt (.lit "cout".data) <|
  .alt (.lit "cin".data) <| .alt (.lit "namespace".data) (.lit "template".data)

/-- The function `detectLanguage` of the component; `language` is the store field as
the component reads it. -/
def detectLanguage (language : String) (content : String) : String :=
  if content.data.isEmpty then language
  else if (pythonPattern.search none content.data).isSome then "python"
  else if (javaPattern.search none content.data).isSome then "java"
  else if (cppPattern.search none content.data).isSome then "cpp"
  else language

/-- The callbacks that the store and the component hand to `setTimeout`. -/
inductive Callback where
  | complete
  | autoCrash (value : String)
  | applyMutation (value : String)
  | endGlitch
  deriving DecidableEq, Repr

/-- The store, the component state (`localCode`, `isGlitching`) and the callbacks that
`setTimeout` holds, each with its due time. -/
structure Editor where
  store : State
  localCode : String
  isGlitching : Bool
  timers : List (Int × Callback)
  deriving DecidableEq

/-- The timer list after a call of `triggerCrash` that may have scheduled its
completion callback. -/
def scheduleComplete (timers : List (Int × Callback)) (now : Int) :
    Option Nat → List (Int × Callback)
  | some delay => timers ++ [(now + delay, Callback.complete)]
  | none => timers

/-- The handler `handleEditorChange(value)` at clock reading `now`; `g` is the random
stream as it stands when the handler runs. -/
def handleEditorChange (ed : Editor) (now : Int) (value : String) (g : Rng) : Editor :=
  let language := ed.store.language
  let isCrashing := ed.store.isCrashing
  let newLang := detectLanguage language value
  let s0 := if newLang ≠ language then setLanguage ed.store newLang else ed.store
  let s1 := incrementKeystrokes (setCode s0 value)
  let res := calculateStress s1 now
  let newStress := res.2.1
  let timers1 :=
    if newStress ≥ 100 ∧ isCrashing = false then
      ed.timers ++ [(now + 100, Callback.autoCrash value)]
    else ed.timers
  if newStress > 70 ∧ g.next.1.val > 8 / 10 then
    { store := res.1, localCode := value, isGlitching := true,
      timers := timers1 ++ [(now + 200, Callback.endGlitch)] }
  else
    { store := res.1, localCode := value, isGlitching := ed.isGlitching, timers := timers1 }

/-- The body of a callback, run at clock reading `now` with random stream `g`. -/
def Editor.runCallback (ed : Editor) (now : Int) (g : Rng) : Callback → Editor
  | .complete => { ed with store := collapseComplete ed.store now }
  | .autoCrash value =>
    let res := triggerCrash ed.store now g.next.1 g.next.2.next.1
    { ed with store := res.1,
              timers := scheduleComplete ed.timers now res.2 ++
                [(now + 2500, Callback.applyMutation value)] }
  | .applyMutation value =>
    let mutated := (mutateCode ed.store g value).1
    { ed with localCode := mutated, store := setCode ed.store mutated }
  | .endGlitch => { ed with isGlitching := false }

/-- What can happen to the editor: a change of the text, the manual collapse (with the two
values the closure of its handler holds), a reset, or the firing of the pending callback at
position `i` of the timer list. -/
inductive EditorEvent where
  | change (value : String) (g : Rng)
  | forceCollapse (isCrashing collapseOnCooldown : Bool) (g : Rng)
  | reset
  | fire (i : Nat) (g : Rng)

/-- One event at clock reading `now`. A callback fires only once it is due; an event
that cannot happen (`fire` of an absent or early timer) yields `none`. -/
def Editor.step (ed : Editor) (now : Int) : EditorEvent → Option Editor
  | .change value g => some (handleEditorChange ed now value g)
  | .forceCollapse ic cd g =>
    let res := handleForceCollapse ic cd ed.store now g.next.1 g.next.2.next.1
    some { ed with store := res.1, timers := scheduleComplete ed.timers now res.2 }
  | .reset => some { ed with store := reset ed.store now }
  | .fire i g =>
    match ed.timers.get? i with
    | some (due, cb) =>
      if due ≤ now then
        some (Editor.runCallback { ed with timers := ed.timers.eraseIdx i } now g cb)
      else none
    | none => none

/-- A run: events with their clock readings, in order of occurrence. -/
def Editor.run (ed : Editor) : List (Int × EditorEvent) → Option Editor
  | [] => some ed
  | (now, e) :: rest =>
    match ed.step now e with
    | some ed1 => ed1.run rest
    | none => none

/-- The editor right after the page has been loaded at time `t0`. -/
def Editor.initial (t0 : Int) : Editor :=
  { store := initialState t0, localCode := "", isGlitching := false, timers := [] }

/-! ## Auxiliary definitions for the statements: the specification's wording of the
text metrics, invariants of the collapse window, and sample stores -/

/-- The value of `collapseOnCooldown` once `calculateStress` has passed its cooldown
test without returning: cleared when `lastCollapseTime` is truthy, else untouched. -/
def flagAfterTest (s : State) : Bool :=
  match truthyTime s.lastCollapseTime with
  | some _ => false
  | none => s.collapseOnCooldown

/-- The stress / stability pair of a state is complementary and in range. -/
def Balanced (stress stability : ℚ) : Prop :=
  stability = 100 - stress ∧ 0 ≤ stress ∧ stress ≤ 100 ∧ 0 ≤ stability ∧ stability ≤ 100

/-- A reachable system used to exercise the invariants: the text `let x` has been
typed into a fresh store and evaluated two seconds after creation. -/
def sampleSys : Sys :=
  { store := (calculateStress (setCode (initialState 0) "let x") 2000).1, timers := [] }

/-- The draw `0`, which selects the first entry of an array. -/
def zeroDraw : RandomDraw := ⟨0, by decide, by decide⟩

/-- A store whose collapse was triggered when the clock read `0` and completed
3000 ms later. -/
def epochState : State :=
  collapseComplete (triggerCrash (initialState 0) 0 zeroDraw zeroDraw).1 3000


/-- The event is a call of `reset`. -/
def Event.isReset : Event → Bool
  | .reset => true
  | _ => false

/-- A collapse is in progress: the store is crashing, exactly one completion callback
is pending, due at `due`, and the collapse log and counter have the given values. -/
def InCollapse (due : Int) (log : List CrashData) (count : Nat) (sys : Sys) : Prop :=
  sys.store.isCrashing = true ∧ sys.timers = [due] ∧
    sys.store.crashHistory = log ∧ sys.store.collapseCount = count

/-- The event is a call of a store action or handler, not the firing of a timer. -/
def Event.isCall : Event → Bool
  | .fire _ => false
  | _ => true

/-- The system is at rest: no collapse is in progress and no completion callback is
pending. -/
def Sys.Idle (sys : Sys) : Prop := sys.store.isCrashing = false ∧ sys.timers = []

/-- A run with two triggers less than 3000 ms apart: a trigger at 1000, a keystroke,
and a second trigger at 2500. -/
def doubleTriggerRun : List (Int × Event) :=
  (1000, Event.triggerCrash zeroDraw zeroDraw) ::
    ([(1500, Event.setCode "x"), (1600, Event.incrementKeystrokes)] ++
      [(2500, Event.triggerCrash zeroDraw zeroDraw)])

/-- The system reached by `doubleTriggerRun`. -/
def doubleTriggerResult : Sys :=
  { store := incrementKeystrokes
      (setCode (triggerCrashBody (initialState 0) 1000 zeroDraw zeroDraw) "x"),
    timers := [4000] }

/-- A store whose collapse was triggered at clock reading 1000 and completed at 4000;
no evaluation has taken place since. -/
def completedState : State :=
  collapseComplete (triggerCrash (initialState 0) 1000 zeroDraw zeroDraw).1 4000

/-- A store in the middle of a collapse triggered at clock reading 1000. -/
def crashingState : State := triggerCrashBody (initialState 0) 1000 zeroDraw zeroDraw

/-- The store of `completedState` after a line of text has been typed: its cooldown
runs until clock reading 11000. -/
def coolingState : State :=
  incrementKeystrokes (setCode completedState "while True: pass")

/-- Number of non-empty whitespace-delimited tokens of a text. -/
def tokenCount (code : String) : Nat :=
  ((code.data.splitOnP isWhiteSpace).filter (fun w => decide (w ≠ []))).length

/-- Number of newline-delimited segments of a text (1 for the empty text). -/
def segmentCount (code : String) : Nat := (code.data.splitOn '\n').length

/-- Number of maximal runs of word characters (whole tokens) of a text that spell one
of the keywords. -/
def keywordTokenCount (code : String) : Nat :=
  ((code.data.splitOnP (fun c => !isWordChar c)).filter
    (fun w => decide (w ∈ stressKeywords.map String.data))).length

/-- Keyword tokens among the runs of a character list. -/
def kwRuns (cs : List Char) : Nat :=
  ((List.splitOnP (fun c => !isWordChar c) cs).filter
    (fun w => decide (w ∈ stressKeywords.map String.data))).length

/-- Keyword tokens among the runs that start after the current run has ended. -/
def kwRunsAfter (cs : List Char) : Nat :=
  match cs.dropWhile isWordChar with
  | [] => 0
  | _ :: t => kwRuns t

/-- A store holding one line of JavaScript-looking text, twelve keystrokes in. -/
def snippetState : State :=
  { initialState 0 with code := "if (x) { return; }", totalKeystrokes := 12 }

/-- A store holding exactly fifty words, created at time 0, never collapsed. -/
def fiftyWordState : State :=
  { initialState 0 with
      code := "w1 w2 w3 w4 w5 w6 w7 w8 w9 w10 w11 w12 w13 w14 w15 w16 w17 w18 w19 w20 w21 w22 w23 w24 w25 w26 w27 w28 w29 w30 w31 w32 w33 w34 w35 w36 w37 w38 w39 w40 w41 w42 w43 w44 w45 w46 w47 w48 w49 w50",
      totalKeystrokes := 190 }

/-- A store in which a collapse is under way and an evaluation during the cooldown has
raised the `collapseOnCooldown` flag; the language has been switched to Java. -/
def flaggedState : State :=
  (calculateStress (setLanguage crashingState "java") 2000).1

/-- The formula of the specification with every literal, every product, the quotient
and every sum rounded to binary64, the sum taken from left to right starting at `0`. -/
def stressFormulaDouble (words lines keystrokes : Nat) (elapsedMs : Int)
    (brackets semicolons keywords : Nat) : ℚ :=
  fadd (fadd (fadd (fadd (fadd (fadd (fadd 0
    (fmul (words : ℚ) 2))
    (fmul (lines : ℚ) (roundDouble (3 / 10))))
    (fmul (keystrokes : ℚ) (roundDouble (5 / 100))))
    (fmul (fdiv (roundDouble (elapsedMs : ℚ)) 1000) (roundDouble (1 / 10))))
    (fmul (brackets : ℚ) (roundDouble (15 / 100))))
    (fmul (semicolons : ℚ) (roundDouble (8 / 100))))
    (fmul (keywords : ℚ) (roundDouble (25 / 100)))

/-- A store created at clock reading 1000 that holds one line of 49 words with 9
brackets, no semicolon and no keyword, one keystroke in; it has never collapsed. -/
def nearCeilingState : State :=
  { initialState 1000 with
      code := "w1 w2 w3 w4 w5 w6 w7 w8 w9 w10 w11 w12 w13 w14 w15 w16 w17 w18 w19 w20 w21 w22 w23 w24 w25 w26 w27 w28 w29 w30 w31 w32 w33 w34 w35 w36 w37 w38 w39 w40 w41 w42 w43 w44 (a) (b) (c) (d) [e",
      totalKeystrokes := 1 }

/-- A system under a real clock: the store was created at clock reading 100, a collapse
was triggered at 1000 and completed at 4000; its cooldown runs until 11000. -/
def liveCoolingSys : Sys :=
  { store := collapseComplete (triggerCrashBody (initialState 100) 1000 zeroDraw zeroDraw) 4000,
    timers := [] }

/-- A run that leaves a stale completion callback: a trigger at 1000 and a `reset` at
2000, before the callback due at 4000 has fired. -/
def staleCallbackRun : List (Int × Event) :=
  [(1000, Event.triggerCrash zeroDraw zeroDraw), (2000, Event.reset)]

/-- The system that `staleCallbackRun` reaches from a store created at 100: the store is
as fresh (not crashing, nothing recorded) and the callback due at 4000 is pending. -/
def staleCallbackSys : Sys :=
  { store := reset (triggerCrashBody (initialState 100) 1000 zeroDraw zeroDraw) 2000,
    timers := [4000] }

/-- Two triggers 1500 ms apart, the pending callback firing between them. -/
def staleDoubleTriggerRun : List (Int × Event) :=
  [(3500, Event.triggerCrash zeroDraw zeroDraw), (4000, Event.fire 0),
   (5000, Event.triggerCrash zeroDraw zeroDraw)]

/-- A first collapse forced by a click at 1000 and completed at 4000, nothing typed. -/
def forcedOnceRun : List (Int × PageEvent) :=
  [(1000, PageEvent.click zeroDraw zeroDraw), (4000, PageEvent.store (Event.fire 0))]

/-- The run `forcedOnceRun` followed by an evaluation of the stress at 4500 (a
keystroke in the editor), which raises `collapseOnCooldown` in the store. -/
def forcedOnceEvaluatedRun : List (Int × PageEvent) :=
  forcedOnceRun ++ [(4500, PageEvent.store Event.calculateStress)]

/-- What the statements read off a page: `isCrashing`, `collapseOnCooldown`,
`collapseCount`, the length of `crashHistory` and `lastCollapseTime` of the store. -/
def Page.collapseView (p : Page) : Bool × Bool × Nat × Nat × Option Int :=
  (p.sys.store.isCrashing, p.sys.store.collapseOnCooldown, p.sys.store.collapseCount,
   p.sys.store.crashHistory.length, p.sys.store.lastCollapseTime)

/-! ## Auxiliary definitions for the statements about `mutateCode` and the editor -/

/-- The draw `num / 100`. -/
def drawOf (num : Nat) (h : num < 100) : RandomDraw :=
  ⟨(num : ℚ) / 100, Rat.div_nonneg (Nat.cast_nonneg num) (by decide), by
    have h1 : (num : ℚ) < 100 := by
      rw [Rat.lt_def]
      simp only [Rat.num_natCast, Rat.den_natCast, Rat.num_ofNat, Rat.den_ofNat]
      omega
    exact (div_lt_one (by decide)).mpr h1⟩

/-- The stream that always yields the same draw. -/
def Rng.const (d : RandomDraw) : Rng := ⟨fun _ => d, 0⟩


/-- The four-line text `if C:\n    V = A\nelse:\n    V = B`. -/
def ifElseText (C V A B : List Char) : List Char :=
  "if ".data ++ C ++ ":\n    ".data ++ V ++ " = ".data ++ A ++ "\nelse:\n    ".data ++ V ++
    " = ".data ++ B

/-- The line `V = A if C else B`. -/
def ternaryText (C V A B : List Char) : List Char :=
  V ++ " = ".data ++ A ++ " if ".data ++ C ++ " else ".data ++ B

/-- A fragment as the folding claim takes it: non-empty, without line terminators,
colons or `=`, and without leading or trailing whitespace. -/
def PlainFragment (X : List Char) : Prop :=
  X ≠ [] ∧ (∀ c ∈ X, isLineTerminator c = false ∧ c ≠ ':' ∧ c ≠ '=') ∧
    (∀ c ∈ X.head?, isWhiteSpace c = false) ∧ (∀ c ∈ X.getLast?, isWhiteSpace c = false)

/-- An identifier: a letter or underscore followed by letters, digits or underscores. -/
def Identifier (V : List Char) : Prop :=
  (∃ c ∈ V.head?, c.isAlpha = true ∨ c = '_') ∧ ∀ c ∈ V, isWordChar c = true


/-- What stage 6 does to one line. -/
def JitterSpec (line out : List Char) : Prop :=
  (leadingSpaces line = 0 → out = line) ∧
  (1 ≤ leadingSpaces line →
    leadingSpaces out = leadingSpaces line ∨
    leadingSpaces out = leadingSpaces line + 2 ∨
    leadingSpaces out + 1 = leadingSpaces line) ∧
  ('\n' ∉ line → '\n' ∉ out)

/-- The invariant of the stage-2 callback: only tokens already seen have an entry in
`varMap`. -/
def CorruptState.Inv (st : CorruptState) : Prop :=
  ∀ name : List Char, name ∉ st.seenVars → st.varMap.lookup name = none

/-- What a later occurrence of a token gets. -/
def CorruptState.answer (st : CorruptState) (name : List Char) : List Char :=
  if isSkipped name then name else lookupOr st.varMap name

/-- A token is settled when the callback no longer draws for it. -/
def CorruptState.Settled (st : CorruptState) (name : List Char) : Prop :=
  isSkipped name = true ∨ name ∈ st.seenVars


/-- The stream on which every draw is `0.3`. -/
def lowStream : Rng := Rng.const (drawOf 30 (by decide))

/-- The stream on which every draw is `0.5`. -/
def midStream : Rng := Rng.const (drawOf 50 (by decide))

/-- The stream on which every draw is `0.9`. -/
def highStream : Rng := Rng.const (drawOf 90 (by decide))

/-- A text of fifty words. -/
def fiftyWords : String := fiftyWordState.code

/-- A text of fifty-one words: `fiftyWords` with one more word typed. -/
def fiftyOneWords : String := fiftyWords ++ " w51"

/-- A session in which a keystroke reaches the ceiling at 1000, the collapse is
triggered at 1100, the session is reset at 2000, and the two callbacks of the collapse
fire when they are due. -/
def resetDuringCollapseRun : List (Int × EditorEvent) :=
  [(1000, EditorEvent.change fiftyWords midStream), (1100, EditorEvent.fire 0 midStream),
   (2000, EditorEvent.reset), (3600, EditorEvent.fire 1 lowStream),
   (4100, EditorEvent.fire 0 midStream)]

/-- The editor in the middle of the collapse of `resetDuringCollapseRun`, before the
reset. -/
def collapsingEditor : Editor :=
  { store := triggerCrashBody
      (calculateStress (incrementKeystrokes (setCode (initialState 0) fiftyWords)) 1000).1
      1100 (drawOf 50 (by decide)) (drawOf 50 (by decide)),
    localCode := fiftyWords, isGlitching := false,
    timers := [(4100, Callback.complete), (3600, Callback.applyMutation fiftyWords)] }

/-- Two keystrokes that reach the ceiling 50 ms apart, and the two callbacks they
schedule, fired when they are due. -/
def doubleKeystrokeRun : List (Int × EditorEvent) :=
  [(1000, EditorEvent.change fiftyWords midStream),
   (1050, EditorEvent.change fiftyOneWords midStream),
   (1100, EditorEvent.fire 0 midStream), (1150, EditorEvent.fire 0 midStream)]

/-- The callback replaces the text with the result of `mutateCode`. -/
def Callback.isApplyMutation : Callback → Bool
  | .applyMutation _ => true
  | _ => false

/-- The profile that `triggerCrash` picks with the draw `r`:
`mutations[Math.floor(Math.random() * mutations.length)]`. -/
def profileOf (r : RandomDraw) : Mutation :=
  mutations.get (randomIndex r mutations.length (by decide))

/-- A reachable system whose session was reset during the cooldown of a collapse, after
an evaluation had raised the `collapseOnCooldown` flag. -/
def staleFlagSys : Sys := { store := reset flaggedState 3000, timers := [4000] }

/-- The text of `fiftyWords` after a pass of `mutateCode` on the stream `lowStream`. -/
def fiftyWordsMutated : String :=
  "w1 w2 w3 w4 w5 w6 w7 w8 w9 w10_v3 w11_v3 w12_v3 w13_v3 w14_v3 w15_v3 w16_v3 w17_v3 w18_v3 w19_v3 w20_v3 w21_v3 w22_v3 w23_v3 w24_v3 w25_v3 w26_v3 w27_v3 w28_v3 w29_v3 w30_v3 w31_v3 w32_v3 w33_v3 w34_v3 w35_v3 w36_v3 w37_v3 w38_v3 w39_v3 w40_v3 w41_v3 w42_v3 w43_v3 w44_v3 w45_v3 w46_v3 w47_v3 w48_v3 w49_v3 w50_v3"

/-- The collapse log, the text log and the collapse counter agree. -/
def LogsAgree (s : State) : Prop :=
  s.crashHistory.length = s.collapseCount ∧ s.codeHistory.length = s.collapseCount

/-- The system in the middle of the collapse of `crashingState`. -/
def crashingSys : Sys := { store := crashingState, timers := [1000 + 3000] }

/-- The least number of characters a match of the pattern consumes. -/
def Re.minLength : Re → Nat
  | .lit cs => cs.length
  | .cls _ => 1
  | .rep _ min _ => min
  | .cap r => r.minLength
  | .seq a b => a.minLength + b.minLength
  | .alt a b => Nat.min a.minLength b.minLength
  | .wordB => 0
  | .bol => 0

/-- The part of the input that a segment of a scan stands for. -/
def Segment.source : Segment → List Char
  | .gap c => [c]
  | .hit _ r => r.matched

/-- The stream `g1` is the stream `g` after some draws. -/
def Rng.Extends (g g1 : Rng) : Prop := g1.draws = g.draws ∧ g.pos ≤ g1.pos

/-- Every draw of the stream from its current position up to position `N` (excluded) is at
least `0.6`. -/
def Rng.HighBelow (g : Rng) (N : Nat) : Prop :=
  ∀ n, g.pos ≤ n → n < N → 6 / 10 ≤ (g.draws n).val

/-- The lines `lines`, each followed by the lines inserted after it. -/
def withInserted (lines : List (List Char)) (inserts : List (List (List Char))) :
    List (List Char) :=
  (List.zipWith (fun line ins => line :: ins) lines inserts).flatten

/-- The part of a line after its leading whitespace. -/
def afterIndent (line : List Char) : List Char := line.dropWhile isWhiteSpace

/-- A line without its trailing whitespace. -/
def stripTrailing (line : List Char) : List Char :=
  (line.reverse.dropWhile isWhiteSpace).reverse

/-- The stream on which every draw is `0.1`. -/
def tenthStream : Rng := Rng.const (drawOf 10 (by decide))

/-- What stage 3 pushes for one line. -/
def CommentSpec (line : List Char) (ins : List (List Char)) : Prop :=
  ins = [] ∨
    (("def ".data.isPrefixOf (trim line) = true ∨ "class ".data.isPrefixOf (trim line) = true) ∧
      ∃ quote ∈ chaosQuotes, ins = [line.takeWhile isWhiteSpace ++ "    ".data ++ quote.data])


/-- The text with its first `k` single quotes turned into double quotes. -/
def flipFirst : Nat → List Char → List Char
  | 0, text => text
  | _ + 1, [] => []
  | k + 1, c :: cs => if c = '\'' then '"' :: flipFirst k cs else c :: flipFirst (k + 1) cs

/-- The five ways stage 7 writes an operator character. -/
def spacingVariants (c : Char) : List (List Char) :=
  [[' ', c, ' '], [' ', ' ', c, ' ', ' '], [c], [' ', c], [c, ' ']]

/-- The replacement string `"$1"` of stage 5, as the callback that `stageQuotes` hands to
`replaceAll`. -/
def requote (st : Unit) (_ : Nat) (r : MatchResult) : List Char × Unit :=
  ('"' :: (r.caps.getD 0 [] ++ ['"']), st)

/-- The two lines stage 4 writes for the counter `X` and the bound `N`:
`X = 0`, a newline, four spaces, `while X < N:`. -/
def whileText (X N : List Char) : List Char :=
  X ++ " = 0\n    while ".data ++ X ++ " < ".data ++ N ++ ":".data

/-- A non-empty run of whitespace. -/
def SpaceRun (w : List Char) : Prop := w ≠ [] ∧ ∀ c ∈ w, isWhiteSpace c = true

/-- A match of the loop pattern: `for`, whitespace, a run `X` of word characters,
whitespace, `in`, whitespace, `range(`, a run `N` of digits, `):`, with captures `X`
and `N`. -/
def LoopShape (r : MatchResult) : Prop :=
  ∃ (w1 X w2 w3 N : List Char),
    r.matched = "for".data ++ (w1 ++ (X ++ (w2 ++ ("in".data ++ (w3 ++
      ("range(".data ++ (N ++ "):".data))))))) ∧
    r.caps = [X, N] ∧ SpaceRun w1 ∧ SpaceRun w2 ∧ SpaceRun w3 ∧
    (X ≠ [] ∧ ∀ c ∈ X, isWordChar c = true) ∧ (N ≠ [] ∧ ∀ c ∈ N, c.isDigit = true)

/-- What stage 4 writes for a segment of its scan: a character outside the matches is
kept, a match is kept or replaced by the two lines of `whileText`. -/
def LoopPiece (seg : Segment) (piece : List Char) : Prop :=
  match seg with
  | .gap c => piece = [c]
  | .hit _ r =>
    LoopShape r ∧ (piece = r.matched ∨ piece = whileText (r.caps.getD 0 []) (r.caps.getD 1 []))

/-- A position reached from `s` by reading `w`, with the captures `caps`. -/
def MatchState.After (s : MatchState) (w : List Char) (caps : List (List Char))
    (s1 : MatchState) : Prop :=
  s.rest = w ++ s1.rest ∧ s1.consumed = w.reverse ++ s.consumed ∧ s1.caps = caps

/-! ## Basic facts about `calculateStress` -/

theorem timeSince_lt_iff (d : Int) : ((d : ℚ) / 1000 < 10) ↔ d < 10000 := by
  rw [div_lt_iff₀ (by norm_num : (0 : ℚ) < 1000)]
  norm_num
  exact_mod_cast Iff.rfl

theorem calculateStress_cooldown (s : State) (now last : Int)
    (hl : truthyTime s.lastCollapseTime = some last) (hlt : now - last < 10000) :
    calculateStress s now =
      ({ s with stress := 0, stability := 100, collapseOnCooldown := true,
                stabilityHistory := sliceLast99 s.stabilityHistory ++ [100] }, (0, 100)) := by
  have h : ((now - last : Int) : ℚ) / 1000 < 10 := (timeSince_lt_iff _).mpr hlt
  simp only [calculateStress, hl, h, if_true]

theorem calculateStress_scoring (s : State) (now : Int)
    (h : ∀ last, truthyTime s.lastCollapseTime = some last → 10000 ≤ now - last) :
    calculateStress s now = scoreStress { s with collapseOnCooldown := flagAfterTest s } now := by
  unfold calculateStress flagAfterTest
  cases hl : truthyTime s.lastCollapseTime with
  | none => rfl
  | some last =>
    have h1 : ¬ (((now - last : Int) : ℚ) / 1000 < 10) := by
      rw [timeSince_lt_iff]; have := h last hl; omega
    simp only [h1, if_false]
    cases hc : s.collapseOnCooldown with
    | true => simp
    | false =>
      simp only [Bool.false_eq_true, if_false]
      congr 1
      cases s; simp_all

theorem truthyTime_eq_some {o : Option Int} {last : Int} (h : truthyTime o = some last) :
    o = some last := by
  cases o with
  | none => simp [truthyTime] at h
  | some t =>
    by_cases ht : t = 0
    · simp [truthyTime, ht] at h
    · simp [truthyTime, ht] at h; rw [h]

theorem rawStress_eq (code : String) (k : Nat) (start now : Int) :
    rawStress code k start now =
      2 * (countWords code : ℚ) + 3 / 10 * (countLines code : ℚ) + 5 / 100 * (k : ℚ)
        + 1 / 10 * (((now - start : Int) : ℚ) / 1000) + 15 / 100 * (countBrackets code : ℚ)
        + 8 / 100 * (countSemicolons code : ℚ) + 25 / 100 * (countKeywords code : ℚ) := by
  simp only [rawStress]; ring

theorem rawStress_nonneg (code : String) (k : Nat) (start now : Int) (h : start ≤ now) :
    0 ≤ rawStress code k start now := by
  rw [rawStress_eq]
  have h1 : (0 : ℚ) ≤ ((now - start : Int) : ℚ) := by exact_mod_cast (by omega : (0 : Int) ≤ now - start)
  have h2 : (0 : ℚ) ≤ ((now - start : Int) : ℚ) / 1000 := div_nonneg h1 (by norm_num)
  positivity

/-- The pair computed by the scoring part lies in range when the elapsed time is
non-negative. -/
theorem scoreStress_range (s : State) (now : Int) (h : s.sessionStartTime ≤ now) :
    (scoreStress s now).2.2 = 100 - (scoreStress s now).2.1 ∧
      0 ≤ (scoreStress s now).2.1 ∧ (scoreStress s now).2.1 ≤ 100 := by
  have hr := rawStress_nonneg s.code s.totalKeystrokes s.sessionStartTime now h
  simp only [scoreStress]
  refine ⟨?_, le_min hr (by norm_num), min_le_right _ _⟩
  apply max_eq_right
  have := min_le_right (rawStress s.code s.totalKeystrokes s.sessionStartTime now) 100
  linarith

theorem balanced_of (stress stability : ℚ) (h : stability = 100 - stress ∧ 0 ≤ stress ∧ stress ≤ 100) :
    Balanced stress stability := by
  obtain ⟨h1, h2, h3⟩ := h
  refine ⟨h1, h2, h3, ?_, ?_⟩ <;> linarith

theorem calculateStress_balanced (s : State) (now : Int) (h : s.sessionStartTime ≤ now) :
    Balanced (calculateStress s now).2.1 (calculateStress s now).2.2 ∧
      (calculateStress s now).1.stress = (calculateStress s now).2.1 ∧
      (calculateStress s now).1.stability = (calculateStress s now).2.2 := by
  by_cases hc : ∃ last, truthyTime s.lastCollapseTime = some last ∧ now - last < 10000
  · obtain ⟨last, hl, hlt⟩ := hc
    rw [calculateStress_cooldown s now last hl hlt]
    refine ⟨balanced_of _ _ ?_, rfl, rfl⟩
    norm_num
  · have hc1 : ∀ last, truthyTime s.lastCollapseTime = some last → 10000 ≤ now - last := by
      intro last hl
      by_contra hlt
      exact hc ⟨last, hl, by omega⟩
    rw [calculateStress_scoring s now hc1]
    exact ⟨balanced_of _ _ (scoreStress_range _ now h), rfl, rfl⟩

/-! ## Rounding to binary64 keeps the order -/

theorem pow2_eq_zpow (e : Int) : pow2 e = (2 : ℚ) ^ e := by
  cases e with
  | ofNat n => simp [pow2]
  | negSucc n => simp [pow2, zpow_negSucc]

theorem pow2_pos (e : Int) : 0 < pow2 e := by
  rw [pow2_eq_zpow]; positivity

theorem pow2_le_pow2 {a b : Int} (h : a ≤ b) : pow2 a ≤ pow2 b := by
  rw [pow2_eq_zpow, pow2_eq_zpow]
  exact zpow_le_zpow_right₀ (by norm_num) h

theorem pow2_add (a b : Int) : pow2 (a + b) = pow2 a * pow2 b := by
  rw [pow2_eq_zpow, pow2_eq_zpow, pow2_eq_zpow, zpow_add₀ (by norm_num)]

theorem ilog2Aux_spec : ∀ (fuel n : Nat), n ≤ fuel → n ≠ 0 →
    2 ^ ilog2Aux fuel n ≤ n ∧ n < 2 ^ (ilog2Aux fuel n + 1) := by
  intro fuel
  induction fuel with
  | zero => intro n h h0; omega
  | succ fuel ih =>
    intro n h h0
    rw [ilog2Aux]
    split
    · rename_i h2
      obtain ⟨a, b⟩ := ih (n / 2) (by omega) (by omega)
      constructor
      · rw [pow_succ]; omega
      · rw [pow_succ]; omega
    · have : n = 1 := by omega
      subst this
      simp

theorem ilog2_spec (n : Nat) (h : n ≠ 0) : 2 ^ ilog2 n ≤ n ∧ n < 2 ^ (ilog2 n + 1) :=
  ilog2Aux_spec n n (le_refl _) h

/-- The exponent found by `floorLog2` brackets the number. -/
theorem floorLog2_spec (q : ℚ) (hq : 0 < q) :
    pow2 (floorLog2 q) ≤ q ∧ q < pow2 (floorLog2 q + 1) := by
  have hnum : 0 < q.num := Rat.num_pos.mpr hq
  have hN : ((q.num.natAbs : Nat) : ℚ) = (q.num : ℚ) := by
    rw [← Int.cast_natCast, Int.natAbs_of_nonneg hnum.le]
  have hNpos : q.num.natAbs ≠ 0 := by
    intro h; rw [Int.natAbs_eq_zero] at h; omega
  have hq_eq : q = (q.num.natAbs : ℚ) / (q.den : ℚ) := by
    rw [hN]; exact (Rat.num_div_den q).symm
  have hD : (0 : ℚ) < (q.den : ℚ) := by exact_mod_cast q.den_pos
  have n1 : ((2 : ℚ) ^ (ilog2 q.num.natAbs)) ≤ (q.num.natAbs : ℚ) := by
    exact_mod_cast (ilog2_spec _ hNpos).1
  have n2 : (q.num.natAbs : ℚ) < (2 : ℚ) ^ (ilog2 q.num.natAbs + 1) := by
    exact_mod_cast (ilog2_spec _ hNpos).2
  have d1 : ((2 : ℚ) ^ (ilog2 q.den)) ≤ (q.den : ℚ) := by
    exact_mod_cast (ilog2_spec _ q.den_nz).1
  have d2 : (q.den : ℚ) < (2 : ℚ) ^ (ilog2 q.den + 1) := by
    exact_mod_cast (ilog2_spec _ q.den_nz).2
  have hz : ∀ k : Int, pow2 ((ilog2 q.num.natAbs : Int) - (ilog2 q.den : Int) + k) =
      (2 : ℚ) ^ (ilog2 q.num.natAbs) / (2 : ℚ) ^ (ilog2 q.den) * (2 : ℚ) ^ k := by
    intro k
    rw [pow2_eq_zpow, zpow_add₀ (by norm_num), zpow_sub₀ (by norm_num)]
    simp
  unfold floorLog2
  simp only
  split
  · rename_i h
    refine ⟨h, ?_⟩
    rw [hz 1]
    refine lt_of_eq_of_lt hq_eq ?_
    have hp : (0 : ℚ) < (2 : ℚ) ^ (ilog2 q.den) := by positivity
    rw [div_mul_eq_mul_div, div_lt_div_iff₀ hD hp]
    calc (q.num.natAbs : ℚ) * (2 : ℚ) ^ (ilog2 q.den)
        ≤ (q.num.natAbs : ℚ) * (q.den : ℚ) := by
          apply mul_le_mul_of_nonneg_left d1 (by positivity)
      _ < (2 : ℚ) ^ (ilog2 q.num.natAbs) * (2 : ℚ) ^ (1 : Int) * (q.den : ℚ) := by
          apply mul_lt_mul_of_pos_right _ hD
          have : (2 : ℚ) ^ (ilog2 q.num.natAbs) * (2 : ℚ) ^ (1 : Int) =
              (2 : ℚ) ^ (ilog2 q.num.natAbs + 1) := by
            rw [pow_succ]; norm_num
          rw [this]; exact n2
  · rename_i h
    have e1 : (ilog2 q.num.natAbs : Int) - (ilog2 q.den : Int) - 1 + 1 =
        (ilog2 q.num.natAbs : Int) - (ilog2 q.den : Int) := by ring
    refine ⟨?_, by rw [e1]; exact lt_of_not_le h⟩
    have : (ilog2 q.num.natAbs : Int) - (ilog2 q.den : Int) - 1 =
        (ilog2 q.num.natAbs : Int) - (ilog2 q.den : Int) + (-1) := by ring
    rw [this, hz (-1)]
    refine le_of_le_of_eq ?_ hq_eq.symm
    have hp : (0 : ℚ) < (2 : ℚ) ^ (ilog2 q.den) := by positivity
    have h2 : ((2 : ℚ) ^ (-1 : Int)) = 1 / 2 := by norm_num
    rw [h2, div_mul_eq_mul_div, div_le_div_iff₀ hp hD]
    calc (2 : ℚ) ^ (ilog2 q.num.natAbs) * (1 / 2) * (q.den : ℚ)
        ≤ (q.num.natAbs : ℚ) * (1 / 2) * (q.den : ℚ) := by
          apply mul_le_mul_of_nonneg_right _ hD.le
          apply mul_le_mul_of_nonneg_right n1 (by norm_num)
      _ ≤ (q.num.natAbs : ℚ) * (1 / 2) * (2 : ℚ) ^ (ilog2 q.den + 1) := by
          apply mul_le_mul_of_nonneg_left d2.le (by positivity)
      _ = (q.num.natAbs : ℚ) * (2 : ℚ) ^ (ilog2 q.den) := by
          rw [pow_succ]; ring

theorem roundHalfEven_bounds (m : ℚ) :
    Rat.floor m ≤ roundHalfEven m ∧ roundHalfEven m ≤ Rat.floor m + 1 := by
  unfold roundHalfEven
  simp only
  split
  · omega
  · split
    · omega
    · split <;> omega

theorem roundHalfEven_int (k : Int) : roundHalfEven (k : ℚ) = k := by
  have hf : Rat.floor (k : ℚ) = k := by
    change ⌊(k : ℚ)⌋ = k
    exact Int.floor_intCast k
  unfold roundHalfEven
  simp only [hf, sub_self]
  norm_num

theorem roundHalfEven_mono {m n : ℚ} (h : m ≤ n) : roundHalfEven m ≤ roundHalfEven n := by
  have hfl : Rat.floor m ≤ Rat.floor n := by
    change ⌊m⌋ ≤ ⌊n⌋
    exact Int.floor_le_floor h
  obtain ⟨a1, a2⟩ := roundHalfEven_bounds m
  obtain ⟨b1, b2⟩ := roundHalfEven_bounds n
  rcases lt_or_eq_of_le hfl with hlt | heq
  · omega
  · unfold roundHalfEven
    simp only [heq]
    have hr : m - (Rat.floor n : ℚ) ≤ n - (Rat.floor n : ℚ) := by linarith
    by_cases h1 : m - (Rat.floor n : ℚ) < 1 / 2
    · simp only [h1, if_true]
      split
      · exact le_refl _
      · split
        · omega
        · split <;> omega
    · have h1' : ¬ n - (Rat.floor n : ℚ) < 1 / 2 := fun hc => h1 (lt_of_le_of_lt hr hc)
      simp only [h1, h1', if_false]
      by_cases h2 : 1 / 2 < m - (Rat.floor n : ℚ)
      · have h2' : 1 / 2 < n - (Rat.floor n : ℚ) := lt_of_lt_of_le h2 hr
        simp only [h2, h2', if_true]; exact le_refl _
      · simp only [h2, if_false]
        by_cases h3 : 1 / 2 < n - (Rat.floor n : ℚ)
        · simp only [h3, if_true]
          split <;> omega
        · simp only [h3, if_false]; exact le_refl _

theorem roundHalfEven_nonneg {m : ℚ} (h : 0 ≤ m) : 0 ≤ roundHalfEven m := by
  have := roundHalfEven_mono h
  rwa [show ((0 : ℚ)) = ((0 : Int) : ℚ) by norm_num, roundHalfEven_int] at this

theorem roundPos_eq (a : ℚ) :
    roundPos a = (roundHalfEven (a / pow2 (expOf a - 52)) : ℚ) * pow2 (expOf a - 52) := rfl

theorem roundPos_nonneg {a : ℚ} (h : 0 < a) : 0 ≤ roundPos a := by
  rw [roundPos_eq]
  apply mul_nonneg _ (pow2_pos _).le
  have : 0 ≤ roundHalfEven (a / pow2 (expOf a - 52)) :=
    roundHalfEven_nonneg (div_nonneg h.le (pow2_pos _).le)
  exact_mod_cast this

theorem lt_pow2_expOf (a : ℚ) (h : 0 < a) : a < pow2 (expOf a + 1) :=
  lt_of_lt_of_le (floorLog2_spec a h).2
    (pow2_le_pow2 (by have := le_max_left (floorLog2 a) (-1022); unfold expOf; omega))

theorem pow2_52 : pow2 52 = 4503599627370496 := by
  rw [pow2_eq_zpow]; norm_num

theorem pow2_53 : pow2 53 = 9007199254740992 := by
  rw [pow2_eq_zpow]; norm_num

/-- A rounded number stays below the next power of two. -/
theorem roundPos_le (a : ℚ) (h : 0 < a) : roundPos a ≤ pow2 (expOf a + 1) := by
  have hu := pow2_pos (expOf a - 52)
  have hlt := lt_pow2_expOf a h
  have hsplit : pow2 (expOf a + 1) = pow2 53 * pow2 (expOf a - 52) := by
    rw [← pow2_add]; congr 1; ring
  rw [roundPos_eq, hsplit]
  apply mul_le_mul_of_nonneg_right _ hu.le
  have hm : a / pow2 (expOf a - 52) ≤ ((9007199254740992 : Int) : ℚ) := by
    rw [div_le_iff₀ hu]
    have : ((9007199254740992 : Int) : ℚ) = pow2 53 := by rw [pow2_53]; norm_num
    rw [this, ← hsplit]; exact hlt.le
  have := roundHalfEven_mono hm
  rw [roundHalfEven_int] at this
  rw [pow2_53]
  exact_mod_cast this

/-- A rounded normal number stays above its power of two. -/
theorem le_roundPos (a : ℚ) (h : 0 < a) (he : -1022 ≤ floorLog2 a) :
    pow2 (expOf a) ≤ roundPos a := by
  have hu := pow2_pos (expOf a - 52)
  have hexp : expOf a = floorLog2 a := max_eq_left he
  have hge : pow2 (expOf a) ≤ a := by rw [hexp]; exact (floorLog2_spec a h).1
  have hsplit : pow2 (expOf a) = pow2 52 * pow2 (expOf a - 52) := by
    rw [← pow2_add]; congr 1; ring
  rw [roundPos_eq]
  conv_lhs => rw [hsplit]
  apply mul_le_mul_of_nonneg_right _ hu.le
  have hm : ((4503599627370496 : Int) : ℚ) ≤ a / pow2 (expOf a - 52) := by
    rw [le_div_iff₀ hu]
    have : ((4503599627370496 : Int) : ℚ) = pow2 52 := by rw [pow2_52]; norm_num
    rw [this, ← hsplit]; exact hge
  have := roundHalfEven_mono hm
  rw [roundHalfEven_int] at this
  rw [pow2_52]
  exact_mod_cast this

theorem floorLog2_mono {a b : ℚ} (ha : 0 < a) (hab : a ≤ b) : floorLog2 a ≤ floorLog2 b := by
  by_contra hlt
  have hlt' : floorLog2 b + 1 ≤ floorLog2 a := by omega
  have h1 := (floorLog2_spec a ha).1
  have h2 := (floorLog2_spec b (lt_of_lt_of_le ha hab)).2
  have := pow2_le_pow2 hlt'
  linarith

theorem roundPos_mono {a b : ℚ} (ha : 0 < a) (hab : a ≤ b) : roundPos a ≤ roundPos b := by
  have hb : 0 < b := lt_of_lt_of_le ha hab
  have hexp : expOf a ≤ expOf b := max_le_max (floorLog2_mono ha hab) (le_refl _)
  rcases lt_or_eq_of_le hexp with hlt | heq
  · have hbn : -1022 ≤ floorLog2 b := by
      by_contra hc
      have : expOf b = -1022 := max_eq_right (by omega)
      have : -1022 ≤ expOf a := le_max_right _ _
      omega
    calc roundPos a ≤ pow2 (expOf a + 1) := roundPos_le a ha
      _ ≤ pow2 (expOf b) := pow2_le_pow2 (by omega)
      _ ≤ roundPos b := le_roundPos b hb hbn
  · rw [roundPos_eq, roundPos_eq, heq]
    apply mul_le_mul_of_nonneg_right _ (pow2_pos _).le
    have := roundHalfEven_mono
      (div_le_div_of_nonneg_right hab (pow2_pos (expOf b - 52)).le)
    exact_mod_cast this

/-- Rounding keeps the order. -/
theorem roundDouble_mono {a b : ℚ} (hab : a ≤ b) : roundDouble a ≤ roundDouble b := by
  unfold roundDouble
  rcases lt_trichotomy a 0 with ha | ha | ha
  · have ha0 : ¬ a = 0 := ne_of_lt ha
    have hapos : ¬ 0 < a := not_lt.mpr ha.le
    simp only [ha0, hapos, if_false]
    have hna : 0 ≤ roundPos (-a) := roundPos_nonneg (by linarith)
    rcases lt_trichotomy b 0 with hb | hb | hb
    · have hb0 : ¬ b = 0 := ne_of_lt hb
      have hbpos : ¬ 0 < b := not_lt.mpr hb.le
      simp only [hb0, hbpos, if_false]
      have := roundPos_mono (show (0 : ℚ) < -b by linarith) (show -b ≤ -a by linarith)
      linarith
    · simp only [hb, if_true]; linarith
    · have hb' : ¬ b = 0 := ne_of_gt hb
      simp only [hb', hb, if_true, if_false]
      have := roundPos_nonneg hb
      linarith
  · subst ha
    simp only [if_true]
    rcases lt_or_eq_of_le hab with hb | hb
    · have hb' : ¬ b = 0 := ne_of_gt hb
      simp only [hb', hb, if_true, if_false]
      exact roundPos_nonneg hb
    · rw [← hb]; simp
  · have hb : 0 < b := lt_of_lt_of_le ha hab
    have ha' : ¬ a = 0 := ne_of_gt ha
    have hb' : ¬ b = 0 := ne_of_gt hb
    simp only [ha', hb', ha, hb, if_true, if_false]
    exact roundPos_mono ha hab

theorem roundDouble_nonneg {q : ℚ} (h : 0 ≤ q) : 0 ≤ roundDouble q := by
  have := roundDouble_mono h
  rwa [show roundDouble 0 = 0 from by simp [roundDouble]] at this


theorem roundDouble_consts :
    roundDouble 10 = 10 ∧ roundDouble 10000 = 10000 ∧ roundDouble 9999 = 9999 ∧
    roundDouble (9999 / 1000) < 10 := by
  decide!

/-- The cooldown test of the engine, made on rounded numbers, is the test on the integer
clock readings. -/
theorem timeSinceDouble_lt_iff (now last : Int) :
    fdiv (fsub (now : ℚ) (last : ℚ)) 1000 < 10 ↔ now - last < 10000 := by
  obtain ⟨c10, c10000, c9999, clt⟩ := roundDouble_consts
  unfold fdiv fsub
  constructor
  · intro h
    by_contra hge
    have h1 : (10000 : ℚ) ≤ (now : ℚ) - (last : ℚ) := by
      have : (10000 : Int) ≤ now - last := by omega
      exact_mod_cast this
    have h2 : (10000 : ℚ) ≤ roundDouble ((now : ℚ) - (last : ℚ)) := by
      have := roundDouble_mono h1
      rwa [c10000] at this
    have h3 : (10 : ℚ) ≤ roundDouble ((now : ℚ) - (last : ℚ)) / 1000 := by
      rw [le_div_iff₀ (by norm_num)]
      linarith
    have h4 := roundDouble_mono h3
    rw [c10] at h4
    linarith
  · intro h
    have h1 : (now : ℚ) - (last : ℚ) ≤ 9999 := by
      have : now - last ≤ (9999 : Int) := by omega
      exact_mod_cast this
    have h2 : roundDouble ((now : ℚ) - (last : ℚ)) ≤ 9999 := by
      have := roundDouble_mono h1
      rwa [c9999] at this
    have h3 : roundDouble ((now : ℚ) - (last : ℚ)) / 1000 ≤ 9999 / 1000 :=
      div_le_div_of_nonneg_right h2 (by norm_num)
    exact lt_of_le_of_lt (roundDouble_mono h3) clt

theorem calculateStressDouble_cooldown (s : State) (now last : Int)
    (hl : truthyTime s.lastCollapseTime = some last) (hlt : now - last < 10000) :
    calculateStressDouble s now =
      ({ s with stress := 0, stability := 100, collapseOnCooldown := true,
                stabilityHistory := sliceLast99 s.stabilityHistory ++ [100] }, (0, 100)) := by
  have h : fdiv (fsub (now : ℚ) (last : ℚ)) 1000 < 10 :=
    (timeSinceDouble_lt_iff now last).mpr hlt
  simp only [calculateStressDouble, hl, h, if_true]

theorem calculateStressDouble_scoring (s : State) (now : Int)
    (h : ∀ last, truthyTime s.lastCollapseTime = some last → 10000 ≤ now - last) :
    calculateStressDouble s now =
      scoreStressDouble { s with collapseOnCooldown := flagAfterTest s } now := by
  unfold calculateStressDouble flagAfterTest
  cases hl : truthyTime s.lastCollapseTime with
  | none => rfl
  | some last =>
    have h1 : ¬ (fdiv (fsub (now : ℚ) (last : ℚ)) 1000 < 10) := by
      rw [timeSinceDouble_lt_iff]; have := h last hl; omega
    simp only [h1, if_false]
    cases hc : s.collapseOnCooldown with
    | true => simp
    | false =>
      simp only [Bool.false_eq_true, if_false]
      congr 1
      cases s; simp_all

/-! ## Frame facts about the collapse actions -/

theorem triggerCrash_stress (s : State) (now : Int) (r1 r2 : RandomDraw) :
    (triggerCrash s now r1 r2).1.stress = s.stress ∧
      (triggerCrash s now r1 r2).1.stability = s.stability ∧
      (triggerCrash s now r1 r2).1.stabilityHistory = s.stabilityHistory := by
  unfold triggerCrash
  split <;> exact ⟨rfl, rfl, rfl⟩

theorem handleForceCollapse_stress (ic cd : Bool) (s : State) (now : Int)
    (r1 r2 : RandomDraw) :
    (handleForceCollapse ic cd s now r1 r2).1.stress = s.stress ∧
      (handleForceCollapse ic cd s now r1 r2).1.stability = s.stability ∧
      (handleForceCollapse ic cd s now r1 r2).1.stabilityHistory = s.stabilityHistory := by
  unfold handleForceCollapse
  split
  · exact triggerCrash_stress s now r1 r2
  · exact ⟨rfl, rfl, rfl⟩

/-- One event keeps the stress / stability pair balanced, provided the elapsed time
is non-negative when the event is an evaluation. -/
theorem step_balanced {sys sys1 : Sys} (now : Int) (e : Event)
    (hstep : sys.step now e = some sys1)
    (hok : e = Event.calculateStress → elapsedNonneg sys.store now)
    (hb : Balanced sys.store.stress sys.store.stability) :
    Balanced sys1.store.stress sys1.store.stability := by
  cases e with
  | setCode code => simp only [Sys.step, Option.some.injEq] at hstep; subst hstep; exact hb
  | setLanguage l => simp only [Sys.step, Option.some.injEq] at hstep; subst hstep; exact hb
  | incrementKeystrokes =>
    simp only [Sys.step, Option.some.injEq] at hstep; subst hstep; exact hb
  | calculateStress =>
    simp only [Sys.step, Option.some.injEq] at hstep; subst hstep
    obtain ⟨h1, h2, h3⟩ := calculateStress_balanced sys.store now (hok rfl)
    show Balanced (calculateStress sys.store now).1.stress (calculateStress sys.store now).1.stability
    rw [h2, h3]; exact h1
  | triggerCrash r1 r2 =>
    simp only [Sys.step, Option.some.injEq] at hstep; subst hstep
    obtain ⟨h1, h2, _⟩ := triggerCrash_stress sys.store now r1 r2
    show Balanced (triggerCrash sys.store now r1 r2).1.stress
      (triggerCrash sys.store now r1 r2).1.stability
    rw [h1, h2]; exact hb
  | forceCollapse ic cd r1 r2 =>
    simp only [Sys.step, Option.some.injEq] at hstep; subst hstep
    obtain ⟨h1, h2, _⟩ := handleForceCollapse_stress ic cd sys.store now r1 r2
    show Balanced (handleForceCollapse ic cd sys.store now r1 r2).1.stress
      (handleForceCollapse ic cd sys.store now r1 r2).1.stability
    rw [h1, h2]; exact hb
  | reset =>
    simp only [Sys.step, Option.some.injEq] at hstep; subst hstep
    exact balanced_of _ _ (by simp [reset])
  | fire i =>
    simp only [Sys.step] at hstep
    split at hstep
    · split at hstep
      · simp only [Option.some.injEq] at hstep; subst hstep
        exact balanced_of _ _ (by simp [collapseComplete])
      · exact absurd hstep (by simp)
    · exact absurd hstep (by simp)

theorem sampleSys_reachable (ok : State → Int → Prop)
    (h : ok (setCode (initialState 0) "let x") 2000) : Sys.Reachable ok sampleSys :=
  Sys.Reachable.step 2000 Event.calculateStress
    (Sys.Reachable.step 0 (Event.setCode "let x") (Sys.Reachable.init 0) rfl
      (fun h => by cases h))
    rfl (fun _ => h)

/-! ## The stress / stability invariant -/

/-- C1: in every system state reachable from a freshly created store by the store's
actions (`setCode`, `setLanguage`, `incrementKeystrokes`, `calculateStress`,
`triggerCrash`, the manual force-collapse handler, `reset`) and by due completion
callbacks, with every `calculateStress` evaluated at a non-negative elapsed session
time, `stability = 100 - stress` and both values lie in `[0, 100]`; the pair returned
by a further `calculateStress` call at a non-negative elapsed time has the same
properties. -/
theorem stress_stability_invariant (sys : Sys) (h : Sys.Reachable elapsedNonneg sys) :
    (sys.store.stability = 100 - sys.store.stress ∧
      0 ≤ sys.store.stress ∧ sys.store.stress ≤ 100 ∧
      0 ≤ sys.store.stability ∧ sys.store.stability ≤ 100) ∧
    ∀ now : Int, sys.store.sessionStartTime ≤ now →
      (calculateStress sys.store now).2.2 = 100 - (calculateStress sys.store now).2.1 ∧
      0 ≤ (calculateStress sys.store now).2.1 ∧ (calculateStress sys.store now).2.1 ≤ 100 ∧
      0 ≤ (calculateStress sys.store now).2.2 ∧ (calculateStress sys.store now).2.2 ≤ 100 := by
  refine ⟨?_, fun now hnow => (calculateStress_balanced sys.store now hnow).1⟩
  induction h with
  | init t0 => exact balanced_of _ _ (by simp [Sys.initial, initialState])
  | step now e _ hstep hok ih => exact step_balanced now e hstep hok ih

/-- Witness of C1 at `sampleSys`. -/
theorem stress_stability_invariant_witness :
    Sys.Reachable elapsedNonneg sampleSys ∧
    ((sampleSys.store.stability = 100 - sampleSys.store.stress ∧
      0 ≤ sampleSys.store.stress ∧ sampleSys.store.stress ≤ 100 ∧
      0 ≤ sampleSys.store.stability ∧ sampleSys.store.stability ≤ 100) ∧
    ∀ now : Int, sampleSys.store.sessionStartTime ≤ now →
      (calculateStress sampleSys.store now).2.2 = 100 - (calculateStress sampleSys.store now).2.1 ∧
      0 ≤ (calculateStress sampleSys.store now).2.1 ∧
      (calculateStress sampleSys.store now).2.1 ≤ 100 ∧
      0 ≤ (calculateStress sampleSys.store now).2.2 ∧
      (calculateStress sampleSys.store now).2.2 ≤ 100) :=
  ⟨sampleSys_reachable elapsedNonneg (by simp [elapsedNonneg, setCode, initialState]),
   stress_stability_invariant sampleSys
     (sampleSys_reachable elapsedNonneg (by simp [elapsedNonneg, setCode, initialState]))⟩

/-- The cooldown branch is entered on `if (lastCollapseTime)`, a test of truthiness that
a collapse time of `0` fails: `epochState` has `lastCollapseTime = 0` and at
`now = 5000` less than 10000 ms have passed, yet `calculateStress` scores the text.
Such a store needs a clock that reads `0` at the trigger; `Date.now()`, which counts
from 1970, gives no such reading. -/
theorem calculateStress_zero_timestamp :
    epochState.lastCollapseTime = some 0 ∧ (5000 : Int) - 0 < 10000 ∧
      (calculateStress epochState 5000).2 = (1 / 2, 199 / 2) ∧
      (calculateStress epochState 5000).1.collapseOnCooldown = false := by
  have hl : epochState.lastCollapseTime = some 0 := rfl
  have hw : countWords "" = 0 := by decide
  have hn : countLines "" = 1 := by decide
  have hb : countBrackets "" = 0 := by decide
  have hs : countSemicolons "" = 0 := by decide
  have hk : countKeywords "" = 0 := by decide
  have hcode : epochState.code = "" := rfl
  have hkeys : epochState.totalKeystrokes = 0 := rfl
  have hstart : epochState.sessionStartTime = 3000 := rfl
  have hflag : epochState.collapseOnCooldown = false := rfl
  have hraw : rawStress epochState.code epochState.totalKeystrokes
      epochState.sessionStartTime 5000 = 1 / 2 := by
    rw [rawStress_eq, hcode, hkeys, hstart, hw, hn, hb, hs, hk]; norm_num
  have hcalc : calculateStress epochState 5000 = scoreStress epochState 5000 := by
    simp [calculateStress, hl, truthyTime]
  refine ⟨hl, by norm_num, ?_, ?_⟩
  · rw [hcalc]; simp only [scoreStress, hraw]; norm_num
  · rw [hcalc]; exact hflag

/-- The cooldown branch: whenever `lastCollapseTime` is neither `null` nor `0` and
`now - lastCollapseTime < 10000`, `calculateStress` returns `(0, 100)` and the new
store is the old one with `stress = 0`, `stability = 100`, `collapseOnCooldown = true`
and the sample `100` appended to the last 99 history entries; nothing else changes,
whatever the text, the keystroke count and the session start time are. -/
theorem calculateStress_during_cooldown (s : State) (now last : Int)
    (hl : s.lastCollapseTime = some last) (h0 : last ≠ 0) (hlt : now - last < 10000) :
    (calculateStress s now).2 = (0, 100) ∧
    (calculateStress s now).1 =
      { s with stress := 0, stability := 100, collapseOnCooldown := true,
               stabilityHistory := sliceLast99 s.stabilityHistory ++ [100] } := by
  have ht : truthyTime s.lastCollapseTime = some last := by simp [hl, truthyTime, h0]
  rw [calculateStress_cooldown s now last ht hlt]
  exact ⟨rfl, rfl⟩

/-- The cooldown branch at `coolingState`, evaluated when the clock reads 5000. -/
theorem calculateStress_during_cooldown_sample :
    (coolingState.lastCollapseTime = some 1000 ∧ (1000 : Int) ≠ 0 ∧ (5000 : Int) - 1000 < 10000) ∧
    ((calculateStress coolingState 5000).2 = (0, 100) ∧
    (calculateStress coolingState 5000).1 =
      { coolingState with
          stress := 0, stability := 100, collapseOnCooldown := true,
          stabilityHistory := sliceLast99 coolingState.stabilityHistory ++ [100] }) :=
  ⟨⟨rfl, by decide, by decide⟩,
   calculateStress_during_cooldown coolingState 5000 1000 rfl (by decide) (by decide)⟩

/-! ## The collapse window -/

/-- `calculateStress` touches only `stress`, `stability`, `collapseOnCooldown` and
`stabilityHistory`. -/
theorem calculateStress_frame (s : State) (now : Int) :
    (calculateStress s now).1.isCrashing = s.isCrashing ∧
    (calculateStress s now).1.crashHistory = s.crashHistory ∧
    (calculateStress s now).1.codeHistory = s.codeHistory ∧
    (calculateStress s now).1.collapseCount = s.collapseCount ∧
    (calculateStress s now).1.lastCollapseTime = s.lastCollapseTime := by
  by_cases hc : ∃ last, truthyTime s.lastCollapseTime = some last ∧ now - last < 10000
  · obtain ⟨last, hl, hlt⟩ := hc
    rw [calculateStress_cooldown s now last hl hlt]
    exact ⟨rfl, rfl, rfl, rfl, rfl⟩
  · have hc1 : ∀ last, truthyTime s.lastCollapseTime = some last → 10000 ≤ now - last := by
      intro last hl
      by_contra hlt
      exact hc ⟨last, hl, by omega⟩
    rw [calculateStress_scoring s now hc1]
    exact ⟨rfl, rfl, rfl, rfl, rfl⟩

theorem triggerCrash_of_crashing (s : State) (now : Int) (r1 r2 : RandomDraw)
    (h : s.isCrashing = true) : triggerCrash s now r1 r2 = (s, none) := by
  simp [triggerCrash, h]

theorem triggerCrash_of_idle (s : State) (now : Int) (r1 r2 : RandomDraw)
    (h : s.isCrashing = false) :
    triggerCrash s now r1 r2 = (triggerCrashBody s now r1 r2, some 3000) := by
  simp [triggerCrash, h]

theorem handleForceCollapse_of_crashing (ic cd : Bool) (s : State) (now : Int)
    (r1 r2 : RandomDraw) (h : s.isCrashing = true) :
    handleForceCollapse ic cd s now r1 r2 = (s, none) := by
  unfold handleForceCollapse
  split
  · exact triggerCrash_of_crashing s now r1 r2 h
  · rfl

/-- Before the completion callback is due, no event other than `reset` ends the
collapse or touches the collapse log. -/
theorem step_inCollapse {due : Int} {log : List CrashData} {count : Nat} {sys sys1 : Sys}
    (now : Int) (e : Event) (hnow : now < due) (he : e.isReset = false)
    (hstep : sys.step now e = some sys1) (h : InCollapse due log count sys) :
    InCollapse due log count sys1 := by
  obtain ⟨hc, ht, hl, hn⟩ := h
  cases e with
  | setCode code =>
    simp only [Sys.step, Option.some.injEq] at hstep; subst hstep; exact ⟨hc, ht, hl, hn⟩
  | setLanguage l =>
    simp only [Sys.step, Option.some.injEq] at hstep; subst hstep; exact ⟨hc, ht, hl, hn⟩
  | incrementKeystrokes =>
    simp only [Sys.step, Option.some.injEq] at hstep; subst hstep; exact ⟨hc, ht, hl, hn⟩
  | calculateStress =>
    simp only [Sys.step, Option.some.injEq] at hstep; subst hstep
    obtain ⟨f1, f2, _, f4, _⟩ := calculateStress_frame sys.store now
    exact ⟨f1.trans hc, ht, f2.trans hl, f4.trans hn⟩
  | triggerCrash r1 r2 =>
    simp only [Sys.step, triggerCrash_of_crashing _ now r1 r2 hc, schedule,
      Option.some.injEq] at hstep
    subst hstep; exact ⟨hc, ht, hl, hn⟩
  | forceCollapse ic cd r1 r2 =>
    simp only [Sys.step, handleForceCollapse_of_crashing ic cd _ now r1 r2 hc, schedule,
      Option.some.injEq] at hstep
    subst hstep; exact ⟨hc, ht, hl, hn⟩
  | reset => simp [Event.isReset] at he
  | fire i =>
    exfalso
    simp only [Sys.step, ht] at hstep
    cases i with
    | zero =>
      simp only [List.get?_cons_zero] at hstep
      rw [if_neg (by omega)] at hstep
      exact absurd hstep (by simp)
    | succ j => simp at hstep

theorem run_inCollapse {due : Int} {log : List CrashData} {count : Nat}
    (evs : List (Int × Event)) :
    ∀ {sys sys1 : Sys}, (∀ p ∈ evs, p.1 < due ∧ p.2.isReset = false) →
      sys.run evs = some sys1 → InCollapse due log count sys →
      InCollapse due log count sys1 := by
  induction evs with
  | nil =>
    intro sys sys1 _ hrun h
    simp only [Sys.run, Option.some.injEq] at hrun
    subst hrun; exact h
  | cons p rest ih =>
    intro sys sys1 hall hrun h
    obtain ⟨now, e⟩ := p
    simp only [Sys.run] at hrun
    cases hs : sys.step now e with
    | none => rw [hs] at hrun; exact absurd hrun (by simp)
    | some sys2 =>
      rw [hs] at hrun
      have hp := hall (now, e) (List.mem_cons_self _ _)
      exact ih (fun q hq => hall q (List.mem_cons_of_mem _ hq)) hrun
        (step_inCollapse now e hp.1 hp.2 hs h)

theorem step_of_isCall (sys : Sys) (now : Int) (e : Event) (h : e.isCall = true) :
    ∃ sys1, sys.step now e = some sys1 := by
  cases e <;> first | exact ⟨_, rfl⟩ | simp [Event.isCall] at h

theorem run_of_isCall (evs : List (Int × Event)) :
    ∀ sys : Sys, (∀ p ∈ evs, p.2.isCall = true) → ∃ sys1, sys.run evs = some sys1 := by
  induction evs with
  | nil => intro sys _; exact ⟨sys, rfl⟩
  | cons p rest ih =>
    intro sys hall
    obtain ⟨now, e⟩ := p
    obtain ⟨sys2, hs⟩ := step_of_isCall sys now e (hall (now, e) (List.mem_cons_self _ _))
    obtain ⟨sys3, hr⟩ := ih sys2 (fun q hq => hall q (List.mem_cons_of_mem _ hq))
    exact ⟨sys3, by simp only [Sys.run, hs, hr]⟩

theorem triggerCrashBody_log (s : State) (now : Int) (r1 r2 : RandomDraw) :
    (triggerCrashBody s now r1 r2).isCrashing = true ∧
    (triggerCrashBody s now r1 r2).crashHistory = s.crashHistory ++
      [{ code := s.code, timestamp := now, generation := s.generation, stress := s.stress }] ∧
    (triggerCrashBody s now r1 r2).collapseCount = s.collapseCount + 1 :=
  ⟨rfl, rfl, rfl⟩

/-- C3 (amended): while `isCrashing` is true `triggerCrash` changes nothing in the store
and schedules no completion callback; hence, starting from a system that is not crashing
and has no completion callback of an earlier collapse pending, a `triggerCrash` call at
`t1` followed by any events other than `reset` and then a second `triggerCrash` call at
`t2 < t1 + 3000` leaves
exactly one new record at the end of `crashHistory`, `collapseCount` one higher, and
a single pending completion callback. Such a run always yields a result when the
events in between are calls (a completion callback cannot fire before `t1 + 3000`). -/
theorem triggerCrash_refused_while_crashing :
    (∀ (s : State) (now : Int) (r1 r2 : RandomDraw), s.isCrashing = true →
        triggerCrash s now r1 r2 = (s, none)) ∧
    (∀ (sys sys1 : Sys) (t1 t2 : Int) (r1 r2 r3 r4 : RandomDraw) (mid : List (Int × Event)),
        sys.Idle → t2 < t1 + 3000 →
        (∀ p ∈ mid, p.1 < t1 + 3000 ∧ p.2.isReset = false) →
        sys.run ((t1, Event.triggerCrash r1 r2) ::
          (mid ++ [(t2, Event.triggerCrash r3 r4)])) = some sys1 →
        sys1.store.crashHistory = sys.store.crashHistory ++
          [{ code := sys.store.code, timestamp := t1, generation := sys.store.generation,
             stress := sys.store.stress }] ∧
        sys1.store.collapseCount = sys.store.collapseCount + 1 ∧
        sys1.timers = [t1 + 3000]) ∧
    (∀ (sys : Sys) (t1 t2 : Int) (r1 r2 r3 r4 : RandomDraw) (mid : List (Int × Event)),
        (∀ p ∈ mid, p.2.isCall = true) →
        ∃ sys1, sys.run ((t1, Event.triggerCrash r1 r2) ::
          (mid ++ [(t2, Event.triggerCrash r3 r4)])) = some sys1) := by
  refine ⟨triggerCrash_of_crashing, ?_, ?_⟩
  rotate_left
  · intro sys t1 t2 r1 r2 r3 r4 mid hmid
    apply run_of_isCall
    intro p hp
    rcases List.mem_cons.mp hp with h | h
    · subst h; rfl
    · rcases List.mem_append.mp h with h | h
      · exact hmid p h
      · rw [List.mem_singleton] at h; subst h; rfl
  intro sys sys1 t1 t2 r1 r2 r3 r4 mid hidle ht2 hmid hrun
  obtain ⟨hc, ht⟩ := hidle
  obtain ⟨b1, b2, b3⟩ := triggerCrashBody_log sys.store t1 r1 r2
  have hfirst : sys.step t1 (Event.triggerCrash r1 r2) =
      some { store := triggerCrashBody sys.store t1 r1 r2, timers := [t1 + 3000] } := by
    simp [Sys.step, triggerCrash_of_idle _ t1 r1 r2 hc, schedule, ht]
  have hin : InCollapse (t1 + 3000)
      (sys.store.crashHistory ++
        [{ code := sys.store.code, timestamp := t1, generation := sys.store.generation,
           stress := sys.store.stress }])
      (sys.store.collapseCount + 1)
      { store := triggerCrashBody sys.store t1 r1 r2, timers := [t1 + 3000] } :=
    ⟨b1, rfl, b2, b3⟩
  simp only [Sys.run, hfirst] at hrun
  have hall : ∀ p ∈ mid ++ [(t2, Event.triggerCrash r3 r4)],
      p.1 < t1 + 3000 ∧ p.2.isReset = false := by
    intro p hp
    rcases List.mem_append.mp hp with h | h
    · exact hmid p h
    · rw [List.mem_singleton] at h; subst h; exact ⟨ht2, rfl⟩
  obtain ⟨_, k2, k3, k4⟩ := run_inCollapse _ hall hrun hin
  exact ⟨k3, k4, k2⟩

/-- Witness of C3 (amended): the guard at a crashing store, and `doubleTriggerRun` from
the initial system. -/
theorem triggerCrash_refused_while_crashing_witness :
    ((triggerCrashBody (initialState 0) 1000 zeroDraw zeroDraw).isCrashing = true ∧
      triggerCrash (triggerCrashBody (initialState 0) 1000 zeroDraw zeroDraw) 2500
        zeroDraw zeroDraw =
        (triggerCrashBody (initialState 0) 1000 zeroDraw zeroDraw, none)) ∧
    ((Sys.initial 0).Idle ∧ (2500 : Int) < 1000 + 3000 ∧
      (Sys.initial 0).run doubleTriggerRun = some doubleTriggerResult ∧
      doubleTriggerResult.store.crashHistory = (Sys.initial 0).store.crashHistory ++
          [{ code := "", timestamp := 1000, generation := 0, stress := 0 }] ∧
      doubleTriggerResult.store.collapseCount = (Sys.initial 0).store.collapseCount + 1 ∧
      doubleTriggerResult.timers = [1000 + 3000]) :=
  ⟨⟨rfl, triggerCrash_refused_while_crashing.1 _ 2500 zeroDraw zeroDraw rfl⟩,
   ⟨rfl, rfl⟩, by decide, rfl,
   triggerCrash_refused_while_crashing.2.1 (Sys.initial 0) doubleTriggerResult 1000 2500
     zeroDraw zeroDraw zeroDraw zeroDraw
     [(1500, Event.setCode "x"), (1600, Event.incrementKeystrokes)]
     ⟨rfl, rfl⟩ (by decide)
     (by
       intro p hp
       simp only [List.mem_cons, List.mem_singleton, List.not_mem_nil, or_false] at hp
       rcases hp with h | h <;> subst h <;> exact ⟨by decide, rfl⟩)
     rfl⟩

/-- Under a real clock a recorded collapse time is a positive clock reading. -/
theorem live_lastCollapseTime_pos {sys : Sys} (h : Sys.Live sys) :
    ∀ last, sys.store.lastCollapseTime = some last → 0 < last := by
  induction h with
  | init t0 h0 =>
    intro last hl
    simp [Sys.initial, initialState] at hl
  | @step sys sys1 now e _ hnow hstep ih =>
    have htrig : ∀ (r1 r2 : RandomDraw) (last : Int),
        (triggerCrash sys.store now r1 r2).1.lastCollapseTime = some last → 0 < last := by
      intro r1 r2 last hl
      cases hc : sys.store.isCrashing with
      | true =>
        rw [triggerCrash_of_crashing _ now r1 r2 hc] at hl
        exact ih last hl
      | false =>
        rw [triggerCrash_of_idle _ now r1 r2 hc] at hl
        have hl1 : some now = some last := hl
        have : now = last := Option.some.inj hl1
        omega
    cases e with
    | setCode code =>
      simp only [Sys.step, Option.some.injEq] at hstep; subst hstep; exact ih
    | setLanguage l =>
      simp only [Sys.step, Option.some.injEq] at hstep; subst hstep; exact ih
    | incrementKeystrokes =>
      simp only [Sys.step, Option.some.injEq] at hstep; subst hstep; exact ih
    | calculateStress =>
      simp only [Sys.step, Option.some.injEq] at hstep; subst hstep
      intro last hl
      exact ih last ((calculateStress_frame sys.store now).2.2.2.2.symm.trans hl)
    | triggerCrash r1 r2 =>
      simp only [Sys.step, Option.some.injEq] at hstep; subst hstep
      exact htrig r1 r2
    | forceCollapse ic cd r1 r2 =>
      simp only [Sys.step, Option.some.injEq] at hstep; subst hstep
      intro last hl
      simp only [handleForceCollapse] at hl
      split at hl
      · exact htrig r1 r2 last hl
      · exact ih last hl
    | reset =>
      simp only [Sys.step, Option.some.injEq] at hstep; subst hstep
      intro last hl
      simp [reset] at hl
    | fire i =>
      simp only [Sys.step] at hstep
      split at hstep
      · split at hstep
        · simp only [Option.some.injEq] at hstep; subst hstep
          exact ih
        · exact absurd hstep (by simp)
      · exact absurd hstep (by simp)

/-- C2: in every system that arises under a real clock, and for every text, keystroke
count and session start time put into its store: whenever `lastCollapseTime` is non-null
and `now - lastCollapseTime < 10000`, `calculateStress` returns `(0, 100)` and the new
store is the old one with `stress = 0`, `stability = 100`, `collapseOnCooldown = true`
and the sample `100` appended to the last 99 entries of `stabilityHistory`; nothing is
scored, the text, the keystroke count and the session start time play no part. This
holds of the action in exact arithmetic and in binary64 arithmetic alike. -/
theorem cooldown_locks_stress (sys : Sys) (hlive : Sys.Live sys) (code : String)
    (keystrokes : Nat) (start now last : Int)
    (hl : sys.store.lastCollapseTime = some last) (hlt : now - last < 10000) :
    calculateStress
        { sys.store with code := code, totalKeystrokes := keystrokes,
                         sessionStartTime := start } now =
      ({ sys.store with code := code, totalKeystrokes := keystrokes,
                        sessionStartTime := start, stress := 0, stability := 100,
                        collapseOnCooldown := true,
                        stabilityHistory := sliceLast99 sys.store.stabilityHistory ++ [100] },
       (0, 100)) ∧
    calculateStressDouble
        { sys.store with code := code, totalKeystrokes := keystrokes,
                         sessionStartTime := start } now =
      ({ sys.store with code := code, totalKeystrokes := keystrokes,
                        sessionStartTime := start, stress := 0, stability := 100,
                        collapseOnCooldown := true,
                        stabilityHistory := sliceLast99 sys.store.stabilityHistory ++ [100] },
       (0, 100)) := by
  have h0 : last ≠ 0 := ne_of_gt (live_lastCollapseTime_pos hlive last hl)
  have ht : truthyTime
      ({ sys.store with code := code, totalKeystrokes := keystrokes,
                        sessionStartTime := start } : State).lastCollapseTime = some last := by
    show truthyTime sys.store.lastCollapseTime = some last
    simp [hl, truthyTime, h0]
  rw [calculateStress_cooldown _ now last ht hlt,
    calculateStressDouble_cooldown _ now last ht hlt]
  exact ⟨rfl, rfl⟩

theorem liveCoolingSys_live : Sys.Live liveCoolingSys :=
  Sys.Live.step 4000 (Event.fire 0)
    (Sys.Live.step 1000 (Event.triggerCrash zeroDraw zeroDraw)
      (Sys.Live.init 100 (by decide)) (by decide) rfl)
    (by decide) rfl

/-- Witness of C2 at `liveCoolingSys`: a text is typed and the stress evaluated at
clock reading 5000, 4000 ms after the collapse. -/
theorem cooldown_locks_stress_witness :
    (Sys.Live liveCoolingSys ∧ liveCoolingSys.store.lastCollapseTime = some 1000 ∧
      (5000 : Int) - 1000 < 10000) ∧
    (calculateStress
        { liveCoolingSys.store with code := "while True: pass", totalKeystrokes := 16,
                                    sessionStartTime := 4000 } 5000 =
      ({ liveCoolingSys.store with
           code := "while True: pass", totalKeystrokes := 16, sessionStartTime := 4000,
           stress := 0, stability := 100, collapseOnCooldown := true,
           stabilityHistory := sliceLast99 liveCoolingSys.store.stabilityHistory ++ [100] },
       (0, 100)) ∧
    calculateStressDouble
        { liveCoolingSys.store with code := "while True: pass", totalKeystrokes := 16,
                                    sessionStartTime := 4000 } 5000 =
      ({ liveCoolingSys.store with
           code := "while True: pass", totalKeystrokes := 16, sessionStartTime := 4000,
           stress := 0, stability := 100, collapseOnCooldown := true,
           stabilityHistory := sliceLast99 liveCoolingSys.store.stabilityHistory ++ [100] },
       (0, 100))) :=
  ⟨⟨liveCoolingSys_live, rfl, by decide⟩,
   cooldown_locks_stress liveCoolingSys liveCoolingSys_live "while True: pass" 16 4000 5000
     1000 rfl (by decide)⟩

/-- C3 (counterexample): a store that is not crashing can still have a completion
callback of an earlier collapse pending. `staleCallbackRun` (trigger at 1000, `reset`
at 2000) leaves such a store: `isCrashing` is false, nothing is recorded, and the
callback due at 4000 is pending. From it, `triggerCrash` calls at 3500 and at 5000 are
1500 ms apart, the stale callback fires at 4000 and ends the second collapse early,
and the run records two collapses: `crashHistory` has two records and `collapseCount`
is 2. -/
theorem stale_callback_two_collapses :
    (Sys.initial 100).run staleCallbackRun = some staleCallbackSys ∧
    staleCallbackSys.store.isCrashing = false ∧
    staleCallbackSys.store.crashHistory = [] ∧
    staleCallbackSys.store.collapseCount = 0 ∧
    staleCallbackSys.timers = [4000] ∧
    (5000 : Int) < 3500 + 3000 ∧
    (staleCallbackSys.run staleDoubleTriggerRun).map
        (fun sys1 => (sys1.store.crashHistory.map CrashData.timestamp,
          sys1.store.collapseCount)) =
      some ([3500, 5000], 2) := by
  decide!

/-- C4: the manual handler does not refuse every trigger made while a cooldown is
active. Its guard reads `collapseOnCooldown`, which only an evaluation of the stress
raises, through the closure of a render. After `forcedOnceRun` (collapse forced at 1000,
completed at 4000, nothing typed) the store flag is still false and the button enabled:
a click at 5000, with 4000 ms of the cooldown gone, records a second collapse and moves
`lastCollapseTime` to 5000. After `forcedOnceEvaluatedRun` the flag is raised and the
button's handler refuses, but the `keydown` listener, installed when `isCrashing` last
changed, still holds `collapseOnCooldown = false`: the shortcut at 5000 records a
second collapse as well. The views are `(isCrashing, collapseOnCooldown, collapseCount,
length of crashHistory, lastCollapseTime)`. -/
theorem force_collapse_during_cooldown :
    (((Page.initial 100).run forcedOnceRun).map Page.collapseView =
        some (false, false, 1, 1, some 1000) ∧
      ((Page.initial 100).run forcedOnceRun).map Page.button = some (false, false) ∧
      (5000 : Int) - 1000 < 10000 ∧
      ((Page.initial 100).run
          (forcedOnceRun ++ [(5000, PageEvent.click zeroDraw zeroDraw)])).map
        Page.collapseView = some (true, false, 2, 2, some 5000)) ∧
    (((Page.initial 100).run forcedOnceEvaluatedRun).map Page.collapseView =
        some (false, true, 1, 1, some 1000) ∧
      ((Page.initial 100).run forcedOnceEvaluatedRun).map Page.button = some (false, true) ∧
      ((Page.initial 100).run forcedOnceEvaluatedRun).map Page.listener =
        some (false, false) ∧
      ((Page.initial 100).run
          (forcedOnceEvaluatedRun ++ [(5000, PageEvent.click zeroDraw zeroDraw)])).map
        Page.collapseView = some (false, true, 1, 1, some 1000) ∧
      ((Page.initial 100).run
          (forcedOnceEvaluatedRun ++ [(5000, PageEvent.shortcut zeroDraw zeroDraw)])).map
        Page.collapseView = some (true, true, 2, 2, some 5000)) := by
  refine ⟨⟨?_, ?_, ?_, ?_⟩, ⟨?_, ?_, ?_, ?_, ?_⟩⟩ <;> decide!

/-! ## The stability history buffer -/

theorem sliceLast99_eq (h : List ℚ) :
    sliceLast99 h = h.drop (h.length - min h.length 99) ∧
      (sliceLast99 h).length = min h.length 99 := by
  unfold sliceLast99
  constructor
  · congr 1; omega
  · rw [List.length_drop]; omega

/-- The history written by `calculateStress` is the last 99 old entries followed by
the returned stability. -/
theorem calculateStress_history (s : State) (now : Int) :
    (calculateStress s now).1.stabilityHistory =
      sliceLast99 s.stabilityHistory ++ [(calculateStress s now).2.2] := by
  by_cases hc : ∃ last, truthyTime s.lastCollapseTime = some last ∧ now - last < 10000
  · obtain ⟨last, hl, hlt⟩ := hc
    rw [calculateStress_cooldown s now last hl hlt]
  · have hc1 : ∀ last, truthyTime s.lastCollapseTime = some last → 10000 ≤ now - last := by
      intro last hl
      by_contra hlt
      exact hc ⟨last, hl, by omega⟩
    rw [calculateStress_scoring s now hc1]
    rfl

theorem step_history_length {sys sys1 : Sys} (now : Int) (e : Event)
    (hstep : sys.step now e = some sys1)
    (hb : 1 ≤ sys.store.stabilityHistory.length ∧ sys.store.stabilityHistory.length ≤ 100) :
    1 ≤ sys1.store.stabilityHistory.length ∧ sys1.store.stabilityHistory.length ≤ 100 := by
  cases e with
  | setCode code => simp only [Sys.step, Option.some.injEq] at hstep; subst hstep; exact hb
  | setLanguage l => simp only [Sys.step, Option.some.injEq] at hstep; subst hstep; exact hb
  | incrementKeystrokes =>
    simp only [Sys.step, Option.some.injEq] at hstep; subst hstep; exact hb
  | calculateStress =>
    simp only [Sys.step, Option.some.injEq] at hstep; subst hstep
    show 1 ≤ (calculateStress sys.store now).1.stabilityHistory.length ∧
      (calculateStress sys.store now).1.stabilityHistory.length ≤ 100
    rw [calculateStress_history, List.length_append, (sliceLast99_eq _).2]
    simp only [List.length_singleton]
    omega
  | triggerCrash r1 r2 =>
    simp only [Sys.step, Option.some.injEq] at hstep; subst hstep
    show 1 ≤ (triggerCrash sys.store now r1 r2).1.stabilityHistory.length ∧
      (triggerCrash sys.store now r1 r2).1.stabilityHistory.length ≤ 100
    rw [(triggerCrash_stress sys.store now r1 r2).2.2]; exact hb
  | forceCollapse ic cd r1 r2 =>
    simp only [Sys.step, Option.some.injEq] at hstep; subst hstep
    show 1 ≤ (handleForceCollapse ic cd sys.store now r1 r2).1.stabilityHistory.length ∧
      (handleForceCollapse ic cd sys.store now r1 r2).1.stabilityHistory.length ≤ 100
    rw [(handleForceCollapse_stress ic cd sys.store now r1 r2).2.2]; exact hb
  | reset =>
    simp only [Sys.step, Option.some.injEq] at hstep; subst hstep
    simp [reset]
  | fire i =>
    simp only [Sys.step] at hstep
    split at hstep
    · split at hstep
      · simp only [Option.some.injEq] at hstep; subst hstep
        simp [collapseComplete]
      · exact absurd hstep (by simp)
    · exact absurd hstep (by simp)

/-- C5: in every reachable system state `stabilityHistory` has between 1 and 100
entries, and a `calculateStress` call replaces a history `h` by the last
`min |h| 99` entries of `h`, in order, followed by the stability it returns. -/
theorem stabilityHistory_bounded_fifo (sys : Sys) (h : Sys.Reachable anyTime sys) :
    (1 ≤ sys.store.stabilityHistory.length ∧ sys.store.stabilityHistory.length ≤ 100) ∧
    ∀ now : Int,
      (calculateStress sys.store now).1.stabilityHistory =
        sys.store.stabilityHistory.drop
            (sys.store.stabilityHistory.length - min sys.store.stabilityHistory.length 99)
          ++ [(calculateStress sys.store now).2.2] := by
  constructor
  · induction h with
    | init t0 => simp [Sys.initial, initialState]
    | step now e _ hstep _ ih => exact step_history_length now e hstep ih
  · intro now
    rw [calculateStress_history, (sliceLast99_eq _).1]

/-- On a full history the oldest sample is the one dropped. -/
theorem calculateStress_history_full (s : State) (now : Int)
    (h : s.stabilityHistory.length = 100) :
    (calculateStress s now).1.stabilityHistory =
      s.stabilityHistory.tail ++ [(calculateStress s now).2.2] := by
  rw [calculateStress_history, sliceLast99, h, ← List.drop_one]

/-- Witness of C5 at `sampleSys`. -/
theorem stabilityHistory_bounded_fifo_witness :
    Sys.Reachable anyTime sampleSys ∧
    ((1 ≤ sampleSys.store.stabilityHistory.length ∧
        sampleSys.store.stabilityHistory.length ≤ 100) ∧
    ∀ now : Int,
      (calculateStress sampleSys.store now).1.stabilityHistory =
        sampleSys.store.stabilityHistory.drop
            (sampleSys.store.stabilityHistory.length -
              min sampleSys.store.stabilityHistory.length 99)
          ++ [(calculateStress sampleSys.store now).2.2]) :=
  ⟨sampleSys_reachable anyTime trivial,
   stabilityHistory_bounded_fifo sampleSys (sampleSys_reachable anyTime trivial)⟩

/-! ## The text metrics, as the specification words them -/

theorem splitNewlineAux_eq (cs cur : List Char) :
    splitNewlineAux cs cur = List.splitOnP.go (fun c => c == '\n') cs cur := by
  induction cs generalizing cur with
  | nil => rfl
  | cons c cs ih =>
    by_cases h : c = '\n'
    · simp [splitNewlineAux, List.splitOnP.go, h, ih]
    · simp [splitNewlineAux, List.splitOnP.go, h, ih]

theorem countLines_eq_segmentCount (code : String) : countLines code = segmentCount code := by
  simp [countLines, segmentCount, splitNewlineAux_eq, List.splitOn, List.splitOnP]

theorem splitWhitespaceAux_count (cs : List Char) :
    ∀ (inSep : Bool) (cur : List Char), (inSep = true → cur = []) →
      ((splitWhitespaceAux cs inSep cur).filter (fun w => decide (0 < w.length))).length =
        ((List.splitOnP.go isWhiteSpace cs cur).filter (fun w => decide (w ≠ []))).length := by
  induction cs with
  | nil =>
    intro inSep cur _
    simp [splitWhitespaceAux, List.splitOnP.go, List.length_pos]
  | cons c cs ih =>
    intro inSep cur hcur
    by_cases hw : isWhiteSpace c = true
    · cases inSep with
      | true =>
        have hc : cur = [] := hcur rfl
        subst hc
        simp [splitWhitespaceAux, List.splitOnP.go, hw, ih true [] (fun _ => rfl)]
      | false =>
        have := ih true [] (fun _ => rfl)
        simp only [splitWhitespaceAux, List.splitOnP.go, hw, if_true, Bool.false_eq_true,
          if_false, List.filter_cons]
        by_cases hr : cur = []
        · subst hr; simpa using this
        · have h1 : 0 < cur.reverse.length := by
            simp [List.length_pos, hr]
          have h2 : cur.reverse ≠ [] := by simpa using hr
          simp [h1, h2, this, -List.length_reverse, -List.reverse_eq_nil_iff]
    · have := ih false (c :: cur) (fun h => by cases h)
      simp only [Bool.not_eq_true] at hw
      simpa [splitWhitespaceAux, List.splitOnP.go, hw] using this

theorem countWords_eq_tokenCount (code : String) : countWords code = tokenCount code := by
  simp only [countWords, tokenCount, splitWhitespace, List.splitOnP]
  exact splitWhitespaceAux_count code.data false [] (fun h => by cases h)

/-! ### The keyword scan counts whole tokens -/

theorem keyword_chars :
    ∀ k ∈ stressKeywords.map String.data, k ≠ [] ∧ ∀ c ∈ k, isWordChar c = true := by
  decide

theorem splitOnP_go_runs (cs : List Char) :
    ∀ acc : List Char, List.splitOnP.go (fun c => !isWordChar c) cs acc =
      (acc.reverse ++ cs.takeWhile isWordChar) ::
        (match cs.dropWhile isWordChar with
          | [] => []
          | _ :: t => List.splitOnP.go (fun c => !isWordChar c) t []) := by
  induction cs with
  | nil => intro acc; simp [List.splitOnP.go]
  | cons c cs ih =>
    intro acc
    by_cases hc : isWordChar c = true
    · simp [List.splitOnP.go, hc, ih (c :: acc), List.takeWhile_cons, List.dropWhile_cons]
    · simp only [Bool.not_eq_true] at hc
      simp [List.splitOnP.go, hc, List.takeWhile_cons, List.dropWhile_cons]

theorem kwRuns_eq (cs : List Char) :
    kwRuns cs =
      (if cs.takeWhile isWordChar ∈ stressKeywords.map String.data then 1 else 0) +
        kwRunsAfter cs := by
  unfold kwRuns kwRunsAfter
  rw [List.splitOnP, splitOnP_go_runs cs []]
  simp only [List.reverse_nil, List.nil_append, List.filter_cons]
  by_cases h : cs.takeWhile isWordChar ∈ stressKeywords.map String.data
  · simp only [h, decide_True, if_true, List.length_cons]
    cases cs.dropWhile isWordChar with
    | nil => simp
    | cons d t => simp only [kwRuns, List.splitOnP]; omega
  · simp only [h, decide_False, Bool.false_eq_true, if_false, zero_add]
    cases cs.dropWhile isWordChar with
    | nil => simp
    | cons d t => simp only [kwRuns, List.splitOnP]

theorem kwRunsAfter_cons_word (c : Char) (cs : List Char) (h : isWordChar c = true) :
    kwRunsAfter (c :: cs) = kwRunsAfter cs := by
  simp [kwRunsAfter, List.dropWhile_cons, h]

theorem kwRunsAfter_cons_other (c : Char) (cs : List Char) (h : isWordChar c = false) :
    kwRunsAfter (c :: cs) = kwRuns cs := by
  simp [kwRunsAfter, List.dropWhile_cons, h]

theorem kwRuns_cons_other (c : Char) (cs : List Char) (h : isWordChar c = false) :
    kwRuns (c :: cs) = kwRuns cs := by
  rw [kwRuns_eq, kwRunsAfter_cons_other c cs h]
  have : (c :: cs).takeWhile isWordChar = [] := by simp [List.takeWhile_cons, h]
  rw [this]
  have hn : ([] : List Char) ∉ stressKeywords.map String.data := by decide
  simp [hn]

theorem dropWhile_head_not_word (cs : List Char) :
    match cs.dropWhile isWordChar with
    | [] => True
    | d :: _ => isWordChar d = false := by
  induction cs with
  | nil => simp
  | cons c cs ih =>
    by_cases hc : isWordChar c = true
    · simpa [List.dropWhile_cons, hc] using ih
    · simp only [Bool.not_eq_true] at hc
      simp [List.dropWhile_cons, hc]

theorem boundary_after_word (l : Char) (tail : List Char) (hl : isWordChar l = true) :
    atWordBoundary (some l) tail = true ↔
      (match tail with
        | [] => True
        | d :: _ => isWordChar d = false) := by
  cases tail with
  | nil => simp [atWordBoundary, hl]
  | cons d t => cases hd : isWordChar d <;> simp [atWordBoundary, hl, hd]

/-- An alternative of the keyword expression matches at a position exactly when it
spells the whole run of word characters that starts there. -/
theorem keyword_attempt_iff (rest k : List Char) (hk : k ∈ stressKeywords.map String.data) :
    (k.isPrefixOf rest && atWordBoundary k.getLast? (rest.drop k.length)) = true ↔
      k = rest.takeWhile isWordChar := by
  obtain ⟨hne, hword⟩ := keyword_chars k hk
  have hlast : k.getLast? = some (k.getLast hne) := List.getLast?_eq_getLast k hne
  have hlw : isWordChar (k.getLast hne) = true := hword _ (List.getLast_mem hne)
  rw [Bool.and_eq_true, List.isPrefixOf_iff_prefix, hlast]
  constructor
  · rintro ⟨⟨tail, rfl⟩, hb⟩
    rw [List.drop_left, boundary_after_word _ _ hlw] at hb
    rw [List.takeWhile_append_of_pos hword]
    cases tail with
    | nil => simp
    | cons d t =>
      have hd : isWordChar d = false := hb
      simp [List.takeWhile_cons, hd]
  · intro h
    have hsplit := List.takeWhile_append_dropWhile isWordChar rest
    have hhead := dropWhile_head_not_word rest
    rw [← h] at hsplit
    refine ⟨⟨_, hsplit⟩, ?_⟩
    have hdrop : rest.drop k.length = rest.dropWhile isWordChar := by
      conv_lhs => rw [← hsplit]
      exact List.drop_left _ _
    rw [hdrop, boundary_after_word _ _ hlw]
    exact hhead

theorem matchKeywordAt_some {prev : Option Char} {rest : List Char} {k : String}
    (h : matchKeywordAt prev rest = some k) :
    k.data = rest.takeWhile isWordChar ∧ k.data ∈ stressKeywords.map String.data := by
  unfold matchKeywordAt at h
  split at h
  · have hmem : k ∈ stressKeywords := List.mem_of_find?_eq_some h
    have hk : k.data ∈ stressKeywords.map String.data := List.mem_map_of_mem _ hmem
    have hp := List.find?_some h
    exact ⟨(keyword_attempt_iff rest k.data hk).mp hp, hk⟩
  · exact absurd h (by simp)

theorem matchKeywordAt_none {prev : Option Char} {rest : List Char}
    (hb : atWordBoundary prev rest = true) (h : matchKeywordAt prev rest = none) :
    rest.takeWhile isWordChar ∉ stressKeywords.map String.data := by
  unfold matchKeywordAt at h
  rw [if_pos hb, List.find?_eq_none] at h
  intro hmem
  obtain ⟨k, hk, hkd⟩ := List.mem_map.mp hmem
  have hk2 : k.data ∈ stressKeywords.map String.data := List.mem_map_of_mem _ hk
  exact h k hk ((keyword_attempt_iff rest k.data hk2).mpr hkd)

theorem matchKeywordAt_other (prev : Option Char) (c : Char) (cs : List Char)
    (hc : isWordChar c = false) : matchKeywordAt prev (c :: cs) = none := by
  cases hm : matchKeywordAt prev (c :: cs) with
  | none => rfl
  | some k =>
    obtain ⟨h1, h2⟩ := matchKeywordAt_some hm
    have : (c :: cs).takeWhile isWordChar = [] := by simp [List.takeWhile_cons, hc]
    rw [this] at h1
    exact absurd h1 (keyword_chars _ h2).1

/-- The scan of the keyword expression, started outside a word, counts the keyword
tokens; started inside a word or a match, it counts those after the current run. -/
theorem countKeywordsAux_spec (cs : List Char) :
    (∀ prev : Option Char, (∀ p, prev = some p → isWordChar p = false) →
      countKeywordsAux prev cs 0 = kwRuns cs) ∧
    (∀ (prev : Option Char) (skip : Nat), skip ≤ (cs.takeWhile isWordChar).length →
      (skip = 0 → ∃ p, prev = some p ∧ isWordChar p = true) →
      countKeywordsAux prev cs skip = kwRunsAfter cs) := by
  induction cs with
  | nil =>
    constructor
    · intro prev _
      have hn : ([] : List Char) ∉ stressKeywords.map String.data := by decide
      simp only [countKeywordsAux, kwRuns, List.splitOnP, List.splitOnP.go, List.reverse_nil,
        List.filter_cons, hn, decide_False, Bool.false_eq_true, if_false, List.filter_nil,
        List.length_nil]
    · intro prev skip _ _
      simp [countKeywordsAux, kwRunsAfter]
  | cons c cs ih =>
    obtain ⟨ihA, ihB⟩ := ih
    constructor
    · intro prev hprev
      by_cases hc : isWordChar c = true
      · have hb : atWordBoundary prev (c :: cs) = true := by
          cases prev with
          | none => simp [atWordBoundary, hc]
          | some p => simp [atWordBoundary, hc, hprev p rfl]
        have htw : (c :: cs).takeWhile isWordChar = c :: cs.takeWhile isWordChar := by
          simp [List.takeWhile_cons, hc]
        rw [kwRuns_eq, kwRunsAfter_cons_word c cs hc]
        cases hm : matchKeywordAt prev (c :: cs) with
        | some k =>
          obtain ⟨h1, h2⟩ := matchKeywordAt_some hm
          have hlen : k.data.length - 1 = (cs.takeWhile isWordChar).length := by
            rw [h1, htw]; simp
          have hB := ihB (some c) (k.data.length - 1) (by omega) (fun _ => ⟨c, rfl, hc⟩)
          rw [h1] at h2
          simp only [countKeywordsAux, hm, hB, h2, if_true]
        | none =>
          have h2 := matchKeywordAt_none hb hm
          have hB := ihB (some c) 0 (Nat.zero_le _) (fun _ => ⟨c, rfl, hc⟩)
          simp only [countKeywordsAux, hm, hB, h2, if_false, zero_add]
      · simp only [Bool.not_eq_true] at hc
        have hm := matchKeywordAt_other prev c cs hc
        have hA := ihA (some c) (fun p hp => by cases hp; exact hc)
        rw [kwRuns_cons_other c cs hc]
        simp only [countKeywordsAux, hm, hA]
    · intro prev skip hskip hprev
      cases skip with
      | succ n =>
        have hc : isWordChar c = true := by
          by_contra hc
          simp only [Bool.not_eq_true] at hc
          simp [List.takeWhile_cons, hc] at hskip
        have hn : n ≤ (cs.takeWhile isWordChar).length := by
          simp [List.takeWhile_cons, hc] at hskip
          exact hskip
        have hB := ihB (some c) n hn (fun _ => ⟨c, rfl, hc⟩)
        rw [kwRunsAfter_cons_word c cs hc]
        simp only [countKeywordsAux, hB]
      | zero =>
        obtain ⟨p, hp, hpw⟩ := hprev rfl
        subst hp
        by_cases hc : isWordChar c = true
        · have hm : matchKeywordAt (some p) (c :: cs) = none := by
            simp [matchKeywordAt, atWordBoundary, hc, hpw]
          have hB := ihB (some c) 0 (Nat.zero_le _) (fun _ => ⟨c, rfl, hc⟩)
          rw [kwRunsAfter_cons_word c cs hc]
          simp only [countKeywordsAux, hm, hB]
        · simp only [Bool.not_eq_true] at hc
          have hm := matchKeywordAt_other (some p) c cs hc
          have hA := ihA (some c) (fun q hq => by cases hq; exact hc)
          rw [kwRunsAfter_cons_other c cs hc]
          simp only [countKeywordsAux, hm, hA]

theorem countKeywords_eq_keywordTokenCount (code : String) :
    countKeywords code = keywordTokenCount code :=
  (countKeywordsAux_spec code.data).1 none (fun p hp => by cases hp)

/-! ## Scoring -/

theorem not_cooldown_scoring {s : State} {now : Int} (h : ¬ cooldownActive s now) :
    ∀ last, truthyTime s.lastCollapseTime = some last → 10000 ≤ now - last := by
  intro last hl
  by_contra hlt
  exact h ⟨last, truthyTime_eq_some hl, by omega⟩

theorem calculateStress_pair (s : State) (now : Int) (h : ¬ cooldownActive s now) :
    (calculateStress s now).2 =
      (min (rawStress s.code s.totalKeystrokes s.sessionStartTime now) 100,
       max 0 (100 - min (rawStress s.code s.totalKeystrokes s.sessionStartTime now) 100)) ∧
    (calculateStress s now).1.stress = (calculateStress s now).2.1 ∧
    (calculateStress s now).1.stability = (calculateStress s now).2.2 := by
  rw [calculateStress_scoring s now (not_cooldown_scoring h)]
  exact ⟨rfl, rfl, rfl⟩

/-- The scoring formula in exact arithmetic: when no cooldown is active,
`calculateStress` returns `stress = min(100, 2*words + 0.3*lines + 0.05*totalKeystrokes + 0.1*elapsedSeconds
+ 0.15*brackets + 0.08*semicolons + 0.25*keywords)` and `stability = 100 - stress`,
with `words` the number of non-empty whitespace-delimited tokens, `lines` the number
of newline-delimited segments, `brackets` and `semicolons` character counts, and
`keywords` the number of whole tokens spelling one of the eleven keywords; the pair
is a function of these seven quantities only. (The sign of the elapsed time plays no
part.) -/
theorem calculateStress_formula (s : State) (now : Int) (h : ¬ cooldownActive s now) :
    (calculateStress s now).2.1 =
      min 100
        (2 * (tokenCount s.code : ℚ) + 3 / 10 * (segmentCount s.code : ℚ)
          + 5 / 100 * (s.totalKeystrokes : ℚ)
          + 1 / 10 * (((now - s.sessionStartTime : Int) : ℚ) / 1000)
          + 15 / 100 * (countBrackets s.code : ℚ)
          + 8 / 100 * (countSemicolons s.code : ℚ)
          + 25 / 100 * (keywordTokenCount s.code : ℚ)) ∧
    (calculateStress s now).2.2 = 100 - (calculateStress s now).2.1 := by
  obtain ⟨hp, _, _⟩ := calculateStress_pair s now h
  rw [hp, rawStress_eq, countWords_eq_tokenCount, countLines_eq_segmentCount,
    countKeywords_eq_keywordTokenCount]
  refine ⟨min_comm _ _, ?_⟩
  apply max_eq_right
  have := min_le_right
    (2 * (tokenCount s.code : ℚ) + 3 / 10 * (segmentCount s.code : ℚ)
      + 5 / 100 * (s.totalKeystrokes : ℚ)
      + 1 / 10 * (((now - s.sessionStartTime : Int) : ℚ) / 1000)
      + 15 / 100 * (countBrackets s.code : ℚ)
      + 8 / 100 * (countSemicolons s.code : ℚ)
      + 25 / 100 * (keywordTokenCount s.code : ℚ)) 100
  linarith

theorem snippet_metrics :
    tokenCount snippetState.code = 5 ∧ segmentCount snippetState.code = 1 ∧
    countBrackets snippetState.code = 4 ∧ countSemicolons snippetState.code = 1 ∧
    keywordTokenCount snippetState.code = 2 ∧ segmentCount "" = 1 ∧ tokenCount "" = 0 := by
  decide

theorem snippet_not_cooldown (now : Int) : ¬ cooldownActive snippetState now := by
  rintro ⟨last, h, _⟩
  cases h

/-- The scoring formula in exact arithmetic at `snippetState`, evaluated three seconds
into the session. -/
theorem calculateStress_formula_witness :
    ¬ cooldownActive snippetState 3000 ∧
    ((calculateStress snippetState 3000).2.1 =
      min 100
        (2 * (tokenCount snippetState.code : ℚ) + 3 / 10 * (segmentCount snippetState.code : ℚ)
          + 5 / 100 * (snippetState.totalKeystrokes : ℚ)
          + 1 / 10 * (((3000 - snippetState.sessionStartTime : Int) : ℚ) / 1000)
          + 15 / 100 * (countBrackets snippetState.code : ℚ)
          + 8 / 100 * (countSemicolons snippetState.code : ℚ)
          + 25 / 100 * (keywordTokenCount snippetState.code : ℚ)) ∧
    (calculateStress snippetState 3000).2.2 = 100 - (calculateStress snippetState 3000).2.1) :=
  ⟨snippet_not_cooldown 3000, calculateStress_formula snippetState 3000 (snippet_not_cooldown 3000)⟩

/-- The formula evaluated on `snippetState`: 5 words, 1 line, 12 keystrokes, 3 seconds,
4 brackets, 1 semicolon and 2 keywords give stress 12.38 and stability 87.62. -/
theorem snippet_stress :
    (calculateStress snippetState 3000).2 = (619 / 50, 4381 / 50) := by
  obtain ⟨hp, _, _⟩ := calculateStress_pair snippetState 3000 (snippet_not_cooldown 3000)
  obtain ⟨m1, m2, m3, m4, m5, _, _⟩ := snippet_metrics
  have hk : snippetState.totalKeystrokes = 12 := rfl
  have hs : snippetState.sessionStartTime = 0 := rfl
  have hraw : rawStress snippetState.code snippetState.totalKeystrokes
      snippetState.sessionStartTime 3000 = 619 / 50 := by
    rw [rawStress_eq, countWords_eq_tokenCount, countLines_eq_segmentCount,
      countKeywords_eq_keywordTokenCount, m1, m2, m3, m4, m5, hk, hs]
    norm_num
  rw [hp, hraw]
  norm_num

/-! ## Scoring in the arithmetic of the engine -/

theorem rawStressDouble_eq (code : String) (k : Nat) (start now : Int) :
    rawStressDouble code k start now =
      stressFormulaDouble (countWords code) (countLines code) k (now - start)
        (countBrackets code) (countSemicolons code) (countKeywords code) := by
  simp only [rawStressDouble, stressFormulaDouble, fsub, Int.cast_sub]

theorem calculateStressDouble_pair (s : State) (now : Int) (h : ¬ cooldownActive s now) :
    (calculateStressDouble s now).2 =
      (min (rawStressDouble s.code s.totalKeystrokes s.sessionStartTime now) 100,
       max 0 (fsub 100
         (min (rawStressDouble s.code s.totalKeystrokes s.sessionStartTime now) 100))) ∧
    (calculateStressDouble s now).1.stress = (calculateStressDouble s now).2.1 ∧
    (calculateStressDouble s now).1.stability = (calculateStressDouble s now).2.2 := by
  rw [calculateStressDouble_scoring s now (not_cooldown_scoring h)]
  exact ⟨rfl, rfl, rfl⟩

theorem nearCeiling_not_cooldown (now : Int) : ¬ cooldownActive nearCeilingState now := by
  rintro ⟨last, h, _⟩
  cases h

/-- C6 (counterexample): the engine adds binary64 numbers, and the rounded sum can miss
the exact one. `nearCeilingState` holds 49 words, 1 line, 9 brackets, no semicolon and
no keyword, with 1 keystroke; evaluated 3000 ms into the session, outside any cooldown,
the formula is exactly `98 + 0.3 + 0.05 + 0.3 + 1.35 = 100`, but `calculateStress`
returns the stress `100 - 2 ^ (-46)` (printed `99.99999999999999`) and the stability
`2 ^ (-46)`: the stress stays below the ceiling `100`, so the test `newStress >= 100`
of the editor component fails where the formula reaches the ceiling. -/
theorem stress_rounding_counterexample :
    ¬ cooldownActive nearCeilingState 4000 ∧
    (nearCeilingState.sessionStartTime ≤ 4000 ∧
      tokenCount nearCeilingState.code = 49 ∧ segmentCount nearCeilingState.code = 1 ∧
      nearCeilingState.totalKeystrokes = 1 ∧ 4000 - nearCeilingState.sessionStartTime = 3000 ∧
      countBrackets nearCeilingState.code = 9 ∧ countSemicolons nearCeilingState.code = 0 ∧
      keywordTokenCount nearCeilingState.code = 0) ∧
    min 100
        (2 * (tokenCount nearCeilingState.code : ℚ)
          + 3 / 10 * (segmentCount nearCeilingState.code : ℚ)
          + 5 / 100 * (nearCeilingState.totalKeystrokes : ℚ)
          + 1 / 10 * (((4000 - nearCeilingState.sessionStartTime : Int) : ℚ) / 1000)
          + 15 / 100 * (countBrackets nearCeilingState.code : ℚ)
          + 8 / 100 * (countSemicolons nearCeilingState.code : ℚ)
          + 25 / 100 * (keywordTokenCount nearCeilingState.code : ℚ)) = 100 ∧
    (calculateStressDouble nearCeilingState 4000).2 =
      (7036874417766399 / 70368744177664, 1 / 70368744177664) ∧
    (calculateStressDouble nearCeilingState 4000).2.1 < 100 := by
  refine ⟨nearCeiling_not_cooldown 4000, by decide!, by decide!, by decide!, by decide!⟩

/-- C6 (amended): when no cooldown is active, `calculateStress` returns
`stress = min(100, S)` where `S` is the sum `2*words + 0.3*lines + 0.05*totalKeystrokes
+ 0.1*elapsedSeconds + 0.15*brackets + 0.08*semicolons + 0.25*keywords` evaluated in
binary64 arithmetic, every literal, product, quotient and partial sum rounded, from
left to right; and `stability = 100 - stress`, the subtraction rounded as well. Both
are stored. `words` is the number of non-empty whitespace-delimited tokens, `lines` the
number of newline-delimited segments, `brackets` and `semicolons` character counts,
`keywords` the number of whole tokens spelling one of the eleven keywords; the pair is
a function of these seven quantities only. -/
theorem calculateStressDouble_formula (s : State) (now : Int) (h : ¬ cooldownActive s now) :
    (calculateStressDouble s now).2.1 =
      min 100
        (stressFormulaDouble (tokenCount s.code) (segmentCount s.code) s.totalKeystrokes
          (now - s.sessionStartTime) (countBrackets s.code) (countSemicolons s.code)
          (keywordTokenCount s.code)) ∧
    (calculateStressDouble s now).2.2 = fsub 100 (calculateStressDouble s now).2.1 ∧
    (calculateStressDouble s now).1.stress = (calculateStressDouble s now).2.1 ∧
    (calculateStressDouble s now).1.stability = (calculateStressDouble s now).2.2 := by
  obtain ⟨hp, h1, h2⟩ := calculateStressDouble_pair s now h
  refine ⟨?_, ?_, h1, h2⟩
  · rw [hp, rawStressDouble_eq, countWords_eq_tokenCount, countLines_eq_segmentCount,
      countKeywords_eq_keywordTokenCount]
    exact min_comm _ _
  · rw [hp]
    apply max_eq_right
    apply roundDouble_nonneg
    have := min_le_right (rawStressDouble s.code s.totalKeystrokes s.sessionStartTime now) 100
    linarith

/-- Witness of C6 (amended) at `snippetState`, evaluated three seconds into the session. -/
theorem calculateStressDouble_formula_witness :
    ¬ cooldownActive snippetState 3000 ∧
    ((calculateStressDouble snippetState 3000).2.1 =
      min 100
        (stressFormulaDouble (tokenCount snippetState.code) (segmentCount snippetState.code)
          snippetState.totalKeystrokes (3000 - snippetState.sessionStartTime)
          (countBrackets snippetState.code) (countSemicolons snippetState.code)
          (keywordTokenCount snippetState.code)) ∧
    (calculateStressDouble snippetState 3000).2.2 =
      fsub 100 (calculateStressDouble snippetState 3000).2.1 ∧
    (calculateStressDouble snippetState 3000).1.stress =
      (calculateStressDouble snippetState 3000).2.1 ∧
    (calculateStressDouble snippetState 3000).1.stability =
      (calculateStressDouble snippetState 3000).2.2) :=
  ⟨snippet_not_cooldown 3000,
   calculateStressDouble_formula snippetState 3000 (snippet_not_cooldown 3000)⟩

/-- The engine's arithmetic on `snippetState`: 5 words, 1 line, 12 keystrokes, 3 seconds,
4 brackets, 1 semicolon and 2 keywords give the binary64 number nearest to 12.38, up to
the rounding of the sums, where exact arithmetic gives `12.38`. -/
theorem snippet_stress_double :
    (calculateStressDouble snippetState 3000).2.1 = 6969320423355843 / 562949953421312 := by
  decide!

/-- C7: for a text with at least 50 non-empty whitespace-delimited words, any
keystroke count and any non-negative elapsed time, `calculateStress` outside a
cooldown returns stress exactly 100 and stability exactly 0, and stores them. -/
theorem fifty_words_saturate (s : State) (now : Int) (hw : 50 ≤ tokenCount s.code)
    (hcd : ¬ cooldownActive s now) (he : s.sessionStartTime ≤ now) :
    (calculateStress s now).2 = (100, 0) ∧
    (calculateStress s now).1.stress = 100 ∧ (calculateStress s now).1.stability = 0 := by
  obtain ⟨hp, h1, h2⟩ := calculateStress_pair s now hcd
  have hraw : 100 ≤ rawStress s.code s.totalKeystrokes s.sessionStartTime now := by
    rw [rawStress_eq, countWords_eq_tokenCount]
    have hw' : (50 : ℚ) ≤ (tokenCount s.code : ℚ) := by exact_mod_cast hw
    have h1 : (0 : ℚ) ≤ ((now - s.sessionStartTime : Int) : ℚ) := by
      exact_mod_cast (by omega : (0 : Int) ≤ now - s.sessionStartTime)
    have h2 : (0 : ℚ) ≤ ((now - s.sessionStartTime : Int) : ℚ) / 1000 :=
      div_nonneg h1 (by norm_num)
    have h3 : (0 : ℚ) ≤ 3 / 10 * (countLines s.code : ℚ) := by positivity
    have h4 : (0 : ℚ) ≤ 5 / 100 * (s.totalKeystrokes : ℚ) := by positivity
    have h5 : (0 : ℚ) ≤ 15 / 100 * (countBrackets s.code : ℚ) := by positivity
    have h6 : (0 : ℚ) ≤ 8 / 100 * (countSemicolons s.code : ℚ) := by positivity
    have h7 : (0 : ℚ) ≤ 25 / 100 * (countKeywords s.code : ℚ) := by positivity
    linarith
  have hmin : min (rawStress s.code s.totalKeystrokes s.sessionStartTime now) 100 = 100 :=
    min_eq_right hraw
  have hpair : (calculateStress s now).2 = (100, 0) := by
    rw [hp, hmin]; norm_num
  refine ⟨hpair, ?_, ?_⟩
  · rw [h1, hpair]
  · rw [h2, hpair]

theorem fiftyWord_not_cooldown (now : Int) : ¬ cooldownActive fiftyWordState now := by
  rintro ⟨last, h, _⟩
  cases h

/-- Witness of C7 at `fiftyWordState`, evaluated one minute into the session. -/
theorem fifty_words_saturate_witness :
    (50 ≤ tokenCount fiftyWordState.code ∧ ¬ cooldownActive fiftyWordState 60000 ∧
      fiftyWordState.sessionStartTime ≤ 60000) ∧
    ((calculateStress fiftyWordState 60000).2 = (100, 0) ∧
      (calculateStress fiftyWordState 60000).1.stress = 100 ∧
      (calculateStress fiftyWordState 60000).1.stability = 0) :=
  ⟨⟨by decide, fiftyWord_not_cooldown 60000, by decide⟩,
   fifty_words_saturate fiftyWordState 60000 (by decide)
     (fiftyWord_not_cooldown 60000) (by decide)⟩

/-! ### The range of the score and the saturation in the arithmetic of the engine -/

theorem roundDouble_100 : roundDouble 100 = 100 := by decide!

theorem fadd_nonneg {a b : ℚ} (ha : 0 ≤ a) (hb : 0 ≤ b) : 0 ≤ fadd a b :=
  roundDouble_nonneg (add_nonneg ha hb)

theorem fmul_nonneg {a b : ℚ} (ha : 0 ≤ a) (hb : 0 ≤ b) : 0 ≤ fmul a b :=
  roundDouble_nonneg (mul_nonneg ha hb)

theorem fadd_ge_100 {a b : ℚ} (ha : 100 ≤ a) (hb : 0 ≤ b) : 100 ≤ fadd a b := by
  have h := roundDouble_mono (show (100 : ℚ) ≤ a + b by linarith)
  rwa [roundDouble_100] at h

theorem timeElapsedDouble_nonneg (start now : Int) (h : start ≤ now) :
    0 ≤ fdiv (fsub (now : ℚ) (start : ℚ)) 1000 := by
  have h1 : (0 : ℚ) ≤ (now : ℚ) - (start : ℚ) := by
    have : (0 : Int) ≤ now - start := by omega
    exact_mod_cast this
  exact roundDouble_nonneg (div_nonneg (roundDouble_nonneg h1) (by norm_num))

theorem rawStressDouble_nonneg (code : String) (k : Nat) (start now : Int) (h : start ≤ now) :
    0 ≤ rawStressDouble code k start now := by
  have ht := timeElapsedDouble_nonneg start now h
  have c1 : (0 : ℚ) ≤ roundDouble (3 / 10) := roundDouble_nonneg (by norm_num)
  have c2 : (0 : ℚ) ≤ roundDouble (5 / 100) := roundDouble_nonneg (by norm_num)
  have c3 : (0 : ℚ) ≤ roundDouble (1 / 10) := roundDouble_nonneg (by norm_num)
  have c4 : (0 : ℚ) ≤ roundDouble (15 / 100) := roundDouble_nonneg (by norm_num)
  have c5 : (0 : ℚ) ≤ roundDouble (8 / 100) := roundDouble_nonneg (by norm_num)
  have c6 : (0 : ℚ) ≤ roundDouble (25 / 100) := roundDouble_nonneg (by norm_num)
  simp only [rawStressDouble]
  refine fadd_nonneg (fadd_nonneg (fadd_nonneg (fadd_nonneg (fadd_nonneg (fadd_nonneg
    (fadd_nonneg (le_refl 0) (fmul_nonneg (Nat.cast_nonneg _) (by norm_num)))
    (fmul_nonneg (Nat.cast_nonneg _) c1)) (fmul_nonneg (Nat.cast_nonneg _) c2))
    (fmul_nonneg ht c3)) (fmul_nonneg (Nat.cast_nonneg _) c4))
    (fmul_nonneg (Nat.cast_nonneg _) c5)) (fmul_nonneg (Nat.cast_nonneg _) c6)

/-- The pair computed by the engine's scoring lies in range when the elapsed time is
non-negative, and the stability is the rounded difference `100 - stress`. -/
theorem scoreStressDouble_range (s : State) (now : Int) (h : s.sessionStartTime ≤ now) :
    (scoreStressDouble s now).2.2 = fsub 100 (scoreStressDouble s now).2.1 ∧
      0 ≤ (scoreStressDouble s now).2.1 ∧ (scoreStressDouble s now).2.1 ≤ 100 ∧
      0 ≤ (scoreStressDouble s now).2.2 ∧ (scoreStressDouble s now).2.2 ≤ 100 := by
  have hr := rawStressDouble_nonneg s.code s.totalKeystrokes s.sessionStartTime now h
  have hle := min_le_right (rawStressDouble s.code s.totalKeystrokes s.sessionStartTime now) 100
  have hge : 0 ≤ min (rawStressDouble s.code s.totalKeystrokes s.sessionStartTime now) 100 :=
    le_min hr (by norm_num)
  have hsub : 0 ≤ fsub 100
      (min (rawStressDouble s.code s.totalKeystrokes s.sessionStartTime now) 100) :=
    roundDouble_nonneg (by linarith)
  have hsub2 : fsub 100
      (min (rawStressDouble s.code s.totalKeystrokes s.sessionStartTime now) 100) ≤ 100 := by
    have := roundDouble_mono (show (100 : ℚ) -
      (min (rawStressDouble s.code s.totalKeystrokes s.sessionStartTime now) 100) ≤ 100 by linarith)
    rwa [roundDouble_100] at this
  simp only [scoreStressDouble]
  rw [max_eq_right hsub]
  exact ⟨rfl, hge, hle, hsub, hsub2⟩

/-- The invariant of the score in the arithmetic of the engine: outside and inside a
cooldown the returned pair is in range, the stability is the rounded `100 - stress`,
and the pair is what the store then holds. -/
theorem calculateStressDouble_balanced (s : State) (now : Int) (h : s.sessionStartTime ≤ now) :
    ((calculateStressDouble s now).2.2 = fsub 100 (calculateStressDouble s now).2.1 ∧
      0 ≤ (calculateStressDouble s now).2.1 ∧ (calculateStressDouble s now).2.1 ≤ 100 ∧
      0 ≤ (calculateStressDouble s now).2.2 ∧ (calculateStressDouble s now).2.2 ≤ 100) ∧
    (calculateStressDouble s now).1.stress = (calculateStressDouble s now).2.1 ∧
    (calculateStressDouble s now).1.stability = (calculateStressDouble s now).2.2 := by
  by_cases hc : ∃ last, truthyTime s.lastCollapseTime = some last ∧ now - last < 10000
  · obtain ⟨last, hl, hlt⟩ := hc
    rw [calculateStressDouble_cooldown s now last hl hlt]
    refine ⟨⟨?_, by norm_num, by norm_num, by norm_num, by norm_num⟩, rfl, rfl⟩
    show (100 : ℚ) = fsub 100 0
    unfold fsub
    rw [sub_zero, roundDouble_100]
  · have hc1 : ∀ last, truthyTime s.lastCollapseTime = some last → 10000 ≤ now - last := by
      intro last hl
      by_contra hlt
      exact hc ⟨last, hl, by omega⟩
    rw [calculateStressDouble_scoring s now hc1]
    exact ⟨scoreStressDouble_range _ now h, rfl, rfl⟩

/-- Fifty words saturate the score in the arithmetic of the engine as well: the word
term is exactly `100` or more and every later term is non-negative, so the rounded sum
is at least `100` and the cap returns exactly `(100, 0)`. -/
theorem fifty_words_saturate_double (s : State) (now : Int) (hw : 50 ≤ tokenCount s.code)
    (hcd : ¬ cooldownActive s now) (he : s.sessionStartTime ≤ now) :
    (calculateStressDouble s now).2 = (100, 0) := by
  obtain ⟨hp, _, _⟩ := calculateStressDouble_pair s now hcd
  have ht := timeElapsedDouble_nonneg s.sessionStartTime now he
  have c1 : (0 : ℚ) ≤ roundDouble (3 / 10) := roundDouble_nonneg (by norm_num)
  have c2 : (0 : ℚ) ≤ roundDouble (5 / 100) := roundDouble_nonneg (by norm_num)
  have c3 : (0 : ℚ) ≤ roundDouble (1 / 10) := roundDouble_nonneg (by norm_num)
  have c4 : (0 : ℚ) ≤ roundDouble (15 / 100) := roundDouble_nonneg (by norm_num)
  have c5 : (0 : ℚ) ≤ roundDouble (8 / 100) := roundDouble_nonneg (by norm_num)
  have c6 : (0 : ℚ) ≤ roundDouble (25 / 100) := roundDouble_nonneg (by norm_num)
  have hw1 : (100 : ℚ) ≤ (countWords s.code : ℚ) * 2 := by
    rw [countWords_eq_tokenCount]
    have : (50 : ℚ) ≤ (tokenCount s.code : ℚ) := by exact_mod_cast hw
    linarith
  have hw2 : (100 : ℚ) ≤ fmul (countWords s.code : ℚ) 2 := by
    have := roundDouble_mono hw1
    rwa [roundDouble_100] at this
  have h0 : (100 : ℚ) ≤ fadd 0 (fmul (countWords s.code : ℚ) 2) := by
    have := roundDouble_mono (show (100 : ℚ) ≤ 0 + fmul (countWords s.code : ℚ) 2 by linarith)
    rwa [roundDouble_100] at this
  have hraw : 100 ≤ rawStressDouble s.code s.totalKeystrokes s.sessionStartTime now := by
    simp only [rawStressDouble]
    exact fadd_ge_100 (fadd_ge_100 (fadd_ge_100 (fadd_ge_100 (fadd_ge_100 (fadd_ge_100
      h0
      (fmul_nonneg (Nat.cast_nonneg _) c1)) (fmul_nonneg (Nat.cast_nonneg _) c2))
      (fmul_nonneg ht c3)) (fmul_nonneg (Nat.cast_nonneg _) c4))
      (fmul_nonneg (Nat.cast_nonneg _) c5)) (fmul_nonneg (Nat.cast_nonneg _) c6)
  rw [hp, min_eq_right hraw]
  have : fsub 100 100 = 0 := by unfold fsub; simp [roundDouble]
  rw [this]; simp

/-! ## Collapse trigger, completion and reset -/

/-- C8: with `isCrashing` false, `triggerCrash` at time `now` appends exactly the
record `{code, timestamp = now, generation, stress}` of the current store to the end
of `crashHistory`, raises `collapseCount` by one, sets `lastCollapseTime = now` and
`isCrashing = true`, schedules the completion callback 3000 ms later, and leaves the
text, stress, stability, keystroke count, stability history and generation as they
were. -/
theorem triggerCrash_records_collapse (s : State) (now : Int) (r1 r2 : RandomDraw)
    (h : s.isCrashing = false) :
    (triggerCrash s now r1 r2).1.crashHistory = s.crashHistory ++
      [{ code := s.code, timestamp := now, generation := s.generation, stress := s.stress }] ∧
    (triggerCrash s now r1 r2).1.collapseCount = s.collapseCount + 1 ∧
    (triggerCrash s now r1 r2).1.lastCollapseTime = some now ∧
    (triggerCrash s now r1 r2).1.isCrashing = true ∧
    (triggerCrash s now r1 r2).2 = some 3000 ∧
    (triggerCrash s now r1 r2).1.code = s.code ∧
    (triggerCrash s now r1 r2).1.stress = s.stress ∧
    (triggerCrash s now r1 r2).1.stability = s.stability ∧
    (triggerCrash s now r1 r2).1.totalKeystrokes = s.totalKeystrokes ∧
    (triggerCrash s now r1 r2).1.stabilityHistory = s.stabilityHistory ∧
    (triggerCrash s now r1 r2).1.generation = s.generation := by
  rw [triggerCrash_of_idle s now r1 r2 h]
  exact ⟨rfl, rfl, rfl, rfl, rfl, rfl, rfl, rfl, rfl, rfl, rfl⟩

/-- Witness of C8 at `completedState`, triggered when the clock reads 20000. -/
theorem triggerCrash_records_collapse_witness :
    completedState.isCrashing = false ∧
    ((triggerCrash completedState 20000 zeroDraw zeroDraw).1.crashHistory =
      completedState.crashHistory ++
        [{ code := completedState.code, timestamp := 20000,
           generation := completedState.generation, stress := completedState.stress }] ∧
    (triggerCrash completedState 20000 zeroDraw zeroDraw).1.collapseCount =
      completedState.collapseCount + 1 ∧
    (triggerCrash completedState 20000 zeroDraw zeroDraw).1.lastCollapseTime = some 20000 ∧
    (triggerCrash completedState 20000 zeroDraw zeroDraw).1.isCrashing = true ∧
    (triggerCrash completedState 20000 zeroDraw zeroDraw).2 = some 3000 ∧
    (triggerCrash completedState 20000 zeroDraw zeroDraw).1.code = completedState.code ∧
    (triggerCrash completedState 20000 zeroDraw zeroDraw).1.stress = completedState.stress ∧
    (triggerCrash completedState 20000 zeroDraw zeroDraw).1.stability =
      completedState.stability ∧
    (triggerCrash completedState 20000 zeroDraw zeroDraw).1.totalKeystrokes =
      completedState.totalKeystrokes ∧
    (triggerCrash completedState 20000 zeroDraw zeroDraw).1.stabilityHistory =
      completedState.stabilityHistory ∧
    (triggerCrash completedState 20000 zeroDraw zeroDraw).1.generation =
      completedState.generation) :=
  ⟨rfl, triggerCrash_records_collapse completedState 20000 zeroDraw zeroDraw rfl⟩

/-- C9: the completion callback, run at time `now`, sets `stress = 0`,
`stability = 100`, `totalKeystrokes = 0`, `stabilityHistory = [100]`,
`isCrashing = false`, `sessionStartTime = now` and raises `generation` by exactly one;
the text, `collapseCount`, `crashHistory`, `codeHistory`, `lastCollapseTime`,
`collapseOnCooldown`, `currentMutation` and the presentation fields (`editorMode`,
colours, font size, indent size, visual effect) keep their values. In the timer model
the callback is the one a trigger schedules 3000 ms ahead, and it runs once due. -/
theorem collapseComplete_effect (s : State) (now : Int) :
    ((collapseComplete s now).stress = 0 ∧
      (collapseComplete s now).stability = 100 ∧
      (collapseComplete s now).totalKeystrokes = 0 ∧
      (collapseComplete s now).stabilityHistory = [100] ∧
      (collapseComplete s now).isCrashing = false ∧
      (collapseComplete s now).sessionStartTime = now ∧
      (collapseComplete s now).generation = s.generation + 1) ∧
    ((collapseComplete s now).code = s.code ∧
      (collapseComplete s now).collapseCount = s.collapseCount ∧
      (collapseComplete s now).crashHistory = s.crashHistory ∧
      (collapseComplete s now).codeHistory = s.codeHistory ∧
      (collapseComplete s now).lastCollapseTime = s.lastCollapseTime ∧
      (collapseComplete s now).collapseOnCooldown = s.collapseOnCooldown ∧
      (collapseComplete s now).currentMutation = s.currentMutation ∧
      (collapseComplete s now).currentVisualEffect = s.currentVisualEffect ∧
      (collapseComplete s now).editorMode = s.editorMode ∧
      (collapseComplete s now).backgroundColor = s.backgroundColor ∧
      (collapseComplete s now).textColor = s.textColor ∧
      (collapseComplete s now).fontSize = s.fontSize ∧
      (collapseComplete s now).indentSize = s.indentSize ∧
      (collapseComplete s now).language = s.language) ∧
    (∀ (timers : List Int) (trigger : Int) (r1 r2 : RandomDraw),
      (Sys.step { store := { s with isCrashing := false }, timers := timers } trigger
          (Event.triggerCrash r1 r2)).map Sys.timers = some (timers ++ [trigger + 3000])) ∧
    (∀ due : Int,
      Sys.step { store := s, timers := [due] } now (Event.fire 0) =
        if due ≤ now then some { store := collapseComplete s now, timers := [] } else none) := by
  refine ⟨⟨rfl, rfl, rfl, rfl, rfl, rfl, rfl⟩,
    ⟨rfl, rfl, rfl, rfl, rfl, rfl, rfl, rfl, rfl, rfl, rfl, rfl, rfl, rfl⟩, ?_, ?_⟩
  · intro timers trigger r1 r2
    simp [Sys.step, triggerCrash, schedule]
  · intro due
    simp [Sys.step]

/-- C10, counterexample: `flaggedState` is reached by `triggerCrash`, `setLanguage`
and `calculateStress`; after `reset` at time 9000 the fields `collapseOnCooldown`,
`currentMutation` and `language` differ from those of the initial state. -/
theorem reset_keeps_fields_counterexample :
    (reset flaggedState 9000).collapseOnCooldown = true ∧
    (initialState 9000).collapseOnCooldown = false ∧
    (reset flaggedState 9000).currentMutation ≠ none ∧
    (initialState 9000).currentMutation = none ∧
    (reset flaggedState 9000).language = "java" ∧
    (initialState 9000).language = "python" := by
  have ht : truthyTime (setLanguage crashingState "java").lastCollapseTime = some 1000 := by
    decide
  have hc := calculateStress_cooldown (setLanguage crashingState "java") 2000 1000 ht
    (by decide)
  have hf : flaggedState =
      { setLanguage crashingState "java" with
          stress := 0, stability := 100, collapseOnCooldown := true,
          stabilityHistory :=
            sliceLast99 (setLanguage crashingState "java").stabilityHistory ++ [100] } := by
    unfold flaggedState; rw [hc]
  rw [hf]
  refine ⟨rfl, rfl, ?_, rfl, rfl, rfl⟩
  simp [reset, setLanguage, crashingState, triggerCrashBody]

/-- C10, amended: after `reset` at time `now`, from any state, these fields equal
their values in the initial state: text empty, stress 0, stability 100, generation 0,
`totalKeystrokes` 0, `collapseCount` 0, `stabilityHistory = [100]`, `crashHistory` and
`codeHistory` empty, `lastCollapseTime` null, `isCrashing` false, `crashIntensity` 0,
`currentVisualEffect` null, `editorMode` 'vscode', the default colours, font size and
indent size, `pythonOutput` empty; `sessionStartTime` becomes `now`. -/
theorem reset_restores_fields (s : State) (now : Int) :
    (reset s now).code = (initialState now).code ∧ (reset s now).code = "" ∧
    (reset s now).stress = 0 ∧ (reset s now).stability = 100 ∧
    (reset s now).generation = 0 ∧ (reset s now).totalKeystrokes = 0 ∧
    (reset s now).collapseCount = 0 ∧ (reset s now).stabilityHistory = [100] ∧
    (reset s now).crashHistory = [] ∧ (reset s now).codeHistory = [] ∧
    (reset s now).lastCollapseTime = none ∧ (reset s now).isCrashing = false ∧
    (reset s now).crashIntensity = 0 ∧ (reset s now).currentVisualEffect = none ∧
    (reset s now).editorMode = "vscode" ∧
    (reset s now).backgroundColor = "#0a0e14" ∧ (reset s now).textColor = "#c9d1d9" ∧
    (reset s now).fontSize = 14 ∧ (reset s now).indentSize = 4 ∧
    (reset s now).pythonOutput = "" ∧ (reset s now).sessionStartTime = now ∧
    reset s now =
      { initialState now with
          language := (reset s now).language,
          collapseOnCooldown := (reset s now).collapseOnCooldown,
          currentMutation := (reset s now).currentMutation,
          glitchLevel := (reset s now).glitchLevel,
          isExecuting := (reset s now).isExecuting } :=
  ⟨rfl, rfl, rfl, rfl, rfl, rfl, rfl, rfl, rfl, rfl, rfl, rfl, rfl, rfl, rfl, rfl, rfl, rfl,
    rfl, rfl, rfl, rfl⟩



/-! ## Facts about the matcher -/

theorem findSome?_range'_first {α : Type} (f : Nat → Option α) (len : Nat) :
    ∀ (lo t : Nat) (x : α), lo ≤ t → t < lo + len →
      (∀ j, lo ≤ j → j < t → f j = none) → f t = some x →
      (List.range' lo len).findSome? f = some x := by
  induction len with
  | zero => intro lo t x h1 h2; omega
  | succ len ih =>
    intro lo t x h1 h2 hf ht
    rw [List.range'_succ, List.findSome?_cons]
    by_cases h : t = lo
    · subst h; rw [ht]
    · rw [hf lo (le_refl _) (by omega)]
      exact ih (lo + 1) t x (by omega) (by omega) (fun j hj1 hj2 => hf j (by omega) hj2) ht

theorem findSome?_range'_last {α : Type} (f : Nat → Option α) (len : Nat) :
    ∀ (lo t : Nat) (x : α), lo ≤ t → t < lo + len →
      (∀ j, t < j → j < lo + len → f j = none) → f t = some x →
      (List.range' lo len).reverse.findSome? f = some x := by
  induction len with
  | zero => intro lo t x h1 h2; omega
  | succ len ih =>
    intro lo t x h1 h2 hf ht
    rw [List.range'_concat, List.reverse_append, List.reverse_singleton, List.singleton_append,
      List.findSome?_cons]
    simp only [Nat.one_mul]
    by_cases h : t = lo + len
    · subst h; rw [ht]
    · rw [hf (lo + len) (by omega) (by omega)]
      exact ih lo t x h1 (by omega) (fun j hj1 hj2 => hf j hj1 (by omega)) ht

/-- A greedy repetition ends on the largest count that lets the rest succeed. -/
theorem run_rep_greedy {α : Type} (p : Char → Bool) (min t : Nat) (s : MatchState)
    (k : MatchState → Option α) (x : α) (h1 : min ≤ t)
    (h2 : t ≤ (s.rest.takeWhile p).length)
    (hf : ∀ j, t < j → j ≤ (s.rest.takeWhile p).length → k (s.advance j) = none)
    (ht : k (s.advance t) = some x) :
    (Re.rep true min p).run s k = some x := by
  simp only [Re.run, repCounts, if_true]
  exact findSome?_range'_last _ _ min t x h1 (by omega) (fun j hj1 hj2 => hf j hj1 (by omega)) ht

/-- A lazy repetition ends on the smallest count that lets the rest succeed. -/
theorem run_rep_lazy {α : Type} (p : Char → Bool) (min t : Nat) (s : MatchState)
    (k : MatchState → Option α) (x : α) (h1 : min ≤ t)
    (h2 : t ≤ (s.rest.takeWhile p).length)
    (hf : ∀ j, min ≤ j → j < t → k (s.advance j) = none)
    (ht : k (s.advance t) = some x) :
    (Re.rep false min p).run s k = some x := by
  simp only [Re.run, repCounts, Bool.false_eq_true, if_false]
  exact findSome?_range'_first _ _ min t x h1 (by omega) hf ht

/-- A repetition fails when the rest fails after every count. -/
theorem run_rep_none {α : Type} (greedy : Bool) (p : Char → Bool) (min : Nat) (s : MatchState)
    (k : MatchState → Option α)
    (hf : ∀ j, j ≤ (s.rest.takeWhile p).length → k (s.advance j) = none) :
    (Re.rep greedy min p).run s k = none := by
  simp only [Re.run, List.findSome?_eq_none_iff]
  intro j hj
  apply hf
  unfold repCounts at hj
  split at hj
  · rw [List.mem_reverse, List.mem_range'_1] at hj; omega
  · rw [List.mem_range'_1] at hj; omega

theorem advance_append (s : MatchState) (u v : List Char) (h : s.rest = u ++ v) :
    (s.advance u.length).rest = v ∧
    (s.advance u.length).consumed = u.reverse ++ s.consumed ∧
    (s.advance u.length).caps = s.caps := by
  simp [MatchState.advance, h]

theorem run_lit {α : Type} (cs : List Char) (s : MatchState) (k : MatchState → Option α)
    (v : List Char) (h : s.rest = cs ++ v) :
    (Re.lit cs).run s k = k (s.advance cs.length) := by
  have : cs.isPrefixOf s.rest = true := by
    rw [List.isPrefixOf_iff_prefix, h]; exact List.prefix_append _ _
  simp only [Re.run, this, if_true]

theorem run_lit_fail {α : Type} (x c : Char) (xs t : List Char) (s : MatchState)
    (k : MatchState → Option α) (h : s.rest = c :: t) (hne : c ≠ x) :
    (Re.lit (x :: xs)).run s k = none := by
  have : (x :: xs).isPrefixOf s.rest = false := by
    rw [h]; simp [List.isPrefixOf, Ne.symm hne]
  simp only [Re.run, this, Bool.false_eq_true, if_false]

theorem run_lit_fail_nil {α : Type} (x : Char) (xs : List Char) (s : MatchState)
    (k : MatchState → Option α) (h : s.rest = []) :
    (Re.lit (x :: xs)).run s k = none := by
  simp [Re.run, h, List.isPrefixOf]

theorem advance_zero (s : MatchState) : s.advance 0 = s := rfl

theorem wordChar_not_space (c : Char) (h : isWordChar c = true) : isWhiteSpace c = false := by
  have hc : c.val.toNat = c.toNat := rfl
  simp only [isWordChar, Char.isAlphanum, Char.isAlpha, Char.isUpper, Char.isLower, Char.isDigit,
    Bool.or_eq_true, Bool.and_eq_true, decide_eq_true_eq, beq_iff_eq] at h
  simp only [UInt32.le_def, Fin.le_def] at h
  have h' : (65 ≤ c.toNat ∧ c.toNat ≤ 90 ∨ 97 ≤ c.toNat ∧ c.toNat ≤ 122) ∨
      (48 ≤ c.toNat ∧ c.toNat ≤ 57) ∨ c.toNat = 95 := by
    rcases h with ((h | h) | h) | h
    · exact Or.inl (Or.inl h)
    · exact Or.inl (Or.inr h)
    · exact Or.inr (Or.inl h)
    · exact Or.inr (Or.inr (by rw [h]; rfl))
  simp only [isWhiteSpace, Bool.or_eq_false_iff, Bool.and_eq_false_iff, beq_eq_false_iff_ne,
    decide_eq_false_iff_not]
  refine ⟨⟨⟨⟨⟨⟨⟨⟨⟨⟨⟨⟨⟨⟨?_, ?_⟩, ?_⟩, ?_⟩, ?_⟩, ?_⟩, ?_⟩, ?_⟩, ?_⟩, ?_⟩, ?_⟩, ?_⟩, ?_⟩, ?_⟩, ?_⟩ <;>
    omega

theorem wordChar_isDot (c : Char) (h : isWordChar c = true) : isDot c = true := by
  have h' := wordChar_not_space c h
  simp only [isWhiteSpace, Bool.or_eq_false_iff, Bool.and_eq_false_iff, beq_eq_false_iff_ne,
    decide_eq_false_iff_not] at h'
  simp only [isDot, isLineTerminator, Bool.not_eq_true', Bool.or_eq_false_iff,
    beq_eq_false_iff_ne]
  omega

theorem not_space_ne_newline (c : Char) (h : isWhiteSpace c = false) : c ≠ '\n' := by
  intro hc; subst hc; revert h; decide

theorem isDot_ne_newline (c : Char) (h : isDot c = true) : c ≠ '\n' := by
  intro hc; subst hc; revert h; decide

theorem takeWhile_append_stop (p : Char → Bool) (u v : List Char) (hu : ∀ c ∈ u, p c = true)
    (hv : ∀ c, v.head? = some c → p c = false) : (u ++ v).takeWhile p = u := by
  rw [List.takeWhile_append_of_pos hu]
  cases v with
  | nil => simp
  | cons c t => simp [List.takeWhile_cons, hv c rfl]

theorem takeWhile_length_lt (p : Char → Bool) (D X : List Char)
    (h : ∃ z ∈ D, p z = false) : ((D ++ X).takeWhile p).length < D.length := by
  induction D with
  | nil => obtain ⟨z, hz, _⟩ := h; cases hz
  | cons d D ih =>
    by_cases hd : p d = true
    · obtain ⟨z, hz, hpz⟩ := h
      have hz' : z ∈ D := by
        rcases List.mem_cons.mp hz with h1 | h1
        · subst h1; rw [hd] at hpz; cases hpz
        · exact h1
      have := ih ⟨z, hz', hpz⟩
      simp only [List.cons_append, List.takeWhile_cons, hd, if_true, List.length_cons]
      omega
    · simp only [Bool.not_eq_true] at hd
      simp [List.takeWhile_cons, hd]

theorem head?_drop_append (D X : List Char) (j : Nat) (hj : j < D.length) :
    ∃ c ∈ D, ((D ++ X).drop j).head? = some c := by
  have h1 : (D ++ X).drop j = D.drop j ++ X := List.drop_append_of_le_length (by omega)
  have h2 : D.drop j ≠ [] := by
    intro h; have := congrArg List.length h; simp at this; omega
  obtain ⟨c, t, hct⟩ := List.exists_cons_of_ne_nil h2
  refine ⟨c, List.mem_of_mem_drop (by rw [hct]; exact List.mem_cons_self _ _), ?_⟩
  rw [h1, hct]; rfl

theorem run_seq {α : Type} (a b : Re) (s : MatchState) (k : MatchState → Option α) :
    (Re.seq a b).run s k = a.run s (fun s1 => b.run s1 k) := rfl

theorem run_cap {α : Type} (r : Re) (s : MatchState) (k : MatchState → Option α) :
    (Re.cap r).run s k = r.run s (fun s1 =>
      k { s1 with caps := s1.caps ++
            [(s1.consumed.take (s1.consumed.length - s.consumed.length)).reverse] }) := rfl

/-- The literal `\n` fails where the next character is not a newline. -/
theorem run_newline_fail {α : Type} (tail : Re) (s : MatchState) (k : MatchState → Option α)
    (h : ∀ c, s.rest.head? = some c → c ≠ '\n') :
    (Re.seq (.lit "\n".data) tail).run s k = none := by
  rw [run_seq]
  show (Re.lit ['\n']).run s _ = none
  cases hr : s.rest with
  | nil => exact run_lit_fail_nil _ _ s _ hr
  | cons c t => exact run_lit_fail _ c _ t s _ hr (h c (by rw [hr]; rfl))

/-- A literal fails where the next character differs from its first character. -/
theorem run_lit_head_fail {α : Type} (x : Char) (xs : List Char) (tail : Re) (s : MatchState)
    (k : MatchState → Option α) (h : ∀ c, s.rest.head? = some c → c ≠ x) :
    (Re.seq (.lit (x :: xs)) tail).run s k = none := by
  rw [run_seq]
  cases hr : s.rest with
  | nil => exact run_lit_fail_nil _ _ s _ hr
  | cons c t => exact run_lit_fail _ c _ t s _ hr (h c (by rw [hr]; rfl))

/-- A greedy whitespace run followed by something that is not whitespace is taken
whole when the rest then succeeds. -/
theorem run_spaces {α : Type} (min : Nat) (tail : Re) (s : MatchState)
    (k : MatchState → Option α) (x : α) (w v : List Char) (h : s.rest = w ++ v)
    (hmin : min ≤ w.length) (hw : ∀ c ∈ w, isWhiteSpace c = true)
    (hv : ∀ c, v.head? = some c → isWhiteSpace c = false)
    (ht : tail.run (s.advance w.length) k = some x) :
    (Re.seq (.rep true min isWhiteSpace) tail).run s k = some x := by
  have hn : (s.rest.takeWhile isWhiteSpace).length = w.length := by
    rw [h, takeWhile_append_stop _ w v hw hv]
  rw [run_seq]
  exact run_rep_greedy _ min w.length s _ x hmin (by omega) (fun j h1 h2 => by omega) ht

/-- `\s*\n` where the input continues with a newline, whitespace other than newlines
and then something that is not whitespace: the run is given back down to nothing and
the literal takes the newline. -/
theorem run_spaces_newline {α : Type} (tail : Re) (s : MatchState)
    (k : MatchState → Option α) (x : α) (w v : List Char) (h : s.rest = '\n' :: (w ++ v))
    (hw : ∀ c ∈ w, isWhiteSpace c = true ∧ c ≠ '\n')
    (hv : ∀ c, v.head? = some c → isWhiteSpace c = false)
    (ht : tail.run (s.advance 1) k = some x) :
    (Re.seq (.rep true 0 isWhiteSpace) (.seq (.lit "\n".data) tail)).run s k = some x := by
  have hn : (s.rest.takeWhile isWhiteSpace).length = w.length + 1 := by
    have : s.rest = ('\n' :: w) ++ v := by rw [h]; rfl
    rw [this, takeWhile_append_stop _ ('\n' :: w) v _ hv]
    · simp
    · intro c hc
      rcases List.mem_cons.mp hc with h1 | h1
      · subst h1; decide
      · exact (hw c h1).1
  rw [run_seq]
  apply run_rep_greedy _ 0 0 s _ x (le_refl _) (Nat.zero_le _)
  · intro j h1 h2
    apply run_newline_fail
    intro c hc
    have hrest : (s.advance j).rest = (w ++ v).drop (j - 1) := by
      obtain ⟨i, rfl⟩ : ∃ i, j = i + 1 := ⟨j - 1, by omega⟩
      simp [MatchState.advance, h]
    rw [hrest] at hc
    by_cases hj : j - 1 < w.length
    · obtain ⟨c', hc', hh⟩ := head?_drop_append w v (j - 1) hj
      rw [hh] at hc; cases hc
      exact (hw c hc').2
    · have hj' : j - 1 = w.length := by omega
      rw [hj', List.drop_left] at hc
      exact not_space_ne_newline c (hv c hc)
  · rw [advance_zero, run_seq, run_lit _ s _ (w ++ v) (by rw [h]; rfl)]
    exact ht

/-! ### Steps of a match that runs to a known end -/

theorem step_lit (cs R : List Char) (tail : Re) (new : List (List Char))
    (htail : ∀ s : MatchState, s.rest = R →
      tail.run s MatchState.accept = some ⟨s.consumed.reverse ++ R, s.caps ++ new⟩) :
    ∀ s : MatchState, s.rest = cs ++ R →
      (Re.seq (.lit cs) tail).run s MatchState.accept =
        some ⟨s.consumed.reverse ++ (cs ++ R), s.caps ++ new⟩ := by
  intro s h
  obtain ⟨h1, h2, h3⟩ := advance_append s cs R h
  rw [run_seq, run_lit cs s _ R h, htail _ h1, h2, h3]
  simp

theorem step_spaces (min : Nat) (w R : List Char) (tail : Re) (new : List (List Char))
    (hmin : min ≤ w.length) (hw : ∀ c ∈ w, isWhiteSpace c = true)
    (hR : ∀ c, R.head? = some c → isWhiteSpace c = false)
    (htail : ∀ s : MatchState, s.rest = R →
      tail.run s MatchState.accept = some ⟨s.consumed.reverse ++ R, s.caps ++ new⟩) :
    ∀ s : MatchState, s.rest = w ++ R →
      (Re.seq (.rep true min isWhiteSpace) tail).run s MatchState.accept =
        some ⟨s.consumed.reverse ++ (w ++ R), s.caps ++ new⟩ := by
  intro s h
  obtain ⟨h1, h2, h3⟩ := advance_append s w R h
  apply run_spaces min tail s _ _ w R h hmin hw hR
  rw [htail _ h1, h2, h3]
  simp

theorem step_spaces_newline (w R : List Char) (tail : Re) (new : List (List Char))
    (hw : ∀ c ∈ w, isWhiteSpace c = true ∧ c ≠ '\n')
    (hR : ∀ c, R.head? = some c → isWhiteSpace c = false)
    (htail : ∀ s : MatchState, s.rest = w ++ R →
      tail.run s MatchState.accept = some ⟨s.consumed.reverse ++ (w ++ R), s.caps ++ new⟩) :
    ∀ s : MatchState, s.rest = '\n' :: (w ++ R) →
      (Re.seq (.rep true 0 isWhiteSpace) (.seq (.lit "\n".data) tail)).run s
          MatchState.accept =
        some ⟨s.consumed.reverse ++ '\n' :: (w ++ R), s.caps ++ new⟩ := by
  intro s h
  obtain ⟨h1, h2, h3⟩ := advance_append s ['\n'] (w ++ R) h
  apply run_spaces_newline tail s _ _ w R h hw hR
  change tail.run (s.advance ['\n'].length) MatchState.accept = _
  rw [htail _ h1, h2, h3]
  simp

/-- A greedy capture of a class that takes the input up to the next character outside
the class. -/
theorem step_cap_greedy (p : Char → Bool) (min : Nat) (u R : List Char) (tail : Re)
    (new : List (List Char)) (hmin : min ≤ u.length) (hu : ∀ c ∈ u, p c = true)
    (hR : ∀ c, R.head? = some c → p c = false)
    (htail : ∀ s : MatchState, s.rest = R →
      tail.run s MatchState.accept = some ⟨s.consumed.reverse ++ R, s.caps ++ new⟩) :
    ∀ s : MatchState, s.rest = u ++ R →
      (Re.seq (.cap (.rep true min p)) tail).run s MatchState.accept =
        some ⟨s.consumed.reverse ++ (u ++ R), s.caps ++ ([u] ++ new)⟩ := by
  intro s h
  obtain ⟨h1, h2, h3⟩ := advance_append s u R h
  have hn : (s.rest.takeWhile p).length = u.length := by
    rw [h, takeWhile_append_stop _ u R hu hR]
  rw [run_seq, run_cap]
  apply run_rep_greedy p min u.length s _ _ hmin (by omega) (fun j h1 h2 => by omega)
  refine (htail _ ?_).trans ?_
  · exact h1
  · simp [h2, h3]

/-- A greedy capture of `.` at the end of the pattern takes the rest of the line. -/
theorem step_cap_last (L : List Char) (hL : L ≠ []) (hdot : ∀ c ∈ L, isDot c = true) :
    ∀ s : MatchState, s.rest = L →
      (Re.cap (.rep true 1 isDot)).run s MatchState.accept =
        some ⟨s.consumed.reverse ++ L, s.caps ++ [L]⟩ := by
  intro s h
  obtain ⟨h1, h2, h3⟩ := advance_append s L [] (by rw [h, List.append_nil])
  have hn : (s.rest.takeWhile isDot).length = L.length := by
    rw [h, List.takeWhile_eq_self_iff.mpr hdot]
  have hpos : 1 ≤ L.length := List.length_pos.mpr hL
  rw [run_cap]
  apply run_rep_greedy isDot 1 L.length s _ _ hpos (by omega) (fun j h1 h2 => by omega)
  simp [MatchState.accept, h2, h3]

/-- A lazy capture of `.` stops at the first length after which the rest succeeds. -/
theorem step_cap_lazy (u R : List Char) (tail : Re) (new : List (List Char))
    (hu : u ≠ []) (hdot : ∀ c ∈ u, isDot c = true)
    (hfail : ∀ j, 1 ≤ j → j < u.length → ∀ s : MatchState, s.rest = (u ++ R).drop j →
      tail.run s MatchState.accept = none)
    (htail : ∀ s : MatchState, s.rest = R →
      tail.run s MatchState.accept = some ⟨s.consumed.reverse ++ R, s.caps ++ new⟩) :
    ∀ s : MatchState, s.rest = u ++ R →
      (Re.seq (.cap (.rep false 1 isDot)) tail).run s MatchState.accept =
        some ⟨s.consumed.reverse ++ (u ++ R), s.caps ++ ([u] ++ new)⟩ := by
  intro s h
  obtain ⟨h1, h2, h3⟩ := advance_append s u R h
  have hn : u.length ≤ (s.rest.takeWhile isDot).length := by
    rw [h, List.takeWhile_append_of_pos hdot]; simp
  have hpos : 1 ≤ u.length := List.length_pos.mpr hu
  rw [run_seq, run_cap]
  apply run_rep_lazy isDot 1 u.length s _ _ hpos hn
  · intro j hj1 hj2
    apply hfail j hj1 hj2
    simp [MatchState.advance, h]
  · refine (htail _ ?_).trans ?_
    · exact h1
    · simp [h2, h3]

/-! ### The if / else pattern on the four-line text -/

theorem space_data_facts :
    (∀ c ∈ "    ".data, isWhiteSpace c = true ∧ c ≠ '\n') ∧
    (∀ c ∈ " ".data, isWhiteSpace c = true ∧ c ≠ '\n') ∧
    (∀ c ∈ " = ".data, isDot c = true) := by
  decide

theorem plainFragment_isDot {X : List Char} (h : PlainFragment X) : ∀ c ∈ X, isDot c = true := by
  intro c hc
  simp [isDot, (h.2.1 c hc).1]

theorem identifier_ne_nil {V : List Char} (h : Identifier V) : V ≠ [] := by
  obtain ⟨⟨c, hc, _⟩, _⟩ := h
  intro hV; rw [hV] at hc; cases hc

/-- The line `V = X`: it is not empty, has no line terminator, starts with a word
character and ends with the last character of `X`. -/
theorem assignLine_facts {V X : List Char} (hV : Identifier V) (hX : PlainFragment X) :
    V ++ " = ".data ++ X ≠ [] ∧
    (∀ c ∈ V ++ " = ".data ++ X, isDot c = true) ∧
    (∀ c, (V ++ " = ".data ++ X).head? = some c → isWhiteSpace c = false) ∧
    (∀ j, j < (V ++ " = ".data ++ X).length →
      ∃ z ∈ (V ++ " = ".data ++ X).drop j, isWhiteSpace z = false) := by
  have hne := identifier_ne_nil hV
  refine ⟨by simp [hne], ?_, ?_, ?_⟩
  · intro c hc
    rcases List.mem_append.mp hc with h1 | h1
    · rcases List.mem_append.mp h1 with h2 | h2
      · exact wordChar_isDot c (hV.2 c h2)
      · exact space_data_facts.2.2 c h2
    · exact plainFragment_isDot hX c h1
  · intro c hc
    obtain ⟨v, vs, rfl⟩ := List.exists_cons_of_ne_nil hne
    simp only [List.cons_append, List.head?_cons, Option.some.injEq] at hc
    subst hc
    exact wordChar_not_space _ (hV.2 _ (List.mem_cons_self _ _))
  · intro j hj
    obtain ⟨hXne, _, _, hlast⟩ := hX
    have hz : X.getLast? = some (X.getLast hXne) := List.getLast?_eq_getLast X hXne
    refine ⟨X.getLast hXne, ?_, hlast _ (Option.mem_def.mpr hz)⟩
    have hsplit : V ++ " = ".data ++ X = (V ++ " = ".data ++ X.dropLast) ++ [X.getLast hXne] := by
      rw [List.append_assoc (V ++ " = ".data), List.dropLast_append_getLast hXne]
    rw [hsplit] at hj ⊢
    rw [List.drop_append_of_le_length (by simp at hj ⊢; omega)]
    exact List.mem_append_right _ (List.mem_singleton_self _)

theorem elseBody_run {V B : List Char} (hV : Identifier V) (hB : PlainFragment B) :
    ∀ s : MatchState, s.rest = "    ".data ++ (V ++ " = ".data ++ B) →
      patElseBody.run s MatchState.accept =
        some ⟨s.consumed.reverse ++ ("    ".data ++ (V ++ " = ".data ++ B)),
          s.caps ++ [V ++ " = ".data ++ B]⟩ := by
  obtain ⟨f1, f2, f3, _⟩ := assignLine_facts hV hB
  exact step_spaces 1 _ _ _ _ (by decide) (fun c hc => (space_data_facts.1 c hc).1) f3
    (step_cap_last _ f1 f2)

theorem elseLine_run {V B : List Char} (hV : Identifier V) (hB : PlainFragment B) :
    ∀ s : MatchState, s.rest = [] ++ ("else:".data ++
        '\n' :: ("    ".data ++ (V ++ " = ".data ++ B))) →
      patElseLine.run s MatchState.accept =
        some ⟨s.consumed.reverse ++ ([] ++ ("else:".data ++
            '\n' :: ("    ".data ++ (V ++ " = ".data ++ B)))),
          s.caps ++ [V ++ " = ".data ++ B]⟩ := by
  obtain ⟨_, _, f3, _⟩ := assignLine_facts hV hB
  apply step_spaces 0 [] _ _ _ (Nat.zero_le _) (fun c hc => by cases hc)
  · intro c hc
    have : c = 'e' := by
      have : ("else:".data ++ '\n' :: ("    ".data ++ (V ++ " = ".data ++ B))).head? = some 'e' :=
        rfl
      rw [this] at hc; cases hc; rfl
    subst this; decide
  · apply step_lit
    exact step_spaces_newline _ _ _ _ space_data_facts.1 f3 (elseBody_run hV hB)

theorem ifBodyEnd_fail {V A : List Char} (hV : Identifier V) (hA : PlainFragment A)
    (R : List Char) (j : Nat) (hj : j < (V ++ " = ".data ++ A).length) :
    ∀ s : MatchState, s.rest = ((V ++ " = ".data ++ A) ++ R).drop j →
      patIfBodyEnd.run s MatchState.accept = none := by
  intro s h
  obtain ⟨_, f2, _, f4⟩ := assignLine_facts hV hA
  obtain ⟨z, hz, hzw⟩ := f4 j hj
  have hrest : s.rest = (V ++ " = ".data ++ A).drop j ++ R := by
    rw [h, List.drop_append_of_le_length (by omega)]
  have hlt := takeWhile_length_lt isWhiteSpace _ R ⟨z, hz, hzw⟩
  unfold patIfBodyEnd
  rw [run_seq]
  apply run_rep_none
  intro i hi
  apply run_newline_fail
  intro c hc
  rw [hrest] at hi
  obtain ⟨c', hc', hh⟩ := head?_drop_append ((V ++ " = ".data ++ A).drop j) R i (by omega)
  have : (s.advance i).rest = ((V ++ " = ".data ++ A).drop j ++ R).drop i := by
    simp [MatchState.advance, hrest]
  rw [this, hh] at hc
  cases hc
  exact isDot_ne_newline _ (f2 _ (List.mem_of_mem_drop hc'))

theorem colon_fail {C : List Char} (hC : PlainFragment C) (R : List Char) (j : Nat)
    (hj : j < C.length) :
    ∀ s : MatchState, s.rest = (C ++ R).drop j → patColon.run s MatchState.accept = none := by
  intro s h
  unfold patColon
  apply run_lit_head_fail
  intro c hc
  obtain ⟨c', hc', hh⟩ := head?_drop_append C R j hj
  rw [h, hh] at hc
  cases hc
  exact (hC.2.1 _ hc').2.1

/-- The pattern of stage 1 matches the whole four-line text, capturing the condition
and the two assignment lines. -/
theorem ifElsePattern_matchAt {C V A B : List Char} (hC : PlainFragment C)
    (hV : Identifier V) (hA : PlainFragment A) (hB : PlainFragment B) (prev : Option Char) :
    ifElsePattern.matchAt prev (ifElseText C V A B) =
      some ⟨ifElseText C V A B, [C, V ++ " = ".data ++ A, V ++ " = ".data ++ B]⟩ := by
  obtain ⟨a1, a2, a3, _⟩ := assignLine_facts hV hA
  have hElse := elseLine_run hV hB
  have hEnd := step_spaces_newline [] _ patElseLine _ (fun c hc => by cases hc)
    (by
      intro c hc
      have : c = 'e' := by
        have : ("else:".data ++ '\n' :: ("    ".data ++ (V ++ " = ".data ++ B))).head? =
            some 'e' := rfl
        rw [this] at hc; cases hc; rfl
      subst this; decide) hElse
  have hBody := step_cap_lazy (V ++ " = ".data ++ A) _ patIfBodyEnd _ a1 a2
    (fun j _ hj2 => ifBodyEnd_fail hV hA _ j hj2) hEnd
  have hIndent := step_spaces 1 "    ".data _ patIfBody _ (by decide)
    (fun c hc => (space_data_facts.1 c hc).1)
    (by
      intro c hc
      apply a3 c
      rw [List.head?_append_of_ne_nil _ a1] at hc
      exact hc) hBody
  have hCondEnd := step_spaces_newline "    ".data _ patIfIndent _ space_data_facts.1
    (by
      intro c hc
      apply a3 c
      rw [List.head?_append_of_ne_nil _ a1] at hc
      exact hc) hIndent
  have hColon := step_lit ":".data _ patCondEnd _ hCondEnd
  have hCond := step_cap_lazy C _ patColon _ hC.1 (plainFragment_isDot hC)
    (fun j _ hj2 => colon_fail hC _ j hj2) hColon
  have hSpace := step_spaces 1 " ".data _ patCond _ (by decide)
    (fun c hc => (space_data_facts.2.1 c hc).1)
    (by
      intro c hc
      apply hC.2.2.1 c
      rw [List.head?_append_of_ne_nil _ hC.1] at hc
      exact Option.mem_def.mpr hc) hCond
  have hIf := step_lit "if".data _ (.seq (.rep true 1 isWhiteSpace) patCond) _ hSpace
  have htext : ifElseText C V A B = "if".data ++ (" ".data ++ (C ++ (":".data ++
      '\n' :: ("    ".data ++ ((V ++ " = ".data ++ A) ++ '\n' :: ([] ++ ([] ++ ("else:".data ++
        '\n' :: ("    ".data ++ (V ++ " = ".data ++ B)))))))))) := by
    simp [ifElseText, List.append_assoc]
  have := hIf { prev := prev, rest := ifElseText C V A B, consumed := [], caps := [] } htext
  unfold Re.matchAt ifElsePattern
  rw [this]
  simp [ifElseText, List.append_assoc]

theorem step_greedy (p : Char → Bool) (min : Nat) (u R : List Char) (tail : Re)
    (new : List (List Char)) (hmin : min ≤ u.length) (hu : ∀ c ∈ u, p c = true)
    (hR : ∀ c, R.head? = some c → p c = false)
    (htail : ∀ s : MatchState, s.rest = R →
      tail.run s MatchState.accept = some ⟨s.consumed.reverse ++ R, s.caps ++ new⟩) :
    ∀ s : MatchState, s.rest = u ++ R →
      (Re.seq (.rep true min p) tail).run s MatchState.accept =
        some ⟨s.consumed.reverse ++ (u ++ R), s.caps ++ new⟩ := by
  intro s h
  obtain ⟨h1, h2, h3⟩ := advance_append s u R h
  have hn : (s.rest.takeWhile p).length = u.length := by
    rw [h, takeWhile_append_stop _ u R hu hR]
  rw [run_seq]
  apply run_rep_greedy p min u.length s _ _ hmin (by omega) (fun j h1 h2 => by omega)
  rw [htail _ h1, h2, h3]
  simp

theorem assignRest_run {X : List Char} (hX : PlainFragment X) :
    ∀ s : MatchState, s.rest = " ".data ++ ("=".data ++ (" ".data ++ X)) →
      patAssignRest.run s MatchState.accept =
        some ⟨s.consumed.reverse ++ (" ".data ++ ("=".data ++ (" ".data ++ X))),
          s.caps ++ [X]⟩ := by
  apply step_spaces 0 " ".data _ _ _ (by decide) (fun c hc => (space_data_facts.2.1 c hc).1)
  · intro c hc
    have : c = '=' := by
      have : ("=".data ++ (" ".data ++ X)).head? = some '=' := rfl
      rw [this] at hc; cases hc; rfl
    subst this; decide
  · apply step_lit
    apply step_spaces 0 " ".data _ _ _ (by decide) (fun c hc => (space_data_facts.2.1 c hc).1)
    · intro c hc; exact hX.2.2.1 c (Option.mem_def.mpr hc)
    · exact step_cap_last X hX.1 (plainFragment_isDot hX)

theorem space_not_word : ∀ c, (" ".data ++ ("=".data ++ (" ".data ++ X))).head? = some c →
    isWordChar c = false := by
  intro c hc
  have : c = ' ' := by
    have : (" ".data ++ ("=".data ++ (" ".data ++ X))).head? = some ' ' := rfl
    rw [this] at hc; cases hc; rfl
  subst this; decide

theorem assignLine_eq (V X : List Char) :
    V ++ " = ".data ++ X = V ++ (" ".data ++ ("=".data ++ (" ".data ++ X))) := by
  simp [List.append_assoc]

theorem search_of_matchAt (re : Re) (prev : Option Char) (text : List Char) (r : MatchResult)
    (h : re.matchAt prev text = some r) : re.search prev text = some r := by
  cases text with
  | nil => exact h
  | cons c cs => simp [Re.search, h]

/-- On the line `V = X` the assignment pattern captures `V` and `X`. -/
theorem assignPattern_search {V X : List Char} (hV : Identifier V) (hX : PlainFragment X) :
    assignPattern.search none (V ++ " = ".data ++ X) = some ⟨V ++ " = ".data ++ X, [V, X]⟩ := by
  apply search_of_matchAt
  have h := step_cap_greedy isWordChar 1 V _ patAssignRest _
    (List.length_pos.mpr (identifier_ne_nil hV)) hV.2 space_not_word (assignRest_run hX)
    { prev := none, rest := V ++ " = ".data ++ X, consumed := [], caps := [] }
    (assignLine_eq V X)
  unfold Re.matchAt assignPattern
  rw [h]
  simp [List.append_assoc]

/-- On the line `V = X` the pattern of the else branch captures `X`. -/
theorem elseAssignPattern_search {V X : List Char} (hV : Identifier V) (hX : PlainFragment X) :
    elseAssignPattern.search none (V ++ " = ".data ++ X) =
      some ⟨V ++ " = ".data ++ X, [X]⟩ := by
  apply search_of_matchAt
  have h := step_greedy isWordChar 1 V _ patAssignRest _
    (List.length_pos.mpr (identifier_ne_nil hV)) hV.2 space_not_word (assignRest_run hX)
    { prev := none, rest := V ++ " = ".data ++ X, consumed := [], caps := [] }
    (assignLine_eq V X)
  unfold Re.matchAt elseAssignPattern
  rw [h]
  simp [List.append_assoc]

theorem scan_skip_all (re : Re) (cs : List Char) :
    ∀ (prev : Option Char) (skip offset : Nat), cs.length ≤ skip →
      re.scan prev cs skip offset = [] := by
  induction cs with
  | nil => intro prev skip offset _; cases skip <;> rfl
  | cons c cs ih =>
    intro prev skip offset h
    cases skip with
    | zero => simp at h
    | succ n =>
      simp only [Re.scan]
      exact ih _ n _ (by simpa using h)

/-- A match that covers the whole input is the only segment of the scan. -/
theorem scan_whole (re : Re) (text : List Char) (r : MatchResult) (hne : text ≠ [])
    (h : re.matchAt none text = some r) (hlen : r.matched.length = text.length) :
    re.scan none text 0 0 = [Segment.hit 0 r] := by
  obtain ⟨c, cs, rfl⟩ := List.exists_cons_of_ne_nil hne
  simp only [Re.scan, h]
  rw [scan_skip_all]
  simp [hlen]

/-- Stage 1 on the four-line text, with the folding draw at most 0.5. -/
theorem stageIfElse_template (g : Rng) {C V A B : List Char} (hC : PlainFragment C)
    (hV : Identifier V) (hA : PlainFragment A) (hB : PlainFragment B)
    (hdraw : ¬ g.next.1.val > 1 / 2) :
    stageIfElse g (ifElseText C V A B) = (ternaryText C V A B, g.next.2) := by
  have hm := ifElsePattern_matchAt hC hV hA hB none
  have hne : ifElseText C V A B ≠ [] := by simp [ifElseText]
  have hscan := scan_whole ifElsePattern _ _ hne hm rfl
  simp only [stageIfElse, Re.replaceAll, hscan, replaceSegments, foldIfElse, hdraw, if_false,
    List.getD_cons_zero, List.getD_cons_succ, assignPattern_search hV hA,
    elseAssignPattern_search hV hB, List.flatten, List.append_nil, ternaryText]

/-! ### Stage 6: indentation -/

/-- `line.match(/^\s*/)[0].length` is the length of the leading whitespace. -/
theorem leadingSpaces_eq (line : List Char) :
    leadingSpaces line = (line.takeWhile isWhiteSpace).length := by
  have hm : leadingSpacePattern.matchAt none line =
      some ⟨line.take (line.takeWhile isWhiteSpace).length, []⟩ := by
    unfold Re.matchAt leadingSpacePattern
    rw [run_seq]
    simp only [Re.run, Option.isNone_none, if_true]
    exact run_rep_greedy isWhiteSpace 0 _ _ _ _ (Nat.zero_le _) (le_refl _)
      (fun j h1 h2 => by omega) (by simp [MatchState.accept, MatchState.advance])
  have hs := search_of_matchAt _ _ _ _ hm
  simp only [leadingSpaces, leadingWhitespace, hs, List.length_take]
  exact Nat.min_eq_left (List.takeWhile_sublist isWhiteSpace).length_le

theorem dropWhile_head_not_space (cs : List Char) :
    ∀ c, (cs.dropWhile isWhiteSpace).head? = some c → isWhiteSpace c = false := by
  induction cs with
  | nil => intro c hc; cases hc
  | cons d cs ih =>
    intro c hc
    by_cases hd : isWhiteSpace d = true
    · rw [List.dropWhile_cons, if_pos hd] at hc; exact ih c hc
    · simp only [Bool.not_eq_true] at hd
      rw [List.dropWhile_cons, if_neg (by simp [hd])] at hc
      cases hc; exact hd

/-- A trimmed line does not start with whitespace. -/
theorem trim_head (line : List Char) :
    ∀ c, (trim line).head? = some c → isWhiteSpace c = false := by
  intro c hc
  have hpre : trim line <+: line.dropWhile isWhiteSpace := by
    unfold trim
    have hsuf := List.dropWhile_suffix isWhiteSpace
      (l := (line.dropWhile isWhiteSpace).reverse)
    have := List.reverse_prefix.mpr hsuf
    rwa [List.reverse_reverse] at this
  obtain ⟨t, ht⟩ := hpre
  apply dropWhile_head_not_space line c
  rw [← ht]
  cases hl : trim line with
  | nil => rw [hl] at hc; cases hc
  | cons a l => rw [hl] at hc; cases hc; rfl

theorem trim_mem (line : List Char) : ∀ c ∈ trim line, c ∈ line := by
  intro c hc
  unfold trim at hc
  rw [List.mem_reverse] at hc
  have h1 := (List.dropWhile_suffix isWhiteSpace).subset hc
  rw [List.mem_reverse] at h1
  exact (List.dropWhile_suffix isWhiteSpace).subset h1

/-- The leading whitespace of a re-indented line is the new indent. -/
theorem leadingSpaces_reindent (k : Nat) (line : List Char) :
    leadingSpaces (List.replicate k ' ' ++ trim line) = k := by
  rw [leadingSpaces_eq, takeWhile_append_stop isWhiteSpace _ _ _ (trim_head line)]
  · simp
  · intro c hc
    rw [List.eq_of_mem_replicate hc]; decide

theorem jitterLine_spec (g : Rng) (line : List Char) : JitterSpec line (jitterLine g line).1 := by
  unfold jitterLine
  by_cases hn : leadingSpaces line = 0
  · simp only [hn, if_true]
    exact ⟨fun _ => rfl, fun h => by omega, fun h => h⟩
  · simp only [hn, if_false]
    by_cases hd : g.next.1.val < 3 / 10
    · simp only [hd, if_true]
      refine ⟨fun h => absurd h hn, fun _ => ?_, fun h => ?_⟩
      · rw [leadingSpaces_reindent]
        by_cases hv : g.next.2.next.1.val > 1 / 2
        · right; left
          simp only [hv, if_true]
          omega
        · right; right
          simp only [hv, if_false]
          omega
      · intro hmem
        rcases List.mem_append.mp hmem with h1 | h1
        · have := List.eq_of_mem_replicate h1
          revert this; decide
        · exact h (trim_mem line _ h1)
    · simp only [hd, if_false]
      exact ⟨fun h => absurd h hn, fun _ => Or.inl rfl, fun h => h⟩

theorem mapLines_spec (lines : List (List Char)) :
    ∀ g : Rng, List.Forall₂ JitterSpec lines (mapLines jitterLine g lines).1 := by
  induction lines with
  | nil => intro g; exact List.Forall₂.nil
  | cons line rest ih =>
    intro g
    exact List.Forall₂.cons (jitterLine_spec g line) (ih _)

theorem splitNewlineAux_no_newline (cs : List Char) :
    ∀ cur : List Char, '\n' ∉ cur → ∀ l ∈ splitNewlineAux cs cur, '\n' ∉ l := by
  induction cs with
  | nil =>
    intro cur hcur l hl
    simp only [splitNewlineAux, List.mem_singleton] at hl
    subst hl; simpa using hcur
  | cons c cs ih =>
    intro cur hcur l hl
    by_cases hc : c = '\n'
    · simp only [splitNewlineAux, hc, if_true, List.mem_cons] at hl
      rcases hl with h1 | h1
      · subst h1; simpa using hcur
      · exact ih [] (by simp) l h1
    · simp only [splitNewlineAux, hc, if_false] at hl
      exact ih (c :: cur) (by
        intro h
        rcases List.mem_cons.mp h with h1 | h1
        · exact hc h1.symm
        · exact hcur h1) l hl

theorem splitNewlineAux_append (l : List Char) (hl : '\n' ∉ l) (rest : List Char) :
    ∀ cur : List Char, splitNewlineAux (l ++ rest) cur = splitNewlineAux rest (l.reverse ++ cur) := by
  induction l with
  | nil => intro cur; rfl
  | cons c l ih =>
    intro cur
    have hc : c ≠ '\n' := fun h => hl (by rw [h]; exact List.mem_cons_self _ _)
    have hl' : '\n' ∉ l := fun h => hl (List.mem_cons_of_mem _ h)
    rw [List.cons_append, splitNewlineAux, if_neg hc, ih hl' (c :: cur)]
    simp

theorem splitNewlineAux_ne_nil (cs : List Char) : ∀ cur : List Char, splitNewlineAux cs cur ≠ [] := by
  induction cs with
  | nil => intro cur; simp [splitNewlineAux]
  | cons c cs ih =>
    intro cur
    by_cases hc : c = '\n'
    · simp [splitNewlineAux, hc]
    · simp only [splitNewlineAux, hc, if_false]
      exact ih _

/-- Splitting the joined lines gives the lines back when none contains a newline. -/
theorem splitLines_joinLines (lines : List (List Char)) (hne : lines ≠ [])
    (h : ∀ l ∈ lines, '\n' ∉ l) : splitLines (joinLines lines) = lines := by
  induction lines with
  | nil => exact absurd rfl hne
  | cons l rest ih =>
    have hl := h l (List.mem_cons_self _ _)
    cases rest with
    | nil =>
      simp only [joinLines, List.intercalate, List.intersperse, List.flatten, List.append_nil,
        splitLines]
      have := splitNewlineAux_append l hl [] []
      rw [List.append_nil] at this
      rw [this]
      simp [splitNewlineAux]
    | cons l2 rest2 =>
      have ih' := ih (by simp) (fun x hx => h x (List.mem_cons_of_mem _ hx))
      have hj : joinLines (l :: l2 :: rest2) = l ++ '\n' :: joinLines (l2 :: rest2) := by
        simp [joinLines, List.intercalate, List.intersperse, List.flatten]
      rw [hj]
      unfold splitLines at ih' ⊢
      rw [splitNewlineAux_append l hl _ []]
      simp only [splitNewlineAux, if_true, List.append_nil, List.reverse_reverse]
      rw [ih']

/-- The lines of the output of stage 6 are the jittered input lines. -/
theorem stageIndent_lines (g : Rng) (text : List Char) :
    splitLines (stageIndent g text).1 = (mapLines jitterLine g (splitLines text)).1 := by
  have hspec := mapLines_spec (splitLines text) g
  have hin : ∀ l ∈ splitLines text, '\n' ∉ l :=
    splitNewlineAux_no_newline text [] (by simp)
  unfold stageIndent
  apply splitLines_joinLines
  · intro hnil
    rw [hnil] at hspec
    have hlen := hspec.length_eq
    have : splitLines text ≠ [] := splitNewlineAux_ne_nil text []
    exact this (List.length_eq_zero.mp (by simpa using hlen))
  · intro l hl
    obtain ⟨i, hi, rfl⟩ := List.getElem_of_mem hl
    have hlen := hspec.length_eq
    have hi' : i < (splitLines text).length := by omega
    have hrel := List.Forall₂.get hspec hi' hi
    exact hrel.2.2 (hin _ (List.get_mem _ _ _))

/-! ### Stage 2: identifier corruption -/

theorem toDigitsCore_ne_nil (b : Nat) : ∀ (fuel n : Nat) (ds : List Char),
    (ds ≠ [] ∨ 0 < fuel) → Nat.toDigitsCore b fuel n ds ≠ [] := by
  intro fuel
  induction fuel with
  | zero =>
    intro n ds h
    rcases h with h | h
    · simpa [Nat.toDigitsCore] using h
    · exact absurd h (by decide)
  | succ f ih =>
    intro n ds _
    rw [Nat.toDigitsCore]
    split
    · simp
    · exact ih _ _ (Or.inl (by simp))

theorem numberString_ne_nil (n : Nat) : numberString n ≠ [] := by
  unfold numberString Nat.repr Nat.toDigits
  exact toDigitsCore_ne_nil 10 (n + 1) n [] (Or.inr (Nat.succ_pos n))

theorem replaceFirst_ne_nil (re : Re) (f : MatchResult → List Char)
    (hf : ∀ p t r, re.matchAt p t = some r → f r ≠ []) :
    ∀ (text : List Char) (prev : Option Char) (before : List Char),
      (text ≠ [] ∨ before ≠ []) → re.replaceFirst f prev text before ≠ [] := by
  intro text
  induction text with
  | nil =>
    intro prev before h
    have hb : before ≠ [] := h.resolve_left (fun h => h rfl)
    unfold Re.replaceFirst
    split <;> simp [hb]
  | cons c cs ih =>
    intro prev before _
    unfold Re.replaceFirst
    split
    · rename_i r hr
      have := hf _ _ _ hr
      simp [this]
    · exact ih _ _ (Or.inr (by simp))

theorem matchAt_cls (p : Char → Bool) (prev : Option Char) (c : Char) (cs : List Char) :
    (Re.cls p).matchAt prev (c :: cs) = if p c then some ⟨[c], []⟩ else none := by
  simp [Re.matchAt, Re.run, MatchState.accept, MatchState.advance]

theorem stripVowels_ne_nil (name : List Char) (h : name ≠ []) : stripVowels name ≠ [] := by
  cases name with
  | nil => exact absurd rfl h
  | cons c cs =>
    unfold stripVowels Re.replaceAll
    simp only [Re.scan, matchAt_cls]
    by_cases hv : isVowel c = true
    · simp [hv, replaceSegments]
    · simp [hv, replaceSegments]

theorem randomCase_length (name : List Char) : ∀ g : Rng, (randomCase g name).1.length = name.length := by
  induction name with
  | nil => intro g; rfl
  | cons c cs ih => intro g; simp [randomCase, ih]

theorem doubleConsonant_ne_nil (name : List Char) (h : name ≠ []) : doubleConsonant name ≠ [] := by
  unfold doubleConsonant
  apply replaceFirst_ne_nil _ _ _ _ _ _ (Or.inl h)
  intro p t r hr
  cases t with
  | nil => simp [Re.matchAt, Re.run] at hr
  | cons c cs =>
    simp only [Re.matchAt, Re.run] at hr
    split at hr
    · simp only [MatchState.accept, MatchState.advance, Option.some.injEq] at hr
      subst hr
      simp
    · cases hr

theorem vowelToDigit_ne_nil (name : List Char) (digit : Nat) (h : name ≠ []) :
    vowelToDigit name digit ≠ [] :=
  replaceFirst_ne_nil _ _ (fun _ _ _ _ => numberString_ne_nil digit) _ _ _ (Or.inl h)

theorem get_ne_nil (l : List (List Char)) (i : Fin l.length) (h : ∀ m ∈ l, m ≠ []) :
    l.get i ≠ [] := h _ (List.get_mem _ _ _)

/-- A corrupted name is never the empty string. -/
theorem corruptName_ne_nil (g : Rng) (name : List Char) (h : name ≠ []) :
    (corruptName g name).1 ≠ [] := by
  unfold corruptName
  dsimp only
  apply get_ne_nil
  intro m hm
  simp only [List.mem_cons, List.mem_singleton, List.not_mem_nil, or_false] at hm
  rcases hm with rfl | rfl | rfl | rfl | rfl | rfl
  · exact stripVowels_ne_nil name h
  · simp [h]
  · intro h0
    have := randomCase_length name g.next.2
    rw [h0] at this
    exact h (List.length_eq_zero.mp this.symm)
  · exact doubleConsonant_ne_nil name h
  · simp [h]
  · exact vowelToDigit_ne_nil name _ h

/-- A match of the identifier pattern is not empty. -/
theorem varPattern_matched_ne_nil (prev : Option Char) (text : List Char) (r : MatchResult)
    (h : varPattern.matchAt prev text = some r) : r.matched ≠ [] := by
  cases text with
  | nil => simp [Re.matchAt, varPattern, Re.run] at h
  | cons c cs =>
    simp only [Re.matchAt, varPattern, Re.run] at h
    split at h
    · split at h
      · obtain ⟨j, _, hj⟩ := List.exists_of_findSome?_eq_some h
        split at hj
        · simp only [MatchState.accept, MatchState.advance, Option.some.injEq] at hj
          subst hj
          simp
        · cases hj
      · cases h
    · cases h

/-- Every hit of a scan is a match of the pattern. -/
theorem scan_hit (re : Re) (text : List Char) :
    ∀ (prev : Option Char) (skip offset o : Nat) (r : MatchResult),
      Segment.hit o r ∈ re.scan prev text skip offset → ∃ p t, re.matchAt p t = some r := by
  induction text with
  | nil => intro prev skip offset o r h; simp [Re.scan] at h
  | cons c cs ih =>
    intro prev skip offset o r h
    cases skip with
    | succ k => exact ih _ _ _ o r h
    | zero =>
      unfold Re.scan at h
      split at h
      · rename_i r0 hr0
        rcases List.mem_cons.mp h with h1 | h1
        · cases h1; exact ⟨_, _, hr0⟩
        · exact ih _ _ _ o r h1
      · rcases List.mem_cons.mp h with h1 | h1
        · cases h1
        · exact ih _ _ _ o r h1

theorem contains_iff (l : List (List Char)) (a : List Char) : l.contains a = true ↔ a ∈ l := by
  simp

theorem corruptIdentifier_skipped (st : CorruptState) (o : Nat) (r : MatchResult)
    (h1 : isSkipped r.matched = true) : corruptIdentifier st o r = (r.matched, st) := by
  simp [corruptIdentifier, h1]

theorem corruptIdentifier_seen (st : CorruptState) (o : Nat) (r : MatchResult)
    (h1 : ¬ isSkipped r.matched = true) (h2 : r.matched ∈ st.seenVars) :
    corruptIdentifier st o r = (lookupOr st.varMap r.matched, st) := by
  simp [corruptIdentifier, h1, h2]

theorem corruptIdentifier_fresh (st : CorruptState) (o : Nat) (r : MatchResult)
    (h1 : ¬ isSkipped r.matched = true) (h2 : r.matched ∉ st.seenVars)
    (h3 : st.rng.next.1.val < 4 / 10) :
    corruptIdentifier st o r = ((corruptName st.rng.next.2 r.matched).1,
      { rng := (corruptName st.rng.next.2 r.matched).2, seenVars := r.matched :: st.seenVars,
        varMap := (r.matched, (corruptName st.rng.next.2 r.matched).1) :: st.varMap }) := by
  simp [corruptIdentifier, h1, h2, h3]

theorem corruptIdentifier_kept (st : CorruptState) (o : Nat) (r : MatchResult)
    (h1 : ¬ isSkipped r.matched = true) (h2 : r.matched ∉ st.seenVars)
    (h3 : ¬ st.rng.next.1.val < 4 / 10) :
    corruptIdentifier st o r = (r.matched,
      { rng := st.rng.next.2, seenVars := r.matched :: st.seenVars, varMap := st.varMap }) := by
  simp [corruptIdentifier, h1, h2, h3]

theorem corruptIdentifier_settled (st : CorruptState) (o : Nat) (r : MatchResult)
    (name : List Char) (h : st.Settled name) :
    (corruptIdentifier st o r).2.Settled name ∧
      (corruptIdentifier st o r).2.answer name = st.answer name := by
  by_cases h1 : isSkipped r.matched = true
  · rw [corruptIdentifier_skipped st o r h1]; exact ⟨h, rfl⟩
  · by_cases h2 : r.matched ∈ st.seenVars
    · rw [corruptIdentifier_seen st o r h1 h2]; exact ⟨h, rfl⟩
    · by_cases h3 : isSkipped name = true
      · exact ⟨Or.inl h3, by simp [CorruptState.answer, h3]⟩
      · have hmem : name ∈ st.seenVars := h.resolve_left h3
        have hne : (name == r.matched) = false := by
          simpa using fun he : name = r.matched => h2 (he ▸ hmem)
        by_cases h4 : st.rng.next.1.val < 4 / 10
        · rw [corruptIdentifier_fresh st o r h1 h2 h4]
          refine ⟨Or.inr (List.mem_cons_of_mem _ hmem), ?_⟩
          simp only [CorruptState.answer, h3, lookupOr, List.lookup, hne]
        · rw [corruptIdentifier_kept st o r h1 h2 h4]
          exact ⟨Or.inr (List.mem_cons_of_mem _ hmem), rfl⟩

theorem corruptIdentifier_first (st : CorruptState) (o : Nat) (r : MatchResult)
    (hinv : st.Inv) (hr : r.matched ≠ []) :
    (corruptIdentifier st o r).1 = (corruptIdentifier st o r).2.answer r.matched ∧
      (corruptIdentifier st o r).2.Settled r.matched ∧ (corruptIdentifier st o r).2.Inv := by
  by_cases h1 : isSkipped r.matched = true
  · rw [corruptIdentifier_skipped st o r h1]
    exact ⟨by simp [CorruptState.answer, h1], Or.inl h1, hinv⟩
  · by_cases h2 : r.matched ∈ st.seenVars
    · rw [corruptIdentifier_seen st o r h1 h2]
      exact ⟨by simp [CorruptState.answer, h1], Or.inr h2, hinv⟩
    · by_cases h4 : st.rng.next.1.val < 4 / 10
      · rw [corruptIdentifier_fresh st o r h1 h2 h4]
        refine ⟨?_, Or.inr (List.mem_cons_self _ _), ?_⟩
        · have hne := corruptName_ne_nil st.rng.next.2 r.matched hr
          simp only [CorruptState.answer, h1, if_false, lookupOr, List.lookup, beq_self_eq_true]
          cases hc : (corruptName st.rng.next.2 r.matched).1 with
          | nil => exact absurd hc hne
          | cons a l => simp
        · intro name hname
          have hname1 : (name == r.matched) = false := by
            simpa using fun he : name = r.matched => hname (he ▸ List.mem_cons_self _ _)
          have hname2 : name ∉ st.seenVars := fun hm => hname (List.mem_cons_of_mem _ hm)
          simp only [List.lookup, hname1]
          exact hinv name hname2
      · rw [corruptIdentifier_kept st o r h1 h2 h4]
        refine ⟨?_, Or.inr (List.mem_cons_self _ _), ?_⟩
        · simp [CorruptState.answer, h1, lookupOr, hinv _ h2]
        · intro name hname
          exact hinv name (fun hm => hname (List.mem_cons_of_mem _ hm))

/-- Once a token is settled, every later occurrence gets the same answer. -/
theorem replaceSegments_settled (name : List Char) (segs : List Segment) :
    ∀ (st : CorruptState), st.Settled name → ∀ (j o : Nat) (r : MatchResult),
      segs[j]? = some (Segment.hit o r) → r.matched = name →
      (replaceSegments corruptIdentifier st segs).1[j]? = some (st.answer name) := by
  induction segs with
  | nil => intro st _ j o r h; simp at h
  | cons seg rest ih =>
    intro st hst j o r hj hname
    cases seg with
    | gap c =>
      cases j with
      | zero => simp at hj
      | succ j =>
        simp only [replaceSegments, List.getElem?_cons_succ] at hj ⊢
        exact ih st hst j o r hj hname
    | hit o0 r0 =>
      have hstep := corruptIdentifier_settled st o0 r0 name hst
      cases j with
      | zero =>
        simp only [List.getElem?_cons_zero, Option.some.injEq, Segment.hit.injEq] at hj
        obtain ⟨_, rfl⟩ := hj
        simp only [replaceSegments, List.getElem?_cons_zero, Option.some.injEq]
        subst hname
        by_cases h0 : isSkipped r0.matched = true
        · rw [corruptIdentifier_skipped st o0 r0 h0]; simp [h0, CorruptState.answer]
        · rw [corruptIdentifier_seen st o0 r0 h0 (hst.resolve_left h0)]
          simp [h0, CorruptState.answer]
      | succ j =>
        simp only [replaceSegments, List.getElem?_cons_succ] at hj ⊢
        rw [ih _ hstep.1 j o r hj hname, hstep.2]

theorem replaceSegments_length {σ : Type} (f : σ → Nat → MatchResult → List Char × σ)
    (segs : List Segment) : ∀ st : σ, (replaceSegments f st segs).1.length = segs.length := by
  induction segs with
  | nil => intro st; rfl
  | cons seg rest ih =>
    intro st
    cases seg <;> simp [replaceSegments, ih]

/-- Two occurrences of one token get the same piece. -/
theorem replaceSegments_consistent (segs : List Segment) :
    ∀ (st : CorruptState), st.Inv →
      (∀ o r, Segment.hit o r ∈ segs → r.matched ≠ []) →
      ∀ (i j oi oj : Nat) (ri rj : MatchResult), i < j →
      segs[i]? = some (Segment.hit oi ri) → segs[j]? = some (Segment.hit oj rj) →
      ri.matched = rj.matched →
      ∃ piece, (replaceSegments corruptIdentifier st segs).1[i]? = some piece ∧
        (replaceSegments corruptIdentifier st segs).1[j]? = some piece := by
  induction segs with
  | nil => intro st _ _ i j oi oj ri rj _ h; simp at h
  | cons seg rest ih =>
    intro st hinv hne i j oi oj ri rj hij hi hj hname
    have hne' : ∀ o r, Segment.hit o r ∈ rest → r.matched ≠ [] :=
      fun o r h => hne o r (List.mem_cons_of_mem _ h)
    cases j with
    | zero => exact absurd hij (Nat.not_lt_zero _)
    | succ j =>
      cases i with
      | zero =>
        simp only [List.getElem?_cons_zero, Option.some.injEq] at hi
        subst hi
        simp only [List.getElem?_cons_succ] at hj
        have hfirst := corruptIdentifier_first st oi ri hinv
          (hne oi ri (List.mem_cons_self _ _))
        refine ⟨(corruptIdentifier st oi ri).1, by simp [replaceSegments], ?_⟩
        simp only [replaceSegments, List.getElem?_cons_succ]
        rw [replaceSegments_settled ri.matched rest _ hfirst.2.1 j oj rj hj hname.symm,
          ← hfirst.1]
      | succ i =>
        simp only [List.getElem?_cons_succ] at hi hj
        cases seg with
        | gap c =>
          simp only [replaceSegments, List.getElem?_cons_succ]
          exact ih st hinv hne' i j oi oj ri rj (by omega) hi hj hname
        | hit o0 r0 =>
          simp only [replaceSegments, List.getElem?_cons_succ]
          exact ih _ (corruptIdentifier_first st o0 r0 hinv
            (hne o0 r0 (List.mem_cons_self _ _))).2.2 hne' i j oi oj ri rj (by omega) hi hj hname

/-- Stage 2 replaces every occurrence of one identifier token by the same string: two hits of
the scan with the same token get equal pieces. -/
theorem corruption_consistent (g : Rng) (text : List Char) (i j oi oj : Nat)
    (ri rj : MatchResult)
    (hi : (varPattern.scan none text 0 0)[i]? = some (Segment.hit oi ri))
    (hj : (varPattern.scan none text 0 0)[j]? = some (Segment.hit oj rj))
    (hname : ri.matched = rj.matched) :
    ∃ piece, (corruptPieces g text).1[i]? = some piece ∧
      (corruptPieces g text).1[j]? = some piece := by
  have hinv : CorruptState.Inv { rng := g, seenVars := [], varMap := [] } := fun _ _ => rfl
  have hne : ∀ o r, Segment.hit o r ∈ varPattern.scan none text 0 0 → r.matched ≠ [] := by
    intro o r h
    obtain ⟨p, t, hm⟩ := scan_hit _ _ _ _ _ _ _ h
    exact varPattern_matched_ne_nil p t r hm
  unfold corruptPieces
  rcases Nat.lt_trichotomy i j with hlt | heq | hgt
  · exact replaceSegments_consistent _ _ hinv hne i j oi oj ri rj hlt hi hj hname
  · subst heq
    have hlen : i < (replaceSegments corruptIdentifier
        { rng := g, seenVars := [], varMap := [] } (varPattern.scan none text 0 0)).1.length := by
      rw [replaceSegments_length]
      by_contra hge
      rw [List.getElem?_eq_none (Nat.le_of_not_lt hge)] at hi
      cases hi
    exact ⟨_, List.getElem?_eq_getElem hlen, List.getElem?_eq_getElem hlen⟩
  · obtain ⟨piece, h1, h2⟩ :=
      replaceSegments_consistent _ _ hinv hne j i oj oi rj ri hgt hj hi hname.symm
    exact ⟨piece, h2, h1⟩

/-! ## The collapse profile -/

theorem randomIndex_val (r : RandomDraw) (n : Nat) (hn : 0 < n) :
    (randomIndex r n hn).val = (⌊(n : ℚ) * r.val⌋).toNat := by
  rw [mul_comm]; rfl

/-- C13: for every draw `r` the profile chosen by a collapse is the entry at index
`floor(8 r)` of the fixed eight-entry catalog; the index is in range, equal draws give
equal profiles, and after a trigger that is not refused `currentMutation` is that entry
and the five presentation fields carry its values. -/
theorem triggerCrash_profile (s : State) (now : Int) (rMode r : RandomDraw)
    (h : s.isCrashing = false) :
    mutations.map Mutation.name =
      ["NEON_PULSE", "DARK_MATTER", "BLOOD_MOON", "MATRIX_RAIN", "SYNTHWAVE", "ARCTIC_FOG",
        "VOID_WALKER", "CYBER_GOLD"] ∧
    (⌊(8 : ℚ) * r.val⌋).toNat < 8 ∧
    mutations.get? (⌊(8 : ℚ) * r.val⌋).toNat = some (profileOf r) ∧
    (∀ r2 : RandomDraw, r2.val = r.val → profileOf r2 = profileOf r) ∧
    (triggerCrash s now rMode r).1.currentMutation = some (profileOf r) ∧
    (triggerCrash s now rMode r).1.backgroundColor = (profileOf r).bgColor ∧
    (triggerCrash s now rMode r).1.textColor = (profileOf r).textColor ∧
    (triggerCrash s now rMode r).1.fontSize = (profileOf r).fontSize ∧
    (triggerCrash s now rMode r).1.indentSize = (profileOf r).indentSize ∧
    (triggerCrash s now rMode r).1.currentVisualEffect = some (profileOf r).visualEffect := by
  have hidx := randomIndex_val r mutations.length (by decide)
  have hlt := (randomIndex r mutations.length (by decide)).isLt
  have h8 : ((mutations.length : ℕ) : ℚ) = 8 := by norm_num [mutations]
  rw [h8] at hidx
  refine ⟨rfl, ?_, ?_, ?_, ?_⟩
  · rw [← hidx]; exact hlt
  · rw [← hidx, profileOf, List.get?_eq_get hlt]
  · intro r2 h2
    have : r2 = r := by
      cases r2; cases r; simp only at h2; subst h2; rfl
    rw [this]
  · simp only [triggerCrash, h]
    exact ⟨rfl, rfl, rfl, rfl, rfl, rfl⟩

/-- Witness of C13 at a fresh store and the draw `0.5`, which picks `SYNTHWAVE`. -/
theorem triggerCrash_profile_witness :
    (initialState 0).isCrashing = false ∧
    (triggerCrash (initialState 0) 1000 zeroDraw (drawOf 50 (by decide))).1.currentMutation =
      some (profileOf (drawOf 50 (by decide))) :=
  ⟨rfl, (triggerCrash_profile (initialState 0) 1000 zeroDraw (drawOf 50 (by decide)) rfl).2.2.2.2.1⟩

/-! ## Stage 1: the fold of an if / else pair -/

/-- C14: with the fold chance on (the draw is not above `0.5`), stage 1 rewrites the
four-line text `if C:\n    V = A\nelse:\n    V = B` to the line `V = A if C else B`, for
plain fragments `C`, `A`, `B` and an identifier `V`. -/
theorem conditional_folding (g : Rng) (C V A B : List Char) (hC : PlainFragment C)
    (hV : Identifier V) (hA : PlainFragment A) (hB : PlainFragment B)
    (hdraw : ¬ g.next.1.val > 1 / 2) :
    stageIfElse g (ifElseText C V A B) = (ternaryText C V A B, g.next.2) :=
  stageIfElse_template g hC hV hA hB hdraw

/-- Witness of C14: `if x > 0:\n    y = 1\nelse:\n    y = 2` becomes
`y = 1 if x > 0 else 2`. -/
theorem conditional_folding_witness :
    (stageIfElse lowStream "if x > 0:\n    y = 1\nelse:\n    y = 2".data).1 =
      "y = 1 if x > 0 else 2".data :=
  congrArg Prod.fst
    (conditional_folding lowStream "x > 0".data "y".data "1".data "2".data
      (by unfold PlainFragment; decide) (by unfold Identifier; decide)
      (by unfold PlainFragment; decide) (by unfold PlainFragment; decide)
      (by norm_num [lowStream, Rng.next, Rng.const, drawOf]))

/-- C17: the if-branch `print(x == 1)` is not an assignment, yet stage 1 folds the pair:
the unanchored pattern `(\w+)\s*=\s*(.+)` finds `x =` inside the call. -/
theorem fold_non_assignment :
    (stageIfElse lowStream "if c:\n    print(x == 1)\nelse:\n    print(0)".data).1 =
      "x = = 1) if c else print(0)".data := by
  decide!

/-! ## Stage 2: reserved words and the vowel strategy -/

/-- C15: the reserved word `True` is not skipped (the test lower-cases the token and the
list spells it with a capital) and, on the stream of draws `0.3`, stage 2 rewrites it. -/
theorem reserved_word_corrupted :
    isSkipped "True".data = false ∧
      (stageCorrupt lowStream "True".data).1 = "True_v3".data := by
  decide!

/-- C19: on `hello` the vowel strategy removes both vowels: a vowel is kept only at
index 0 of the identifier. -/
theorem stripVowels_hello : stripVowels "hello".data = "hll".data := by
  decide!

/-- C16: within one pass of stage 2 every occurrence of one identifier token gets the same
replacement: two hits of the scan with the same matched text have equal pieces in the
output, which is the concatenation of the pieces. -/
theorem corruption_same_token (g : Rng) (text : List Char) (i j oi oj : Nat)
    (ri rj : MatchResult)
    (hi : (varPattern.scan none text 0 0)[i]? = some (Segment.hit oi ri))
    (hj : (varPattern.scan none text 0 0)[j]? = some (Segment.hit oj rj))
    (hname : ri.matched = rj.matched) :
    (stageCorrupt g text).1 = (corruptPieces g text).1.flatten ∧
    ∃ piece, (corruptPieces g text).1[i]? = some piece ∧
      (corruptPieces g text).1[j]? = some piece :=
  ⟨rfl, corruption_consistent g text i j oi oj ri rj hi hj hname⟩

/-- Witness of C16: the two occurrences of `total` in `total = total + 1`. -/
theorem corruption_same_token_witness :
    (stageCorrupt lowStream "total = total + 1".data).1 =
      (corruptPieces lowStream "total = total + 1".data).1.flatten ∧
    ∃ piece, (corruptPieces lowStream "total = total + 1".data).1[0]? = some piece ∧
      (corruptPieces lowStream "total = total + 1".data).1[4]? = some piece :=
  corruption_same_token lowStream "total = total + 1".data 0 4 0 8
    ⟨"total".data, ["total".data]⟩ ⟨"total".data, ["total".data]⟩
    (by decide!) (by decide!) rfl

/-! ## Stage 6: the jitter of the indentation -/

/-- C20: stage 6 keeps the number of lines, leaves a line without leading whitespace
unchanged, and gives any other line, of leading-whitespace length `n`, a leading
whitespace of length `n`, `n + 2` or `n - 1`. -/
theorem indent_jitter (g : Rng) (text : List Char) :
    (splitLines (stageIndent g text).1).length = (splitLines text).length ∧
    List.Forall₂
      (fun line out =>
        (leadingSpaces line = 0 → out = line) ∧
        (1 ≤ leadingSpaces line →
          leadingSpaces out = leadingSpaces line ∨
          leadingSpaces out = leadingSpaces line + 2 ∨
          leadingSpaces out + 1 = leadingSpaces line))
      (splitLines text) (splitLines (stageIndent g text).1) := by
  rw [stageIndent_lines]
  have h := mapLines_spec (splitLines text) g
  exact ⟨h.length_eq.symm, h.imp (fun _ _ hs => ⟨hs.1, hs.2.1⟩)⟩

/-! ## The cooldown flag after a reset -/

theorem staleFlagSys_reachable : Sys.Reachable elapsedNonneg staleFlagSys := by
  have h0 : Sys.Reachable elapsedNonneg (Sys.initial 0) := Sys.Reachable.init 0
  have h1 : Sys.Reachable elapsedNonneg { store := crashingState, timers := [1000 + 3000] } :=
    Sys.Reachable.step 1000 (Event.triggerCrash zeroDraw zeroDraw) h0 rfl (fun h => by cases h)
  have h2 : Sys.Reachable elapsedNonneg
      { store := setLanguage crashingState "java", timers := [1000 + 3000] } :=
    Sys.Reachable.step 1500 (Event.setLanguage "java") h1 rfl (fun h => by cases h)
  have h3 : Sys.Reachable elapsedNonneg { store := flaggedState, timers := [1000 + 3000] } :=
    Sys.Reachable.step 2000 Event.calculateStress h2 rfl
      (fun _ => by unfold elapsedNonneg; decide)
  exact Sys.Reachable.step 3000 Event.reset h3 rfl (fun h => by cases h)

/-- C18: in a reachable store, reset in the cooldown of a collapse, `lastCollapseTime` is
`null` and yet `collapseOnCooldown` is still `true` after a `calculateStress` call. -/
theorem stale_cooldown_flag :
    Sys.Reachable elapsedNonneg staleFlagSys ∧
    staleFlagSys.store.lastCollapseTime = none ∧
    elapsedNonneg staleFlagSys.store 3500 ∧
    (calculateStress staleFlagSys.store 3500).1.collapseOnCooldown = true :=
  ⟨staleFlagSys_reachable, rfl, by unfold elapsedNonneg; decide, by decide!⟩

/-! ## The callbacks of the editor component -/

/-- C11 (counterexample): a reset at 2000, during the collapse triggered at 1100, cancels
nothing: the mutation callback fires at 3600 and the completion callback at 4100, after
which the text is the mutated text and `generation` is 1. -/
theorem reset_during_collapse_counterexample :
    ((Editor.initial 0).run resetDuringCollapseRun).map
        (fun ed => (ed.store.code, ed.store.generation)) =
      some (fiftyWordsMutated, 1) ∧ fiftyWordsMutated ≠ "" := by
  decide!

theorem run_reset_fire (ed : Editor) (dueC dueM now1 now2 now3 : Int) (value : String)
    (g2 g3 : Rng)
    (htimers : ed.timers = [(dueC, Callback.complete), (dueM, Callback.applyMutation value)])
    (h2 : dueM ≤ now2) (h3 : dueC ≤ now3) :
    ed.run [(now1, EditorEvent.reset), (now2, EditorEvent.fire 1 g2),
        (now3, EditorEvent.fire 0 g3)] =
      some { store := collapseComplete
               (setCode (reset ed.store now1) (mutateCode (reset ed.store now1) g2 value).1) now3,
             localCode := (mutateCode (reset ed.store now1) g2 value).1,
             isGlitching := ed.isGlitching, timers := [] } := by
  simp [Editor.run, Editor.step, htimers, h2, h3, Editor.runCallback]

/-- C11 (amended): a reset during a collapse leaves the callbacks of the collapse pending.
When the mutation callback and then the completion callback fire, the text is the result
of `mutateCode` on the text captured by the keystroke, evaluated in the store as reset,
and `generation` is 1. -/
theorem reset_keeps_callbacks (ed : Editor) (dueC dueM now1 now2 now3 : Int)
    (value : String) (g2 g3 : Rng)
    (htimers : ed.timers = [(dueC, Callback.complete), (dueM, Callback.applyMutation value)])
    (h2 : dueM ≤ now2) (h3 : dueC ≤ now3) :
    ∃ ed1, ed.run [(now1, EditorEvent.reset), (now2, EditorEvent.fire 1 g2),
        (now3, EditorEvent.fire 0 g3)] = some ed1 ∧
      (reset ed.store now1).code = "" ∧ (reset ed.store now1).generation = 0 ∧
      ed1.store.code = (mutateCode (reset ed.store now1) g2 value).1 ∧
      ed1.store.generation = 1 ∧ ed1.timers = [] :=
  ⟨_, run_reset_fire ed dueC dueM now1 now2 now3 value g2 g3 htimers h2 h3, rfl, rfl, rfl,
    rfl, rfl⟩

/-- Witness of C11 (amended) at the editor of `resetDuringCollapseRun`. -/
theorem reset_keeps_callbacks_witness :
    (Editor.initial 0).run (resetDuringCollapseRun.take 2) = some collapsingEditor ∧
    ∃ ed1, collapsingEditor.run [(2000, EditorEvent.reset), (3600, EditorEvent.fire 1 lowStream),
        (4100, EditorEvent.fire 0 midStream)] = some ed1 ∧
      (reset collapsingEditor.store 2000).code = "" ∧
      (reset collapsingEditor.store 2000).generation = 0 ∧
      ed1.store.code = (mutateCode (reset collapsingEditor.store 2000) lowStream fiftyWords).1 ∧
      ed1.store.generation = 1 ∧ ed1.timers = [] :=
  ⟨by decide!, reset_keeps_callbacks collapsingEditor 4100 3600 2000 3600 4100 fiftyWords
    lowStream midStream rfl (by decide) (by decide)⟩

/-- C12: two keystrokes that reach the ceiling 50 ms apart lead to one collapse record and
two pending mutation callbacks; each of the two, when it fires, overwrites the text. -/
theorem double_keystroke_two_mutations :
    ((Editor.initial 0).run doubleKeystrokeRun).map
        (fun ed => (ed.store.crashHistory.length, ed.store.collapseCount,
          (ed.timers.filter (fun t => t.2.isApplyMutation)).length)) = some (1, 1, 2) ∧
    ((Editor.initial 0).run (doubleKeystrokeRun ++ [(3600, EditorEvent.fire 1 lowStream)])).map
        (fun ed => (ed.store.code, ed.store.crashHistory.length)) =
      some (fiftyWordsMutated, 1) ∧
    ((Editor.initial 0).run (doubleKeystrokeRun ++
        [(3600, EditorEvent.fire 1 lowStream), (3650, EditorEvent.fire 1 midStream)])).map
        (fun ed => (ed.store.code, ed.store.crashHistory.length)) =
      some (fiftyOneWords, 1) := by
  decide!

/-! ## The collapse logs and the collapse counter -/

theorem triggerCrash_logsAgree (s : State) (now : Int) (r1 r2 : RandomDraw)
    (h : LogsAgree s) : LogsAgree (triggerCrash s now r1 r2).1 := by
  unfold triggerCrash
  by_cases hc : s.isCrashing = true
  · simpa [hc] using h
  · simp only [hc, Bool.false_eq_true, if_false]
    obtain ⟨h1, h2⟩ := h
    simp [LogsAgree, triggerCrashBody, h1, h2]

theorem step_logsAgree {sys sys1 : Sys} (now : Int) (e : Event)
    (hstep : sys.step now e = some sys1) (h : LogsAgree sys.store) : LogsAgree sys1.store := by
  cases e with
  | setCode code => simp only [Sys.step, Option.some.injEq] at hstep; subst hstep; exact h
  | setLanguage l => simp only [Sys.step, Option.some.injEq] at hstep; subst hstep; exact h
  | incrementKeystrokes =>
    simp only [Sys.step, Option.some.injEq] at hstep; subst hstep; exact h
  | calculateStress =>
    simp only [Sys.step, Option.some.injEq] at hstep; subst hstep
    obtain ⟨_, f1, f2, f3, _⟩ := calculateStress_frame sys.store now
    show (calculateStress sys.store now).1.crashHistory.length =
        (calculateStress sys.store now).1.collapseCount ∧
      (calculateStress sys.store now).1.codeHistory.length =
        (calculateStress sys.store now).1.collapseCount
    rw [f1, f2, f3]; exact h
  | triggerCrash r1 r2 =>
    simp only [Sys.step, Option.some.injEq] at hstep; subst hstep
    exact triggerCrash_logsAgree sys.store now r1 r2 h
  | forceCollapse ic cd r1 r2 =>
    simp only [Sys.step, Option.some.injEq] at hstep; subst hstep
    show LogsAgree (handleForceCollapse ic cd sys.store now r1 r2).1
    unfold handleForceCollapse
    split
    · exact triggerCrash_logsAgree sys.store now r1 r2 h
    · exact h
  | reset =>
    simp only [Sys.step, Option.some.injEq] at hstep; subst hstep
    exact ⟨rfl, rfl⟩
  | fire i =>
    simp only [Sys.step] at hstep
    split at hstep
    · split at hstep
      · simp only [Option.some.injEq] at hstep; subst hstep; exact h
      · cases hstep
    · cases hstep

theorem crashingSys_reachable (ok : State → Int → Prop) : Sys.Reachable ok crashingSys :=
  Sys.Reachable.step 1000 (Event.triggerCrash zeroDraw zeroDraw) (Sys.Reachable.init 0) rfl
    (fun h => by cases h)

/-- C27: in every state reachable from a fresh store by the store's actions and the
completion callback, the collapse log, the text log and the collapse counter agree:
`crashHistory.length = codeHistory.length = collapseCount`. -/
theorem history_lengths_agree (sys : Sys) (h : Sys.Reachable anyTime sys) :
    sys.store.crashHistory.length = sys.store.codeHistory.length ∧
    sys.store.codeHistory.length = sys.store.collapseCount := by
  have key : LogsAgree sys.store := by
    induction h with
    | init t0 => exact ⟨rfl, rfl⟩
    | step now e _ hstep _ ih => exact step_logsAgree now e hstep ih
  exact ⟨key.1.trans key.2.symm, key.2⟩

/-- Witness of C27 in the middle of a collapse: one record, one saved text, counter 1. -/
theorem history_lengths_agree_witness :
    Sys.Reachable anyTime crashingSys ∧ crashingSys.store.collapseCount = 1 ∧
    (crashingSys.store.crashHistory.length = crashingSys.store.codeHistory.length ∧
      crashingSys.store.codeHistory.length = crashingSys.store.collapseCount) :=
  ⟨crashingSys_reachable anyTime, rfl,
    history_lengths_agree crashingSys (crashingSys_reachable anyTime)⟩

/-! ## What a match consumes -/

/-- A successful run hands its continuation a position further down the input: the
characters consumed in between are a prefix of the input, at least `minLength` long. -/
theorem run_sound {α : Type} (re : Re) :
    ∀ (s : MatchState) (k : MatchState → Option α) (a : α), re.run s k = some a →
      ∃ (s1 : MatchState) (w : List Char), k s1 = some a ∧ s.rest = w ++ s1.rest ∧
        s1.consumed = w.reverse ++ s.consumed ∧ re.minLength ≤ w.length := by
  induction re with
  | lit cs =>
    intro s k a h
    simp only [Re.run] at h
    split at h
    · rename_i hp
      obtain ⟨t, ht⟩ := List.isPrefixOf_iff_prefix.mp hp
      obtain ⟨h1, h2, _⟩ := advance_append s cs t ht.symm
      exact ⟨s.advance cs.length, cs, h, by rw [h1]; exact ht.symm, h2, le_refl _⟩
    · cases h
  | cls p =>
    intro s k a h
    simp only [Re.run] at h
    split at h
    · rename_i c t hr
      split at h
      · obtain ⟨h1, h2, _⟩ := advance_append s [c] t hr
        simp only [List.length_singleton] at h1 h2
        exact ⟨s.advance 1, [c], h, by rw [h1]; exact hr, h2, le_refl _⟩
      · cases h
    · cases h
  | rep greedy min p =>
    intro s k a h
    simp only [Re.run] at h
    obtain ⟨j, hj, hk⟩ := List.exists_of_findSome?_eq_some h
    have hjb : min ≤ j ∧ j ≤ (s.rest.takeWhile p).length := by
      unfold repCounts at hj
      split at hj
      · rw [List.mem_reverse, List.mem_range'_1] at hj; omega
      · rw [List.mem_range'_1] at hj; omega
    have hlen : (s.rest.takeWhile p).length ≤ s.rest.length :=
      (List.takeWhile_sublist p).length_le
    have hw : (s.rest.take j).length = j := by rw [List.length_take]; omega
    obtain ⟨h1, h2, _⟩ := advance_append s (s.rest.take j) (s.rest.drop j)
      (List.take_append_drop j s.rest).symm
    rw [hw] at h1 h2
    exact ⟨s.advance j, s.rest.take j, hk, by rw [h1, List.take_append_drop], h2,
      by rw [hw]; exact hjb.1⟩
  | cap r ih =>
    intro s k a h
    rw [run_cap] at h
    obtain ⟨s1, w, h1, h2, h3, h4⟩ := ih s _ a h
    exact ⟨_, w, h1, h2, h3, h4⟩
  | seq x y ihx ihy =>
    intro s k a h
    rw [run_seq] at h
    obtain ⟨s1, w1, h1, h2, h3, h4⟩ := ihx s _ a h
    obtain ⟨s2, w2, g1, g2, g3, g4⟩ := ihy s1 k a h1
    refine ⟨s2, w1 ++ w2, g1, ?_, ?_, ?_⟩
    · rw [h2, g2, List.append_assoc]
    · rw [g3, h3, List.reverse_append, List.append_assoc]
    · rw [List.length_append]; exact Nat.add_le_add h4 g4
  | alt x y ihx ihy =>
    intro s k a h
    simp only [Re.run] at h
    split at h
    · rename_i b hb
      cases h
      obtain ⟨s1, w, h1, h2, h3, h4⟩ := ihx s k _ hb
      exact ⟨s1, w, h1, h2, h3, le_trans (Nat.min_le_left _ _) h4⟩
    · obtain ⟨s1, w, h1, h2, h3, h4⟩ := ihy s k a h
      exact ⟨s1, w, h1, h2, h3, le_trans (Nat.min_le_right _ _) h4⟩
  | wordB =>
    intro s k a h
    simp only [Re.run] at h
    split at h
    · exact ⟨s, [], h, rfl, rfl, Nat.zero_le _⟩
    · cases h
  | bol =>
    intro s k a h
    simp only [Re.run] at h
    split at h
    · exact ⟨s, [], h, rfl, rfl, Nat.zero_le _⟩
    · cases h

/-- The text of a match is a prefix of the input at the position of the attempt. -/
theorem matchAt_sound (re : Re) (prev : Option Char) (rest : List Char) (r : MatchResult)
    (h : re.matchAt prev rest = some r) :
    ∃ t, rest = r.matched ++ t ∧ re.minLength ≤ r.matched.length := by
  obtain ⟨s1, w, h1, h2, h3, h4⟩ := run_sound re _ _ _ h
  simp only [MatchState.accept, Option.some.injEq] at h1
  subst h1
  simp only at h2 h3 ⊢
  rw [h3]
  simp only [List.append_nil, List.reverse_reverse]
  exact ⟨s1.rest, h2, h4⟩

/-- The segments of a scan spell the text again, when no match is empty. -/
theorem scan_source (re : Re) (hmin : 1 ≤ re.minLength) (text : List Char) :
    ∀ (prev : Option Char) (skip offset : Nat), skip ≤ text.length →
      ((re.scan prev text skip offset).map Segment.source).flatten = text.drop skip := by
  induction text with
  | nil => intro prev skip offset h; cases skip <;> simp [Re.scan]
  | cons c cs ih =>
    intro prev skip offset h
    cases skip with
    | succ n =>
      simp only [Re.scan, List.drop_succ_cons]
      exact ih _ _ _ (by simpa using h)
    | zero =>
      unfold Re.scan
      split
      · rename_i r hr
        obtain ⟨t, ht, hl⟩ := matchAt_sound re prev (c :: cs) r hr
        have hpos : 1 ≤ r.matched.length := le_trans hmin hl
        have hlen : r.matched.length - 1 ≤ cs.length := by
          have := congrArg List.length ht
          simp only [List.length_cons, List.length_append] at this
          omega
        simp only [List.map_cons, List.flatten_cons, Segment.source, List.drop_zero]
        rw [ih _ _ _ hlen]
        have hd : (c :: cs).drop r.matched.length = t := by
          rw [ht, List.drop_left]
        have hd2 : cs.drop (r.matched.length - 1) = t := by
          rw [← hd]
          obtain ⟨m, hm⟩ : ∃ m, r.matched.length = m + 1 := ⟨r.matched.length - 1, by omega⟩
          rw [hm]; simp
        rw [hd2]; exact ht.symm
      · simp only [List.map_cons, List.flatten_cons, Segment.source, List.drop_zero]
        rw [ih _ _ _ (Nat.zero_le _)]
        simp

/-- A callback that returns the match leaves the text as it is. -/
theorem replaceSegments_id {σ : Type} (f : σ → Nat → MatchResult → List Char × σ)
    (Inv : σ → Prop)
    (hf : ∀ st o r, Inv st → (f st o r).1 = r.matched ∧ Inv (f st o r).2)
    (segs : List Segment) :
    ∀ st, Inv st → (replaceSegments f st segs).1 = segs.map Segment.source ∧
      Inv (replaceSegments f st segs).2 := by
  induction segs with
  | nil => intro st h; exact ⟨rfl, h⟩
  | cons seg rest ih =>
    intro st h
    cases seg with
    | gap c =>
      obtain ⟨h1, h2⟩ := ih st h
      exact ⟨by simp [replaceSegments, h1, Segment.source], h2⟩
    | hit o r =>
      obtain ⟨g1, g2⟩ := hf st o r h
      obtain ⟨h1, h2⟩ := ih _ g2
      exact ⟨by simp [replaceSegments, h1, g1, Segment.source], h2⟩

theorem replaceAll_id {σ : Type} (re : Re) (hmin : 1 ≤ re.minLength)
    (f : σ → Nat → MatchResult → List Char × σ) (Inv : σ → Prop)
    (hf : ∀ st o r, Inv st → (f st o r).1 = r.matched ∧ Inv (f st o r).2)
    (st : σ) (h : Inv st) (text : List Char) :
    (re.replaceAll f st text).1 = text ∧ Inv (re.replaceAll f st text).2 := by
  obtain ⟨h1, h2⟩ := replaceSegments_id f Inv hf (re.scan none text 0 0) st h
  refine ⟨?_, h2⟩
  show (replaceSegments f st (re.scan none text 0 0)).1.flatten = text
  rw [h1, scan_source re hmin text none 0 0 (Nat.zero_le _)]
  rfl

/-! ## The stages that work line by line -/

theorem leadingWhitespace_eq (line : List Char) :
    leadingWhitespace line = line.takeWhile isWhiteSpace := by
  have hm : leadingSpacePattern.matchAt none line =
      some ⟨line.take (line.takeWhile isWhiteSpace).length, []⟩ := by
    unfold Re.matchAt leadingSpacePattern
    rw [run_seq]
    simp only [Re.run, Option.isNone_none, if_true]
    exact run_rep_greedy isWhiteSpace 0 _ _ _ _ (Nat.zero_le _) (le_refl _)
      (fun j h1 h2 => by omega) (by simp [MatchState.accept, MatchState.advance])
  have hs := search_of_matchAt _ _ _ _ hm
  simp only [leadingWhitespace, hs]
  have hp : line.takeWhile isWhiteSpace <+: line := List.takeWhile_prefix isWhiteSpace
  exact (List.prefix_iff_eq_take.mp hp).symm

theorem pushLines_inserts (f : Rng → List Char → List (List Char) × Rng)
    (P : List Char → List (List Char) → Prop)
    (hf : ∀ g line, ∃ ins, (f g line).1 = line :: ins ∧ P line ins)
    (lines : List (List Char)) :
    ∀ g : Rng, ∃ inserts, List.Forall₂ P lines inserts ∧
      (pushLines f g lines).1 = withInserted lines inserts := by
  induction lines with
  | nil => intro g; exact ⟨[], List.Forall₂.nil, rfl⟩
  | cons line rest ih =>
    intro g
    obtain ⟨ins, h1, h2⟩ := hf g line
    obtain ⟨inserts, h3, h4⟩ := ih (f g line).2
    refine ⟨ins :: inserts, List.Forall₂.cons h2 h3, ?_⟩
    simp [pushLines, withInserted, h1, h4]

theorem withInserted_no_newline (lines : List (List Char)) :
    ∀ inserts : List (List (List Char)), (∀ l ∈ lines, '\n' ∉ l) →
      (∀ ins ∈ inserts, ∀ l ∈ ins, '\n' ∉ l) → ∀ l ∈ withInserted lines inserts, '\n' ∉ l := by
  induction lines with
  | nil => intro inserts _ _ l hl; simp [withInserted] at hl
  | cons line rest ih =>
    intro inserts h1 h2 l hl
    cases inserts with
    | nil => simp [withInserted] at hl
    | cons ins inserts =>
      simp only [withInserted, List.zipWith_cons_cons, List.flatten_cons, List.cons_append,
        List.mem_cons, List.mem_append] at hl
      rcases hl with h | h | h
      · rw [h]; exact h1 line (List.mem_cons_self _ _)
      · exact h2 ins (List.mem_cons_self _ _) l h
      · exact ih inserts (fun x hx => h1 x (List.mem_cons_of_mem _ hx))
          (fun x hx => h2 x (List.mem_cons_of_mem _ hx)) l h

theorem withInserted_ne_nil (lines : List (List Char)) (inserts : List (List (List Char)))
    (hne : lines ≠ []) (hlen : lines.length = inserts.length) :
    withInserted lines inserts ≠ [] := by
  cases lines with
  | nil => exact absurd rfl hne
  | cons line rest =>
    cases inserts with
    | nil => simp at hlen
    | cons ins inserts => simp [withInserted]

/-- The lines of the joined output of a line-pushing stage are the pushed lines. -/
theorem splitLines_pushed (text : List Char) (inserts : List (List (List Char)))
    (hlen : (splitLines text).length = inserts.length)
    (hins : ∀ ins ∈ inserts, ∀ l ∈ ins, '\n' ∉ l) :
    splitLines (joinLines (withInserted (splitLines text) inserts)) =
      withInserted (splitLines text) inserts :=
  splitLines_joinLines _
    (withInserted_ne_nil _ _ (splitNewlineAux_ne_nil text []) hlen)
    (withInserted_no_newline _ _ (splitNewlineAux_no_newline text [] (by simp)) hins)

theorem blankAfter_spec (g : Rng) (line : List Char) :
    ∃ ins, (blankAfter g line).1 = line :: ins ∧ (ins = [] ∨ (ins = [[]] ∧ trim line ≠ [])) := by
  unfold blankAfter
  by_cases h : g.next.1.val < 15 / 100 ∧ trim line ≠ []
  · exact ⟨[[]], by rw [if_pos h], Or.inr ⟨rfl, h.2⟩⟩
  · exact ⟨[], by rw [if_neg h], Or.inl rfl⟩

theorem startsWith_def_class (t : List Char) (h1 : "def ".data.isPrefixOf t = true)
    (h2 : "class ".data.isPrefixOf t = true) : False := by
  cases t with
  | nil => simp [List.isPrefixOf] at h1
  | cons c t =>
    simp only [List.isPrefixOf, Bool.and_eq_true, beq_iff_eq] at h1 h2
    have := h1.1.trans h2.1.symm
    revert this; decide

/-- What stage 3 may insert after a line. -/
theorem injectAfter_spec (kw : List Char) (chance : ℚ) (g : Rng) (line : List Char) :
    (injectAfter kw chance g line).1 = [] ∨
      (kw.isPrefixOf (trim line) = true ∧ ∃ quote ∈ chaosQuotes,
        (injectAfter kw chance g line).1 =
          [leadingWhitespace line ++ "    ".data ++ quote.data]) := by
  unfold injectAfter
  by_cases hk : kw.isPrefixOf (trim line) = true
  · simp only [hk, if_true]
    by_cases hd : g.next.1.val < chance
    · simp only [hd, if_true]
      exact Or.inr ⟨trivial, _, List.get_mem _ _ _, rfl⟩
    · simp only [hd, if_false]
      exact Or.inl trivial
  · simp only [hk, Bool.false_eq_true, if_false]
    exact Or.inl trivial

theorem forall₂_right {α β : Type} {P : α → β → Prop} {Q : α → Prop} {R : β → Prop}
    {xs : List α} {ys : List β} (h : List.Forall₂ P xs ys) (hq : ∀ x ∈ xs, Q x)
    (hr : ∀ x y, P x y → Q x → R y) : ∀ y ∈ ys, R y := by
  induction h with
  | nil => intro y hy; cases hy
  | cons hxy _ ih =>
    intro y hy
    rcases List.mem_cons.mp hy with h1 | h1
    · rw [h1]; exact hr _ _ hxy (hq _ (List.mem_cons_self _ _))
    · exact ih (fun x hx => hq x (List.mem_cons_of_mem _ hx)) y h1

theorem injectLine_spec (g : Rng) (line : List Char) :
    ∃ ins, (injectLine g line).1 = line :: ins ∧ CommentSpec line ins := by
  refine ⟨_, rfl, ?_⟩
  have ha := injectAfter_spec "def ".data (6 / 10) g line
  have hb := injectAfter_spec "class ".data (4 / 10)
    (injectAfter "def ".data (6 / 10) g line).2 line
  rw [leadingWhitespace_eq] at ha hb
  rcases ha with ha | ⟨ha1, q, hq, ha2⟩
  · rcases hb with hb | ⟨hb1, q, hq, hb2⟩
    · left; rw [ha, hb]; rfl
    · right; exact ⟨Or.inr hb1, q, hq, by rw [ha, hb2]; rfl⟩
  · rcases hb with hb | ⟨hb1, _, _, _⟩
    · right; exact ⟨Or.inl ha1, q, hq, by rw [ha2, hb]; rfl⟩
    · exact absurd hb1 (fun h => startsWith_def_class _ ha1 h)

theorem commentSpec_no_newline (line : List Char) (ins : List (List Char))
    (h : CommentSpec line ins) (hl : '\n' ∉ line) : ∀ l ∈ ins, '\n' ∉ l := by
  intro l hmem
  rcases h with h | ⟨_, q, hq, h⟩
  · rw [h] at hmem; cases hmem
  · rw [h, List.mem_singleton] at hmem
    rw [hmem]
    have hquote : ∀ q ∈ chaosQuotes, '\n' ∉ q.data := by decide
    intro hin
    rcases List.mem_append.mp hin with h1 | h1
    · rcases List.mem_append.mp h1 with h2 | h2
      · exact hl ((List.takeWhile_sublist isWhiteSpace).subset h2)
      · revert h2; decide
    · exact hquote q hq h1

theorem stageComments_lines (g : Rng) (text : List Char) :
    ∃ inserts, List.Forall₂ CommentSpec (splitLines text) inserts ∧
      splitLines (stageComments g text).1 = withInserted (splitLines text) inserts := by
  obtain ⟨inserts, h1, h2⟩ :=
    pushLines_inserts injectLine CommentSpec injectLine_spec (splitLines text) g
  refine ⟨inserts, h1, ?_⟩
  simp only [stageComments, h2]
  exact splitLines_pushed text inserts h1.length_eq
    (forall₂_right h1 (splitNewlineAux_no_newline text [] (by simp))
      (fun line ins h hl => commentSpec_no_newline line ins h hl))

theorem stageBlankLines_lines (g : Rng) (text : List Char) (hgate : g.next.1.val < 2 / 10) :
    ∃ inserts,
      List.Forall₂ (fun line ins => ins = [] ∨ (ins = [[]] ∧ trim line ≠ []))
        (splitLines text) inserts ∧
      splitLines (stageBlankLines g text).1 = withInserted (splitLines text) inserts := by
  obtain ⟨inserts, h1, h2⟩ :=
    pushLines_inserts blankAfter (fun line ins => ins = [] ∨ (ins = [[]] ∧ trim line ≠ []))
      blankAfter_spec (splitLines text) g.next.2
  refine ⟨inserts, h1, ?_⟩
  simp only [stageBlankLines, hgate, if_true, h2]
  have hq : ∀ line ∈ splitLines text, True := fun _ _ => trivial
  have hr : ∀ (line : List Char) (ins : List (List Char)),
      (ins = [] ∨ (ins = [[]] ∧ trim line ≠ [])) → True → ∀ l ∈ ins, '\n' ∉ l := by
    intro line ins h _ l hl
    rcases h with h | ⟨h, _⟩
    · rw [h] at hl; cases hl
    · rw [h, List.mem_singleton] at hl; rw [hl]; simp
  exact splitLines_pushed text inserts h1.length_eq (forall₂_right h1 hq hr)

theorem mapLines_forall₂ (f : Rng → List Char → List Char × Rng)
    (P : List Char → List Char → Prop) (hf : ∀ g line, P line (f g line).1)
    (lines : List (List Char)) :
    ∀ g : Rng, List.Forall₂ P lines (mapLines f g lines).1 := by
  induction lines with
  | nil => intro g; exact List.Forall₂.nil
  | cons line rest ih => intro g; exact List.Forall₂.cons (hf g line) (ih _)

theorem afterIndent_reindent (k : Nat) (line : List Char) :
    afterIndent (List.replicate k ' ' ++ trim line) = trim line := by
  unfold afterIndent
  induction k with
  | zero =>
    simp only [List.replicate_zero, List.nil_append]
    cases h : trim line with
    | nil => rfl
    | cons c t =>
      have := trim_head line c (by rw [h]; rfl)
      simp [List.dropWhile_cons, this]
  | succ k ih =>
    rw [List.replicate_succ, List.cons_append, List.dropWhile_cons]
    have : isWhiteSpace ' ' = true := by decide
    simp only [this, if_true]
    exact ih

theorem jitterLine_frame (g : Rng) (line : List Char) :
    (jitterLine g line).1 = line ∨
      (1 ≤ leadingSpaces line ∧ ∃ k, (jitterLine g line).1 = List.replicate k ' ' ++ trim line) := by
  unfold jitterLine
  by_cases hn : leadingSpaces line = 0
  · left; simp only [hn, if_true]
  · by_cases hd : g.next.1.val < 3 / 10
    · right
      simp only [hn, hd, if_true, if_false]
      exact ⟨Nat.pos_of_ne_zero hn, _, rfl⟩
    · left; simp only [hn, hd, if_false]

/-- C23: when stage 8 is active (its gate draw is below `0.2`), the lines of the output
are the lines of the input, unchanged and in order, each followed by nothing or by one
empty line, and an empty line is inserted only after a line that is not blank. -/
theorem blank_lines_inserted (g : Rng) (text : List Char) (hgate : g.next.1.val < 2 / 10) :
    ∃ inserts : List (List (List Char)),
      List.Forall₂ (fun line ins => ins = [] ∨ (ins = [[]] ∧ trim line ≠ []))
        (splitLines text) inserts ∧
      splitLines (stageBlankLines g text).1 = withInserted (splitLines text) inserts :=
  stageBlankLines_lines g text hgate

/-- Witness of C23 on a three-line text whose middle line is blank. -/
theorem blank_lines_inserted_witness :
    ∃ inserts : List (List (List Char)),
      List.Forall₂ (fun line ins => ins = [] ∨ (ins = [[]] ∧ trim line ≠ []))
        (splitLines "a\n \nb".data) inserts ∧
      splitLines (stageBlankLines tenthStream "a\n \nb".data).1 =
        withInserted (splitLines "a\n \nb".data) inserts :=
  blank_lines_inserted tenthStream "a\n \nb".data
    (by norm_num [tenthStream, Rng.next, Rng.const, drawOf])

/-- C24: the lines of the output of stage 3 are the lines of the input, unchanged and in
order, each followed by nothing or by one inserted line; a line is inserted only after a
line whose trimmed content starts with `def ` or `class `, and it is that line's leading
whitespace, four spaces and one of the 14 entries of `chaosQuotes`. -/
theorem comment_injection (g : Rng) (text : List Char) :
    chaosQuotes.length = 14 ∧
    ∃ inserts : List (List (List Char)),
      List.Forall₂
        (fun line ins => ins = [] ∨
          (("def ".data.isPrefixOf (trim line) = true ∨
              "class ".data.isPrefixOf (trim line) = true) ∧
            ∃ quote ∈ chaosQuotes,
              ins = [line.takeWhile isWhiteSpace ++ "    ".data ++ quote.data]))
        (splitLines text) inserts ∧
      splitLines (stageComments g text).1 = withInserted (splitLines text) inserts :=
  ⟨rfl, stageComments_lines g text⟩

/-- C28 (counterexample): the line `  x  ` is jittered to ` x`: the part after the leading
whitespace was `x  ` and is `x`, the trailing whitespace is gone. -/
theorem indent_jitter_trailing_counterexample :
    (stageIndent tenthStream "  x  ".data).1 = " x".data ∧
    afterIndent "  x  ".data = "x  ".data ∧ afterIndent " x".data = "x".data := by
  decide!

/-- C28 (amended): stage 6 returns a line unchanged or, when it jitters it, as a run of
spaces followed by the trimmed line: the part of the output line after its leading
whitespace is the part of the input line after its leading whitespace, without its
trailing whitespace. -/
theorem indent_jitter_frame (g : Rng) (text : List Char) :
    List.Forall₂
      (fun line out => out = line ∨
        (1 ≤ leadingSpaces line ∧ (∃ k, out = List.replicate k ' ' ++ afterIndent out) ∧
          afterIndent out = stripTrailing (afterIndent line)))
      (splitLines text) (splitLines (stageIndent g text).1) := by
  rw [stageIndent_lines]
  apply mapLines_forall₂
  intro g line
  rcases jitterLine_frame g line with h | ⟨h1, k, h2⟩
  · exact Or.inl h
  · right
    have h3 : afterIndent (jitterLine g line).1 = trim line := by
      rw [h2]; exact afterIndent_reindent k line
    exact ⟨h1, ⟨k, by rw [h3]; exact h2⟩, h3⟩

/-! ## Stage 7: spacing around operators -/

theorem matchAt_cap_cls (p : Char → Bool) (prev : Option Char) (c : Char) (cs : List Char) :
    (Re.cap (.cls p)).matchAt prev (c :: cs) = if p c then some ⟨[c], [[c]]⟩ else none := by
  by_cases h : p c = true
  · simp [Re.matchAt, Re.run, MatchState.accept, MatchState.advance, h]
  · simp [Re.matchAt, Re.run, h]

theorem respace_mem (g : Rng) (o : Nat) (c : Char) (caps : List (List Char)) :
    (respace g o ⟨[c], caps⟩).1 ∈ spacingVariants c := by
  unfold respace spacingVariants
  exact List.get_mem _ _ _

/-- The pieces stage 7 writes, one per character of the text. -/
theorem respace_pieces (text : List Char) :
    ∀ (g : Rng) (prev : Option Char) (offset : Nat),
      List.Forall₂
        (fun c piece => (isOperator c = true → piece ∈ spacingVariants c) ∧
          (isOperator c = false → piece = [c]))
        text
        (replaceSegments respace g ((Re.cap (.cls isOperator)).scan prev text 0 offset)).1 := by
  induction text with
  | nil => intro g prev offset; exact List.Forall₂.nil
  | cons c cs ih =>
    intro g prev offset
    by_cases h : isOperator c = true
    · simp only [Re.scan, matchAt_cap_cls, h, if_true, List.length_singleton, Nat.sub_self,
        replaceSegments]
      exact List.Forall₂.cons ⟨fun _ => respace_mem g offset c _, fun h2 => by rw [h] at h2; cases h2⟩
        (ih _ _ _)
    · simp only [Re.scan, matchAt_cap_cls, h, if_false, replaceSegments, Bool.false_eq_true]
      exact List.Forall₂.cons ⟨fun h2 => absurd h2 h, fun _ => rfl⟩ (ih _ _ _)

theorem variant_filter (c : Char) (hc : isOperator c = true) :
    ∀ piece ∈ spacingVariants c, piece.filter (fun x => x != ' ') = [c] := by
  have hne : (c != ' ') = true := by
    simp only [bne_iff_ne, ne_eq]
    intro h; rw [h] at hc; revert hc; decide
  intro piece hp
  simp only [spacingVariants, List.mem_cons, List.mem_singleton, List.not_mem_nil, or_false] at hp
  rcases hp with h | h | h | h | h <;> rw [h] <;> simp [List.filter, hne]

theorem pieces_filter (text : List Char) (pieces : List (List Char))
    (h : List.Forall₂
      (fun c piece => (isOperator c = true → piece ∈ spacingVariants c) ∧
        (isOperator c = false → piece = [c])) text pieces) :
    pieces.flatten.filter (fun x => x != ' ') = text.filter (fun x => x != ' ') := by
  induction h with
  | nil => rfl
  | @cons c piece cs ps hcp _ ih =>
    rw [List.flatten_cons, List.filter_append, ih]
    by_cases hc : isOperator c = true
    · rw [variant_filter c hc piece (hcp.1 hc)]
      have hne : (c != ' ') = true := by
        simp only [bne_iff_ne, ne_eq]
        intro h; rw [h] at hc; revert hc; decide
      simp [List.filter_cons, hne]
    · rw [hcp.2 (by simpa using hc)]
      simp only [List.filter_cons, List.filter_nil]
      split <;> rfl

/-- C22: when stage 7 is active (its gate draw is below `0.35`), the output is the
concatenation of one piece per character of the input: an operator character `o` gives one
of ` o `, `  o  `, `o`, ` o`, `o `, any other character gives itself. Hence the input and
the output agree once every space is deleted, and each operator character occurs equally
often in both. -/
theorem operator_spacing (g : Rng) (text : List Char) (hgate : g.next.1.val < 35 / 100) :
    ∃ pieces : List (List Char),
      (stageSpacing g text).1 = pieces.flatten ∧
      List.Forall₂
        (fun c piece => (isOperator c = true → piece ∈ spacingVariants c) ∧
          (isOperator c = false → piece = [c])) text pieces ∧
      (stageSpacing g text).1.filter (fun x => x != ' ') = text.filter (fun x => x != ' ') ∧
      ∀ c, isOperator c = true → (stageSpacing g text).1.count c = text.count c := by
  have hp := respace_pieces text g.next.2 none 0
  have hout : (stageSpacing g text).1 =
      (replaceSegments respace g.next.2
        ((Re.cap (.cls isOperator)).scan none text 0 0)).1.flatten := by
    simp only [stageSpacing, hgate, if_true, Re.replaceAll]
  have hf := pieces_filter text _ hp
  refine ⟨_, hout, hp, by rw [hout]; exact hf, ?_⟩
  intro c hc
  have hne : (c != ' ') = true := by
    simp only [bne_iff_ne, ne_eq]
    intro h; rw [h] at hc; revert hc; decide
  have h1 : List.count c (List.filter (fun x => x != ' ') (stageSpacing g text).1) =
      List.count c (stageSpacing g text).1 := List.count_filter hne
  have h2 : List.count c (List.filter (fun x => x != ' ') text) = List.count c text :=
    List.count_filter hne
  rw [← h1, ← h2, hout, hf]

/-- Witness of C22 on `a=b+1` with every draw `0.1`: each operator gets one space on
each side. -/
theorem operator_spacing_witness :
    ∃ pieces : List (List Char),
      (stageSpacing tenthStream "a=b+1".data).1 = pieces.flatten ∧
      List.Forall₂
        (fun c piece => (isOperator c = true → piece ∈ spacingVariants c) ∧
          (isOperator c = false → piece = [c])) "a=b+1".data pieces ∧
      (stageSpacing tenthStream "a=b+1".data).1.filter (fun x => x != ' ') =
        "a=b+1".data.filter (fun x => x != ' ') ∧
      ∀ c, isOperator c = true →
        (stageSpacing tenthStream "a=b+1".data).1.count c = "a=b+1".data.count c :=
  operator_spacing tenthStream "a=b+1".data
    (by norm_num [tenthStream, Rng.next, Rng.const, drawOf])

/-! ## Stage 5: string quotes -/

theorem takeWhile_split (p : Char → Bool) (r : List Char) :
    r = r.takeWhile p ++ r.dropWhile p := (List.takeWhile_append_dropWhile p r).symm

/-- At an opening quote that has a closing quote, the quote pattern matches up to the
next quote. -/
theorem quotePattern_matchAt (prev : Option Char) (w t : List Char)
    (hw : ∀ c ∈ w, c ≠ '\'') :
    quotePattern.matchAt prev ('\'' :: (w ++ '\'' :: t)) = some ⟨'\'' :: (w ++ ['\'']), [w]⟩ := by
  have htw : (w ++ '\'' :: t).takeWhile (fun c => c != '\'') = w :=
    takeWhile_append_stop _ w _ (fun c hc => by simpa using hw c hc)
      (fun c hc => by cases hc; rfl)
  unfold Re.matchAt quotePattern
  rw [run_seq, run_lit ['\''] _ _ (w ++ '\'' :: t) rfl, run_seq, run_cap]
  apply run_rep_greedy _ 0 w.length _ _ _ (Nat.zero_le _)
  · simp only [MatchState.advance, List.length_singleton, List.take, List.drop]
    rw [htw]
  · intro j h1 h2
    simp only [MatchState.advance, List.length_singleton, List.take, List.drop] at h2
    rw [htw] at h2
    omega
  · simp [Re.run, MatchState.advance, MatchState.accept, List.isPrefixOf]

/-- Without a closing quote the quote pattern does not match. -/
theorem quotePattern_matchAt_open (prev : Option Char) (w : List Char)
    (hw : ∀ c ∈ w, c ≠ '\'') : quotePattern.matchAt prev ('\'' :: w) = none := by
  unfold Re.matchAt quotePattern
  rw [run_seq, run_lit ['\''] _ _ w rfl, run_seq, run_cap]
  apply run_rep_none
  intro j _
  simp only [MatchState.advance, List.length_singleton, List.take, List.drop]
  cases hd : w.drop j with
  | nil => simp [Re.run, List.isPrefixOf, hd]
  | cons c rest =>
    have hc : c ≠ '\'' := hw c (List.mem_of_mem_drop (by rw [hd]; exact List.mem_cons_self _ _))
    simp [Re.run, List.isPrefixOf, hd, Ne.symm hc]

/-- At a character that is not a quote the quote pattern does not match. -/
theorem quotePattern_matchAt_other (prev : Option Char) (c : Char) (cs : List Char)
    (hc : c ≠ '\'') : quotePattern.matchAt prev (c :: cs) = none := by
  unfold Re.matchAt quotePattern
  exact run_lit_head_fail _ _ _ _ _ (fun x hx => by cases hx; exact hc)

/-- A scan that still has characters to step over goes on behind them. -/
theorem scan_skip (re : Re) (text : List Char) :
    ∀ (prev : Option Char) (skip offset : Nat), skip ≤ text.length →
      ∃ prev1, re.scan prev text skip offset = re.scan prev1 (text.drop skip) 0 (offset + skip) := by
  induction text with
  | nil => intro prev skip offset h; exact ⟨prev, by cases skip <;> simp [Re.scan]⟩
  | cons c cs ih =>
    intro prev skip offset h
    cases skip with
    | zero => exact ⟨prev, rfl⟩
    | succ n =>
      obtain ⟨p1, hp⟩ := ih (some c) n (offset + 1) (by simpa using h)
      refine ⟨p1, ?_⟩
      simp only [Re.scan, List.drop_succ_cons]
      rw [hp]
      congr 1
      omega

theorem flipFirst_cons_other (k : Nat) (c : Char) (cs : List Char) (hc : c ≠ '\'') :
    flipFirst k (c :: cs) = c :: flipFirst k cs := by
  cases k with
  | zero => simp [flipFirst]
  | succ k => simp [flipFirst, hc]

theorem flipFirst_append_other (k : Nat) (w t : List Char) (hw : ∀ c ∈ w, c ≠ '\'') :
    flipFirst k (w ++ t) = w ++ flipFirst k t := by
  induction w with
  | nil => rfl
  | cons c w ih =>
    rw [List.cons_append, flipFirst_cons_other _ _ _ (hw c (List.mem_cons_self _ _)),
      ih (fun x hx => hw x (List.mem_cons_of_mem _ hx))]
    rfl

theorem count_other (w : List Char) (hw : ∀ c ∈ w, c ≠ '\'') : w.count '\'' = 0 :=
  List.count_eq_zero.mpr (fun h => hw _ h rfl)

/-- The output of the quote replacement on any text: the quotes of each successive pair
are turned into double quotes. -/
theorem requote_flatten (n : Nat) :
    ∀ (text : List Char), text.length ≤ n → ∀ (prev : Option Char) (offset : Nat),
      (replaceSegments requote () (quotePattern.scan prev text 0 offset)).1.flatten =
        flipFirst (2 * (text.count '\'' / 2)) text := by
  induction n with
  | zero =>
    intro text h prev offset
    have : text = [] := List.length_eq_zero.mp (Nat.le_zero.mp h)
    subst this; rfl
  | succ n ih =>
    intro text h prev offset
    cases text with
    | nil => rfl
    | cons c cs =>
      have hcs : cs.length ≤ n := by simpa using h
      by_cases hc : c = '\''
      · subst hc
        have hsplit := takeWhile_split (fun c => c != '\'') cs
        have hw : ∀ x ∈ cs.takeWhile (fun c => c != '\''), x ≠ '\'' := by
          intro x hx
          simpa using List.mem_takeWhile_imp hx
        cases hd : cs.dropWhile (fun c => c != '\'') with
        | nil =>
          rw [hd, List.append_nil] at hsplit
          have hw2 : ∀ x ∈ cs, x ≠ '\'' := by rw [hsplit]; exact hw
          have hcount : ('\'' :: cs).count '\'' = 1 := by
            rw [List.count_cons_self, count_other cs hw2]
          rw [hcount]
          simp only [Nat.reduceDiv, Nat.mul_zero, flipFirst, Re.scan,
            quotePattern_matchAt_open prev cs hw2, replaceSegments, List.flatten_cons]
          have := ih cs hcs (some '\'') (offset + 1)
          rw [count_other cs hw2] at this
          simp only [Nat.zero_div, Nat.mul_zero, flipFirst] at this
          rw [this]; rfl
        | cons q t =>
          have hq : q = '\'' := by
            have := List.head_dropWhile_not (fun c => c != '\'') cs
              (by rw [hd]; exact List.cons_ne_nil _ _)
            simp only [hd, List.head_cons, bne_iff_ne, ne_eq, Bool.not_eq_true,
              bne_eq_false_iff_eq] at this
            exact this
          subst hq
          rw [hd] at hsplit
          generalize cs.takeWhile (fun c => c != '\'') = w at hsplit hw
          subst hsplit
          have hlen : t.length ≤ n := by
            simp only [List.length_append, List.length_cons] at hcs; omega
          have hcount : ('\'' :: (w ++ '\'' :: t)).count '\'' = t.count '\'' + 2 := by
            rw [List.count_cons_self, List.count_append, count_other w hw, List.count_cons_self]
            omega
          have hk : 2 * ((t.count '\'' + 2) / 2) = 2 * (t.count '\'' / 2) + 1 + 1 := by omega
          rw [hcount, hk]
          simp only [Re.scan, quotePattern_matchAt prev w t hw, replaceSegments,
            List.flatten_cons]
          have hL : ('\'' :: (w ++ ['\''])).length - 1 = w.length + 1 := by simp
          rw [hL]
          obtain ⟨p1, hp⟩ := scan_skip quotePattern (w ++ '\'' :: t) (some '\'')
            (w.length + 1) (offset + 1) (by simp)
          rw [hp]
          have hdrop : (w ++ '\'' :: t).drop (w.length + 1) = t := by
            rw [List.drop_append, List.drop_one]; rfl
          rw [hdrop, ih t hlen]
          simp only [requote, List.getD_cons_zero, flipFirst, if_true]
          rw [flipFirst_append_other _ _ _ hw]
          simp [flipFirst]
      · have hcount : (c :: cs).count '\'' = cs.count '\'' := by
          rw [List.count_cons_of_ne (Ne.symm hc)]
        rw [hcount, flipFirst_cons_other _ _ _ hc]
        simp only [Re.scan, quotePattern_matchAt_other prev c cs hc, replaceSegments,
          List.flatten_cons]
        rw [ih cs hcs]; rfl

theorem flipFirst_length (text : List Char) :
    ∀ k, (flipFirst k text).length = text.length := by
  induction text with
  | nil => intro k; cases k <;> rfl
  | cons c cs ih =>
    intro k
    cases k with
    | zero => rfl
    | succ k =>
      simp only [flipFirst]
      split <;> simp [ih]

theorem flipFirst_getElem? (text : List Char) :
    ∀ (k i : Nat), text[i]? ≠ some '\'' → (flipFirst k text)[i]? = text[i]? := by
  induction text with
  | nil => intro k i _; cases k <;> rfl
  | cons c cs ih =>
    intro k i h
    cases k with
    | zero => rfl
    | succ k =>
      simp only [flipFirst]
      cases i with
      | zero =>
        have hc : c ≠ '\'' := by simpa using h
        simp [hc]
      | succ i =>
        have h2 : cs[i]? ≠ some '\'' := by simpa using h
        split
        · simpa using ih k i h2
        · simpa using ih (k + 1) i h2

theorem flipFirst_count (text : List Char) :
    ∀ k, k ≤ text.count '\'' → (flipFirst k text).count '\'' = text.count '\'' - k := by
  induction text with
  | nil => intro k _; cases k <;> simp [flipFirst]
  | cons c cs ih =>
    intro k hk
    cases k with
    | zero => rfl
    | succ k =>
      simp only [flipFirst]
      by_cases hc : c = '\''
      · subst hc
        rw [List.count_cons_self] at hk ⊢
        simp only [if_true]
        rw [List.count_cons_of_ne (by decide), ih k (by omega)]
        omega
      · rw [List.count_cons_of_ne (Ne.symm hc)] at hk ⊢
        simp only [hc, if_false]
        rw [List.count_cons_of_ne (Ne.symm hc), ih (k + 1) hk]

/-- C21: the quote flip of stage 5 is all or nothing. With a gate draw of at least `0.4`
the text is unchanged. With a gate draw below `0.4` the quotes of every successive pair of
single quotes become double quotes: the output has the length of the input, agrees with it
wherever the input has no single quote, and keeps (number of single quotes mod 2) single
quotes. -/
theorem quote_flip (g : Rng) (text : List Char) :
    (¬ g.next.1.val < 4 / 10 → (stageQuotes g text).1 = text) ∧
    (g.next.1.val < 4 / 10 →
      (stageQuotes g text).1 = flipFirst (2 * (text.count '\'' / 2)) text ∧
      (stageQuotes g text).1.length = text.length ∧
      (∀ i : Nat, text[i]? ≠ some '\'' → (stageQuotes g text).1[i]? = text[i]?) ∧
      (stageQuotes g text).1.count '\'' = text.count '\'' % 2) := by
  constructor
  · intro h
    simp only [stageQuotes, h, if_false]
  · intro h
    have hout : (stageQuotes g text).1 = flipFirst (2 * (text.count '\'' / 2)) text := by
      simp only [stageQuotes, h, if_true, Re.replaceAll]
      exact requote_flatten text.length text (le_refl _) none 0
    refine ⟨hout, ?_, ?_, ?_⟩
    · rw [hout, flipFirst_length]
    · intro i hi
      rw [hout, flipFirst_getElem? text _ i hi]
    · rw [hout, flipFirst_count text _ (by omega)]
      omega

/-- Witness of C21: three single quotes, of which the first two are a pair. -/
theorem quote_flip_witness :
    (stageQuotes lowStream "x = 'a' + 'b".data).1 = "x = \"a\" + 'b".data :=
  ((quote_flip lowStream "x = 'a' + 'b".data).2
    (by norm_num [lowStream, Rng.next, Rng.const, drawOf])).1.trans (by decide)

/-! ## Stage 4: what the loop pattern matches -/

theorem lit_inv {α : Type} (cs : List Char) (s : MatchState) (k : MatchState → Option α)
    (a : α) (h : (Re.lit cs).run s k = some a) :
    ∃ s1, s.After cs s.caps s1 ∧ k s1 = some a := by
  simp only [Re.run] at h
  split at h
  · rename_i hp
    obtain ⟨t, ht⟩ := List.isPrefixOf_iff_prefix.mp hp
    obtain ⟨h1, h2, h3⟩ := advance_append s cs t ht.symm
    exact ⟨s.advance cs.length, ⟨by rw [h1]; exact ht.symm, h2, h3⟩, h⟩
  · cases h

theorem rep_inv {α : Type} (greedy : Bool) (min : Nat) (p : Char → Bool) (s : MatchState)
    (k : MatchState → Option α) (a : α) (h : (Re.rep greedy min p).run s k = some a) :
    ∃ s1 w, s.After w s.caps s1 ∧ min ≤ w.length ∧ (∀ c ∈ w, p c = true) ∧ k s1 = some a := by
  simp only [Re.run] at h
  obtain ⟨j, hj, hk⟩ := List.exists_of_findSome?_eq_some h
  have hjb : min ≤ j ∧ j ≤ (s.rest.takeWhile p).length := by
    unfold repCounts at hj
    split at hj
    · rw [List.mem_reverse, List.mem_range'_1] at hj; omega
    · rw [List.mem_range'_1] at hj; omega
  have hlen : (s.rest.takeWhile p).length ≤ s.rest.length :=
    (List.takeWhile_sublist p).length_le
  have hw : (s.rest.take j).length = j := by rw [List.length_take]; omega
  obtain ⟨h1, h2, h3⟩ := advance_append s (s.rest.take j) (s.rest.drop j)
    (List.take_append_drop j s.rest).symm
  rw [hw] at h1 h2 h3
  refine ⟨s.advance j, s.rest.take j, ⟨by rw [h1, List.take_append_drop], h2, h3⟩,
    by rw [hw]; exact hjb.1, ?_, hk⟩
  intro c hc
  have hpre : s.rest.take j = (s.rest.takeWhile p).take j := by
    have h0 := takeWhile_split p s.rest
    conv_lhs => rw [h0]
    rw [List.take_append_of_le_length hjb.2]
  rw [hpre] at hc
  simpa using List.mem_takeWhile_imp (List.mem_of_mem_take hc)

theorem cap_rep_inv {α : Type} (greedy : Bool) (min : Nat) (p : Char → Bool) (s : MatchState)
    (k : MatchState → Option α) (a : α)
    (h : (Re.cap (.rep greedy min p)).run s k = some a) :
    ∃ s1 w, s.After w (s.caps ++ [w]) s1 ∧ min ≤ w.length ∧ (∀ c ∈ w, p c = true) ∧
      k s1 = some a := by
  rw [run_cap] at h
  obtain ⟨s1, w, ⟨h1, h2, h3⟩, h4, h5, h6⟩ := rep_inv greedy min p s _ a h
  refine ⟨{ s1 with caps := s1.caps ++
      [(s1.consumed.take (s1.consumed.length - s.consumed.length)).reverse] }, w,
    ⟨h1, h2, ?_⟩, h4, h5, h6⟩
  simp [h2, h3]

theorem spaceRun_of (w : List Char) (h1 : 1 ≤ w.length) (h2 : ∀ c ∈ w, isWhiteSpace c = true) :
    SpaceRun w := ⟨List.length_pos.mp h1, h2⟩

/-- Every match of the loop pattern has the shape of a `for ... in range(...):` header. -/
theorem forRangePattern_shape (prev : Option Char) (rest : List Char) (r : MatchResult)
    (h : forRangePattern.matchAt prev rest = some r) : LoopShape r := by
  unfold Re.matchAt forRangePattern at h
  rw [run_seq] at h
  obtain ⟨s1, ⟨_, c1, p1⟩, h⟩ := lit_inv _ _ _ _ h
  rw [run_seq] at h
  obtain ⟨s2, w1, ⟨_, c2, p2⟩, m2, q2, h⟩ := rep_inv _ _ _ _ _ _ h
  rw [run_seq] at h
  obtain ⟨s3, X, ⟨_, c3, p3⟩, m3, q3, h⟩ := cap_rep_inv _ _ _ _ _ _ h
  rw [run_seq] at h
  obtain ⟨s4, w2, ⟨_, c4, p4⟩, m4, q4, h⟩ := rep_inv _ _ _ _ _ _ h
  rw [run_seq] at h
  obtain ⟨s5, ⟨_, c5, p5⟩, h⟩ := lit_inv _ _ _ _ h
  rw [run_seq] at h
  obtain ⟨s6, w3, ⟨_, c6, p6⟩, m6, q6, h⟩ := rep_inv _ _ _ _ _ _ h
  rw [run_seq] at h
  obtain ⟨s7, ⟨_, c7, p7⟩, h⟩ := lit_inv _ _ _ _ h
  rw [run_seq] at h
  obtain ⟨s8, N, ⟨_, c8, p8⟩, m8, q8, h⟩ := cap_rep_inv _ _ _ _ _ _ h
  obtain ⟨s9, ⟨_, c9, p9⟩, h⟩ := lit_inv _ _ _ _ h
  simp only [MatchState.accept, Option.some.injEq] at h
  subst h
  refine ⟨w1, X, w2, w3, N, ?_, ?_, spaceRun_of w1 m2 q2, spaceRun_of w2 m4 q4,
    spaceRun_of w3 m6 q6, ⟨List.length_pos.mp m3, q3⟩, ⟨List.length_pos.mp m8, q8⟩⟩
  · simp only [c9, c8, c7, c6, c5, c4, c3, c2, c1, List.reverse_append, List.reverse_reverse,
      List.append_assoc, List.append_nil]
  · simp only [p9, p8, p7, p6, p5, p4, p3, p2, p1, List.nil_append, List.cons_append]

theorem loop_pieces (segs : List Segment)
    (hsegs : ∀ o r, Segment.hit o r ∈ segs → LoopShape r) :
    ∀ g : Rng, List.Forall₂ LoopPiece segs (replaceSegments whileLoop g segs).1 := by
  induction segs with
  | nil => intro g; exact List.Forall₂.nil
  | cons seg rest ih =>
    intro g
    have hrest : ∀ o r, Segment.hit o r ∈ rest → LoopShape r :=
      fun o r h => hsegs o r (List.mem_cons_of_mem _ h)
    cases seg with
    | gap c => exact List.Forall₂.cons rfl (ih hrest g)
    | hit o r =>
      refine List.Forall₂.cons ⟨hsegs o r (List.mem_cons_self _ _), ?_⟩ (ih hrest _)
      unfold whileLoop
      by_cases hd : g.next.1.val < 3 / 10
      · right; simp only [hd, if_true]; rfl
      · left; simp only [hd, if_false]

/-- C25 (counterexample): a `for` header at indentation 0 is replaced by `i = 0` and a
`while` line indented by four spaces. -/
theorem loop_indentation_counterexample :
    (stageLoops tenthStream "for i in range(3):".data).1 = "i = 0\n    while i < 3:".data ∧
    leadingSpaces "for i in range(3):".data = 0 ∧
    splitLines "i = 0\n    while i < 3:".data = ["i = 0".data, "    while i < 3:".data] ∧
    leadingSpaces "    while i < 3:".data = 4 := by
  decide!

/-- C25 (amended): the output of stage 4 is the concatenation of one piece per segment of
the scan of the loop pattern. The segments spell the input; a character outside the
matches is kept; a match has the shape `for X in range(N):` and is kept or replaced by
`X = 0`, a newline, four spaces and `while X < N:`. -/
theorem loop_substitution (g : Rng) (text : List Char) :
    ((forRangePattern.scan none text 0 0).map Segment.source).flatten = text ∧
    ∃ pieces : List (List Char),
      (stageLoops g text).1 = pieces.flatten ∧
      List.Forall₂ LoopPiece (forRangePattern.scan none text 0 0) pieces := by
  refine ⟨?_, _, rfl, loop_pieces _ ?_ g⟩
  · rw [scan_source forRangePattern (by decide) text none 0 0 (Nat.zero_le _)]; rfl
  · intro o r h
    obtain ⟨p, t, hm⟩ := scan_hit _ _ _ _ _ _ _ h
    exact forRangePattern_shape p t r hm

/-! ## `mutateCode` when every gate is off -/

theorem extends_refl (g : Rng) : g.Extends g := ⟨rfl, le_refl _⟩

theorem extends_trans {g g1 g2 : Rng} (h1 : g.Extends g1) (h2 : g1.Extends g2) :
    g.Extends g2 := ⟨h2.1.trans h1.1, le_trans h1.2 h2.2⟩

theorem extends_next (g : Rng) : g.Extends g.next.2 := ⟨rfl, Nat.le_succ _⟩

theorem extends_next_of {g g1 : Rng} (h : g.next.2.Extends g1) : g.Extends g1 :=
  extends_trans (extends_next g) h

theorem highBelow_of_extends {g g1 : Rng} (N : Nat) (h : g.Extends g1) (hb : g.HighBelow N) :
    g1.HighBelow N := by
  intro n h1 h2
  rw [h.1]
  exact hb n (le_trans h.2 h1) h2

/-- A draw that was consumed before position `N` is high. -/
theorem high_first {g g1 : Rng} {N : Nat} (hb : g.HighBelow N) (h : g.next.2.Extends g1)
    (hN : g1.pos ≤ N) : 6 / 10 ≤ g.next.1.val :=
  hb g.pos (le_refl _) (lt_of_lt_of_le (Nat.lt_of_succ_le h.2) hN)

theorem joinLines_cons (l l2 : List Char) (rest : List (List Char)) :
    joinLines (l :: l2 :: rest) = l ++ '\n' :: joinLines (l2 :: rest) := by
  simp [joinLines, List.intercalate, List.intersperse, List.flatten]

theorem joinLines_singleton (l : List Char) : joinLines [l] = l := by
  simp [joinLines, List.intercalate, List.intersperse, List.flatten]

theorem joinLines_splitNewlineAux (cs : List Char) :
    ∀ cur : List Char, joinLines (splitNewlineAux cs cur) = cur.reverse ++ cs := by
  induction cs with
  | nil => intro cur; simp [splitNewlineAux, joinLines_singleton]
  | cons c cs ih =>
    intro cur
    by_cases hc : c = '\n'
    · simp only [splitNewlineAux, hc, if_true]
      obtain ⟨l2, rest, hl⟩ := List.exists_cons_of_ne_nil (splitNewlineAux_ne_nil cs [])
      rw [hl, joinLines_cons, ← hl, ih]
      simp
    · simp only [splitNewlineAux, hc, if_false]
      rw [ih]; simp

/-- Joining the lines of a text gives the text back. -/
theorem joinLines_splitLines (text : List Char) : joinLines (splitLines text) = text := by
  unfold splitLines
  rw [joinLines_splitNewlineAux]; rfl

/-! ### The stream only moves forward -/

theorem replaceSegments_extends {σ : Type} (f : σ → Nat → MatchResult → List Char × σ)
    (rng : σ → Rng) (hext : ∀ st o r, (rng st).Extends (rng (f st o r).2))
    (segs : List Segment) :
    ∀ st, (rng st).Extends (rng (replaceSegments f st segs).2) := by
  induction segs with
  | nil => intro st; exact extends_refl _
  | cons seg rest ih =>
    intro st
    cases seg with
    | gap c => exact ih st
    | hit o r => exact extends_trans (hext st o r) (ih _)

theorem pushLines_extends (f : Rng → List Char → List (List Char) × Rng)
    (hext : ∀ (g : Rng) (line : List Char), g.Extends (f g line).2) (lines : List (List Char)) :
    ∀ g : Rng, g.Extends (pushLines f g lines).2 := by
  induction lines with
  | nil => intro g; exact extends_refl _
  | cons line rest ih => intro g; exact extends_trans (hext g line) (ih _)

theorem mapLines_extends (f : Rng → List Char → List Char × Rng)
    (hext : ∀ (g : Rng) (line : List Char), g.Extends (f g line).2) (lines : List (List Char)) :
    ∀ g : Rng, g.Extends (mapLines f g lines).2 := by
  induction lines with
  | nil => intro g; exact extends_refl _
  | cons line rest ih => intro g; exact extends_trans (hext g line) (ih _)

theorem randomCase_extends (name : List Char) : ∀ g : Rng, g.Extends (randomCase g name).2 := by
  induction name with
  | nil => intro g; exact extends_refl _
  | cons c cs ih => intro g; exact extends_next_of (ih _)

theorem corruptName_extends (g : Rng) (name : List Char) : g.Extends (corruptName g name).2 :=
  extends_next_of (extends_trans (randomCase_extends name _)
    (extends_next_of (extends_next _)))

theorem corruptIdentifier_extends (st : CorruptState) (o : Nat) (r : MatchResult) :
    st.rng.Extends (corruptIdentifier st o r).2.rng := by
  by_cases h1 : isSkipped r.matched = true
  · rw [corruptIdentifier_skipped st o r h1]; exact extends_refl _
  · by_cases h2 : r.matched ∈ st.seenVars
    · rw [corruptIdentifier_seen st o r h1 h2]; exact extends_refl _
    · by_cases h3 : st.rng.next.1.val < 4 / 10
      · rw [corruptIdentifier_fresh st o r h1 h2 h3]
        exact extends_next_of (corruptName_extends _ _)
      · rw [corruptIdentifier_kept st o r h1 h2 h3]
        exact extends_next _

theorem foldIfElse_extends (g : Rng) (o : Nat) (r : MatchResult) :
    g.next.2.Extends (foldIfElse g o r).2 := by
  unfold foldIfElse
  dsimp only
  split
  · exact extends_refl _
  · split <;> exact extends_refl _

theorem whileLoop_extends (g : Rng) (o : Nat) (r : MatchResult) :
    g.next.2.Extends (whileLoop g o r).2 := by
  unfold whileLoop
  dsimp only
  split <;> exact extends_refl _

theorem respace_extends (g : Rng) (o : Nat) (r : MatchResult) : g.Extends (respace g o r).2 :=
  extends_next g

theorem injectAfter_extends (kw : List Char) (chance : ℚ) (g : Rng) (line : List Char) :
    g.Extends (injectAfter kw chance g line).2 := by
  unfold injectAfter
  dsimp only
  split
  · split
    · exact extends_next_of (extends_next _)
    · exact extends_next _
  · exact extends_refl _

theorem injectLine_extends (g : Rng) (line : List Char) : g.Extends (injectLine g line).2 :=
  extends_trans (injectAfter_extends _ _ g line) (injectAfter_extends _ _ _ line)

theorem jitterLine_extends (g : Rng) (line : List Char) : g.Extends (jitterLine g line).2 := by
  unfold jitterLine
  dsimp only
  split
  · exact extends_refl _
  · split
    · exact extends_next_of (extends_next _)
    · exact extends_next _

theorem blankAfter_extends (g : Rng) (line : List Char) : g.Extends (blankAfter g line).2 := by
  unfold blankAfter
  dsimp only
  split <;> exact extends_next _

theorem stageIfElse_extends (g : Rng) (text : List Char) : g.Extends (stageIfElse g text).2 :=
  replaceSegments_extends foldIfElse id
    (fun st o r => extends_next_of (foldIfElse_extends st o r)) _ g

theorem stageCorrupt_extends (g : Rng) (text : List Char) : g.Extends (stageCorrupt g text).2 :=
  replaceSegments_extends corruptIdentifier CorruptState.rng corruptIdentifier_extends _
    { rng := g, seenVars := [], varMap := [] }

theorem stageComments_extends (g : Rng) (text : List Char) :
    g.Extends (stageComments g text).2 :=
  pushLines_extends injectLine injectLine_extends _ g

theorem stageLoops_extends (g : Rng) (text : List Char) : g.Extends (stageLoops g text).2 :=
  replaceSegments_extends whileLoop id
    (fun st o r => extends_next_of (whileLoop_extends st o r)) _ g

theorem stageQuotes_extends (g : Rng) (text : List Char) : g.Extends (stageQuotes g text).2 := by
  unfold stageQuotes
  dsimp only
  split <;> exact extends_next _

theorem stageIndent_extends (g : Rng) (text : List Char) : g.Extends (stageIndent g text).2 :=
  mapLines_extends jitterLine jitterLine_extends _ g

theorem stageSpacing_extends (g : Rng) (text : List Char) :
    g.next.2.Extends (stageSpacing g text).2 := by
  unfold stageSpacing
  dsimp only
  split
  · exact replaceSegments_extends respace id respace_extends _ g.next.2
  · exact extends_refl _

theorem stageBlankLines_extends (g : Rng) (text : List Char) :
    g.next.2.Extends (stageBlankLines g text).2 := by
  unfold stageBlankLines
  dsimp only
  split
  · exact pushLines_extends blankAfter blankAfter_extends _ g.next.2
  · exact extends_refl _

/-! ### A stage whose draws are all high returns its input -/

theorem highBelow_mono {g : Rng} {M N : Nat} (h : M ≤ N) (hb : g.HighBelow N) :
    g.HighBelow M := fun n h1 h2 => hb n h1 (lt_of_lt_of_le h2 h)

theorem highBelow_first {g g1 : Rng} (hb : g.HighBelow g1.pos) (h : g.next.2.Extends g1) :
    6 / 10 ≤ g.next.1.val :=
  hb g.pos (le_refl _) (Nat.lt_of_succ_le h.2)

/-- A callback that returns the match whenever the draws it consumes are high leaves the
text as it is, when every draw consumed is high. -/
theorem replaceSegments_high {σ : Type} (f : σ → Nat → MatchResult → List Char × σ)
    (rng : σ → Rng) (Inv : σ → Prop)
    (hext : ∀ st o r, (rng st).Extends (rng (f st o r).2))
    (hf : ∀ st o r, Inv st → (rng st).HighBelow (rng (f st o r).2).pos →
      (f st o r).1 = r.matched ∧ Inv (f st o r).2)
    (N : Nat) (segs : List Segment) :
    ∀ st, Inv st → (rng st).HighBelow N → (rng (replaceSegments f st segs).2).pos ≤ N →
      (replaceSegments f st segs).1 = segs.map Segment.source := by
  induction segs with
  | nil => intro st _ _ _; rfl
  | cons seg rest ih =>
    intro st hinv hb hN
    cases seg with
    | gap c =>
      simp only [replaceSegments, List.map_cons, Segment.source]
      rw [ih st hinv hb hN]
    | hit o r =>
      have hrest := replaceSegments_extends f rng hext rest (f st o r).2
      have hN1 : (rng (f st o r).2).pos ≤ N := le_trans hrest.2 hN
      obtain ⟨g1, g2⟩ := hf st o r hinv (highBelow_mono hN1 hb)
      simp only [replaceSegments, List.map_cons, Segment.source]
      rw [g1, ih _ g2 (highBelow_of_extends N (hext st o r) hb) hN]

theorem replaceAll_high {σ : Type} (re : Re) (hmin : 1 ≤ re.minLength)
    (f : σ → Nat → MatchResult → List Char × σ) (rng : σ → Rng) (Inv : σ → Prop)
    (hext : ∀ st o r, (rng st).Extends (rng (f st o r).2))
    (hf : ∀ st o r, Inv st → (rng st).HighBelow (rng (f st o r).2).pos →
      (f st o r).1 = r.matched ∧ Inv (f st o r).2)
    (N : Nat) (st : σ) (hinv : Inv st) (hb : (rng st).HighBelow N) (text : List Char)
    (hN : (rng (re.replaceAll f st text).2).pos ≤ N) :
    (re.replaceAll f st text).1 = text := by
  show (replaceSegments f st (re.scan none text 0 0)).1.flatten = text
  rw [replaceSegments_high f rng Inv hext hf N _ st hinv hb hN,
    scan_source re hmin text none 0 0 (Nat.zero_le _)]
  rfl

theorem pushLines_high (f : Rng → List Char → List (List Char) × Rng)
    (hext : ∀ (g : Rng) (line : List Char), g.Extends (f g line).2)
    (hf : ∀ (g : Rng) (line : List Char), g.HighBelow (f g line).2.pos → (f g line).1 = [line])
    (N : Nat) (lines : List (List Char)) :
    ∀ g : Rng, g.HighBelow N → (pushLines f g lines).2.pos ≤ N →
      (pushLines f g lines).1 = lines := by
  induction lines with
  | nil => intro g _ _; rfl
  | cons line rest ih =>
    intro g hb hN
    have hrest := pushLines_extends f hext rest (f g line).2
    have hN1 : (f g line).2.pos ≤ N := le_trans hrest.2 hN
    have g1 := hf g line (highBelow_mono hN1 hb)
    simp only [pushLines]
    rw [g1, ih _ (highBelow_of_extends N (hext g line) hb) hN]
    rfl

theorem mapLines_high (f : Rng → List Char → List Char × Rng)
    (hext : ∀ (g : Rng) (line : List Char), g.Extends (f g line).2)
    (hf : ∀ (g : Rng) (line : List Char), g.HighBelow (f g line).2.pos → (f g line).1 = line)
    (N : Nat) (lines : List (List Char)) :
    ∀ g : Rng, g.HighBelow N → (mapLines f g lines).2.pos ≤ N →
      (mapLines f g lines).1 = lines := by
  induction lines with
  | nil => intro g _ _; rfl
  | cons line rest ih =>
    intro g hb hN
    have hrest := mapLines_extends f hext rest (f g line).2
    have hN1 : (f g line).2.pos ≤ N := le_trans hrest.2 hN
    have g1 := hf g line (highBelow_mono hN1 hb)
    simp only [mapLines]
    rw [g1, ih _ (highBelow_of_extends N (hext g line) hb) hN]

theorem stageIfElse_high (g : Rng) (N : Nat) (hb : g.HighBelow N) (text : List Char)
    (hN : (stageIfElse g text).2.pos ≤ N) : (stageIfElse g text).1 = text := by
  apply replaceAll_high ifElsePattern (by decide) foldIfElse id (fun _ => True)
    (fun st o r => extends_next_of (foldIfElse_extends st o r)) _ N g trivial hb text hN
  intro st o r _ hhigh
  have h1 := highBelow_first hhigh (foldIfElse_extends st o r)
  have hgt : st.next.1.val > 1 / 2 := lt_of_lt_of_le (by norm_num) h1
  simp only [foldIfElse, hgt, if_true, and_self]

theorem stageCorrupt_high (g : Rng) (N : Nat) (hb : g.HighBelow N) (text : List Char)
    (hN : (stageCorrupt g text).2.pos ≤ N) : (stageCorrupt g text).1 = text := by
  apply replaceAll_high varPattern (by decide) corruptIdentifier CorruptState.rng
    (fun st => st.varMap = []) corruptIdentifier_extends _ N
    { rng := g, seenVars := [], varMap := [] } rfl hb text hN
  intro st o r hst hhigh
  by_cases h1 : isSkipped r.matched = true
  · rw [corruptIdentifier_skipped st o r h1]; exact ⟨rfl, hst⟩
  · by_cases h2 : r.matched ∈ st.seenVars
    · rw [corruptIdentifier_seen st o r h1 h2]
      exact ⟨by simp [lookupOr, hst], hst⟩
    · have h3 : ¬ st.rng.next.1.val < 4 / 10 := by
        intro hlt
        rw [corruptIdentifier_fresh st o r h1 h2 hlt] at hhigh
        exact absurd (highBelow_first hhigh (corruptName_extends _ _))
          (not_le.mpr (lt_of_lt_of_le hlt (by norm_num)))
      rw [corruptIdentifier_kept st o r h1 h2 h3]
      exact ⟨rfl, hst⟩

theorem injectAfter_high (kw : List Char) (chance : ℚ) (hc : chance ≤ 6 / 10) (g : Rng)
    (line : List Char) (hhigh : g.HighBelow (injectAfter kw chance g line).2.pos) :
    (injectAfter kw chance g line).1 = [] := by
  unfold injectAfter at hhigh ⊢
  by_cases hk : kw.isPrefixOf (trim line) = true
  · simp only [hk, if_true] at hhigh ⊢
    by_cases hd : g.next.1.val < chance
    · simp only [hd, if_true] at hhigh
      exact absurd (highBelow_first hhigh (extends_next _))
        (not_le.mpr (lt_of_lt_of_le hd hc))
    · simp only [hd, if_false]
  · simp only [hk, Bool.false_eq_true, if_false]

theorem injectLine_high (g : Rng) (line : List Char)
    (hhigh : g.HighBelow (injectLine g line).2.pos) : (injectLine g line).1 = [line] := by
  have hb := injectAfter_extends "class ".data (4 / 10)
    (injectAfter "def ".data (6 / 10) g line).2 line
  have ha := injectAfter_extends "def ".data (6 / 10) g line
  have a1 := injectAfter_high "def ".data (6 / 10) (le_refl _) g line
    (highBelow_mono hb.2 hhigh)
  have b1 := injectAfter_high "class ".data (4 / 10) (by norm_num)
    (injectAfter "def ".data (6 / 10) g line).2 line
    (highBelow_of_extends _ ha hhigh)
  simp only [injectLine, a1, b1, List.append_nil]

theorem stageComments_high (g : Rng) (N : Nat) (hb : g.HighBelow N) (text : List Char)
    (hN : (stageComments g text).2.pos ≤ N) : (stageComments g text).1 = text := by
  have key := pushLines_high injectLine injectLine_extends injectLine_high N
    (splitLines text) g hb hN
  simp only [stageComments, key, joinLines_splitLines]

theorem stageLoops_high (g : Rng) (N : Nat) (hb : g.HighBelow N) (text : List Char)
    (hN : (stageLoops g text).2.pos ≤ N) : (stageLoops g text).1 = text := by
  apply replaceAll_high forRangePattern (by decide) whileLoop id (fun _ => True)
    (fun st o r => extends_next_of (whileLoop_extends st o r)) _ N g trivial hb text hN
  intro st o r _ hhigh
  have h1 := highBelow_first hhigh (whileLoop_extends st o r)
  have h3 : ¬ st.next.1.val < 3 / 10 := not_lt.mpr (le_trans (by norm_num) h1)
  simp only [whileLoop, h3, if_false, and_self]

theorem stageQuotes_high (g : Rng) (N : Nat) (hb : g.HighBelow N) (text : List Char)
    (hN : (stageQuotes g text).2.pos ≤ N) : (stageQuotes g text).1 = text := by
  have h1 := highBelow_first (highBelow_mono hN hb)
    (by unfold stageQuotes; dsimp only; split <;> exact extends_refl _)
  have h3 : ¬ g.next.1.val < 4 / 10 := not_lt.mpr (le_trans (by norm_num) h1)
  simp only [stageQuotes, h3, if_false]

theorem jitterLine_high (g : Rng) (line : List Char)
    (hhigh : g.HighBelow (jitterLine g line).2.pos) : (jitterLine g line).1 = line := by
  unfold jitterLine at hhigh ⊢
  by_cases hn : leadingSpaces line = 0
  · simp only [hn, if_true]
  · simp only [hn, if_false] at hhigh ⊢
    by_cases hd : g.next.1.val < 3 / 10
    · simp only [hd, if_true] at hhigh
      exact absurd (highBelow_first hhigh (extends_next _))
        (not_le.mpr (lt_of_lt_of_le hd (by norm_num)))
    · simp only [hd, if_false]

theorem stageIndent_high (g : Rng) (N : Nat) (hb : g.HighBelow N) (text : List Char)
    (hN : (stageIndent g text).2.pos ≤ N) : (stageIndent g text).1 = text := by
  have key := mapLines_high jitterLine jitterLine_extends jitterLine_high N
    (splitLines text) g hb hN
  simp only [stageIndent, key, joinLines_splitLines]

theorem stageSpacing_high (g : Rng) (N : Nat) (hb : g.HighBelow N) (text : List Char)
    (hN : (stageSpacing g text).2.pos ≤ N) : (stageSpacing g text).1 = text := by
  have h1 := highBelow_first (highBelow_mono hN hb) (stageSpacing_extends g text)
  have h3 : ¬ g.next.1.val < 35 / 100 := not_lt.mpr (le_trans (by norm_num) h1)
  simp only [stageSpacing, h3, if_false]

theorem stageBlankLines_high (g : Rng) (N : Nat) (hb : g.HighBelow N) (text : List Char)
    (hN : (stageBlankLines g text).2.pos ≤ N) : (stageBlankLines g text).1 = text := by
  have h1 := highBelow_first (highBelow_mono hN hb) (stageBlankLines_extends g text)
  have h3 : ¬ g.next.1.val < 2 / 10 := not_lt.mpr (le_trans (by norm_num) h1)
  simp only [stageBlankLines, h3, if_false]


theorem highStream_high (N : Nat) : highStream.HighBelow N := by
  intro n _ _
  norm_num [highStream, Rng.const, drawOf]

/-- C26: with a current profile, if every draw that the call consumes is at least `0.6`
(every gate is then off), `mutateCode` returns the text unchanged. The draws consumed are
those of the stream from its position at the call up to its position at the return. -/
theorem mutateCode_gates_off (state : State) (g : Rng) (code : String)
    (hprofile : state.currentMutation ≠ none)
    (h : ∀ n, g.pos ≤ n → n < (mutateCode state g code).2.pos → 6 / 10 ≤ (g.draws n).val) :
    (mutateCode state g code).1 = code := by
  unfold mutateCode at h ⊢
  cases hm : state.currentMutation with
  | none => exact absurd hm hprofile
  | some m =>
    rw [hm] at h
    simp only at h ⊢
    generalize hN : (stageBlankLines _ _).2.pos = N at h
    have hb : g.HighBelow N := h
    have e1 := stageIfElse_extends g code.data
    generalize hr1 : stageIfElse g code.data = r1 at *
    have e2 := stageCorrupt_extends r1.2 r1.1
    generalize hr2 : stageCorrupt r1.2 r1.1 = r2 at *
    have e3 := stageComments_extends r2.2 r2.1
    generalize hr3 : stageComments r2.2 r2.1 = r3 at *
    have e4 := stageLoops_extends r3.2 r3.1
    generalize hr4 : stageLoops r3.2 r3.1 = r4 at *
    have e5 := stageQuotes_extends r4.2 r4.1
    generalize hr5 : stageQuotes r4.2 r4.1 = r5 at *
    have e6 := stageIndent_extends r5.2 r5.1
    generalize hr6 : stageIndent r5.2 r5.1 = r6 at *
    have e7 := extends_next_of (stageSpacing_extends r6.2 r6.1)
    generalize hr7 : stageSpacing r6.2 r6.1 = r7 at *
    have e8 := extends_next_of (stageBlankLines_extends r7.2 r7.1)
    generalize hr8 : stageBlankLines r7.2 r7.1 = r8 at *
    have n8 : r8.2.pos ≤ N := le_of_eq hN
    have n7 : r7.2.pos ≤ N := le_trans e8.2 n8
    have n6 : r6.2.pos ≤ N := le_trans e7.2 n7
    have n5 : r5.2.pos ≤ N := le_trans e6.2 n6
    have n4 : r4.2.pos ≤ N := le_trans e5.2 n5
    have n3 : r3.2.pos ≤ N := le_trans e4.2 n4
    have n2 : r2.2.pos ≤ N := le_trans e3.2 n3
    have n1 : r1.2.pos ≤ N := le_trans e2.2 n2
    have b1 := highBelow_of_extends N e1 hb
    have b2 := highBelow_of_extends N e2 b1
    have b3 := highBelow_of_extends N e3 b2
    have b4 := highBelow_of_extends N e4 b3
    have b5 := highBelow_of_extends N e5 b4
    have b6 := highBelow_of_extends N e6 b5
    have b7 := highBelow_of_extends N e7 b6
    have a1 : r1.1 = code.data := by
      rw [← hr1]; exact stageIfElse_high g N hb code.data (by rw [hr1]; exact n1)
    have a2 : r2.1 = r1.1 := by
      rw [← hr2]; exact stageCorrupt_high r1.2 N b1 r1.1 (by rw [hr2]; exact n2)
    have a3 : r3.1 = r2.1 := by
      rw [← hr3]; exact stageComments_high r2.2 N b2 r2.1 (by rw [hr3]; exact n3)
    have a4 : r4.1 = r3.1 := by
      rw [← hr4]; exact stageLoops_high r3.2 N b3 r3.1 (by rw [hr4]; exact n4)
    have a5 : r5.1 = r4.1 := by
      rw [← hr5]; exact stageQuotes_high r4.2 N b4 r4.1 (by rw [hr5]; exact n5)
    have a6 : r6.1 = r5.1 := by
      rw [← hr6]; exact stageIndent_high r5.2 N b5 r5.1 (by rw [hr6]; exact n6)
    have a7 : r7.1 = r6.1 := by
      rw [← hr7]; exact stageSpacing_high r6.2 N b6 r6.1 (by rw [hr7]; exact n7)
    have a8 : r8.1 = r7.1 := by
      rw [← hr8]; exact stageBlankLines_high r7.2 N b7 r7.1 (by rw [hr8]; exact n8)
    rw [a8, a7, a6, a5, a4, a3, a2, a1]

/-- Witness of C26: a small program under the profile of `crashingState`, on the stream of
draws `0.9`. -/
theorem mutateCode_gates_off_witness :
    (mutateCode crashingState highStream "def f(x):\n    return 'a' + x").1 =
      "def f(x):\n    return 'a' + x" :=
  mutateCode_gates_off crashingState highStream "def f(x):\n    return 'a' + x" (by decide)
    (highStream_high _)

end EditorStore
